import Mathlib

/-!
DGraph: a directed graph over a dense adjacency matrix.

A shallow embedding of the class template `DGraph<T, W>` of `TGr.h`, and
proofs about its traversals (`BFS`, `DFS`), its shortest-path routine
(`BellmanFord`), its mutators (`AddV`, `DeleteV`, `AddE`, `DeleteE`), its
queries (`HasEdge`, `GetEdge`, `GetWeight`, `GetNeighbors`) and its file
operations (`saveGraphML`, `loadGraphML`).

Modelling conventions.

* Weights are whole numbers: the values of `W` that are integers.  The
  container compares weights (`!=`, `>`), which `W` does exactly, and only
  `BellmanFord` adds them.  The operator `+` of `W` is a parameter `add` of
  `BellmanFord`.  Every instantiation in the repository has `W = double`,
  whose sum of two whole numbers is the exact sum rounded to 53 significant
  binary digits (`dblAdd`): exact below `2 ^ 53`, rounded above.
* `vertices` is a list of labels, `adj` a list of rows, `indexMap` a finite
  map seen through its lookup function (`none` for an absent key).
* The fixed-size work vectors of the algorithms (`visited`, `in_queue`,
  `dist`, all created with `n = Size()` cells) are functions on `Fin n`;
  the queue and the stack hold indices of type `Fin n`.
* `runtime_error` is an `Except` error.  The source signals every failure
  with the same exception type; the error kinds follow the messages.
* An index found in `indexMap` that is not below `Size()` would make the
  source read a vector out of range; the model returns `OutOfRange` there.
  A matrix cell outside the stored rows reads as `INF`.
* A mutator returns the new state or an error.  Each mutator throws, if at
  all, before its first assignment, so the object after a failed call is the
  object before it (`after`).
* The operations named `...Checked` are the same operations with every
  matrix subscript, every erase position and the start index checked; they
  fail with `OutOfRange` where the source would leave the stored data.
* A text is a list of characters.  `loadGraphML` takes the content of the
  file (`none` when it cannot be opened) and returns the container when the
  call ends together with the failure, if it throws; `saveGraphML` returns
  the text it writes.  The conversions of the weight type from and to text
  belong to the standard library and are parameters (`parseW`, `showW`);
  `wholeW` is the conversion from text on the texts that write a whole
  number in the plain way.
-/

namespace DGraph

/-- The failure kinds of the container. -/
inductive GraphError where
  | NotFound
  | AlreadyExists
  | EdgeNotFound
  | NegativeCycle
  | OutOfRange
  deriving DecidableEq, Repr

end DGraph

/-- The state of a `DGraph<T, W>` object whose weights are whole numbers. -/
structure DGraph (T : Type) where
  vertices : List T
  adj : List (List Int)
  indexMap : T → Option Nat
  INF : Int

namespace DGraph

variable {T : Type}

/-! ## The container, its algorithms and the notions the statements use -/

/-- The constructor `DGraph(W InVal)`: an empty graph with the given sentinel. -/
def empty (InVal : Int) : DGraph T :=
  { vertices := [], adj := [], indexMap := fun _ => none, INF := InVal }

/-- `Size()`: the number of vertices. -/
def Size (g : DGraph T) : Nat := g.vertices.length

/-- `HasVert(v)`: is the label a key of the index map. -/
def HasVert (g : DGraph T) (v : T) : Bool := (g.indexMap v).isSome

/-- The matrix cell `adj[u][v]`. -/
def cell (g : DGraph T) (u v : Nat) : Int := (g.adj.getD u []).getD v g.INF

/-- `HasEdge(from, to)`. -/
def HasEdge (g : DGraph T) (a b : T) : Bool :=
  match g.indexMap a, g.indexMap b with
  | some u, some v => decide (g.cell u v ≠ g.INF)
  | _, _ => false

/-- `GetEdge(from, to)`. -/
def GetEdge (g : DGraph T) (a b : T) : Except GraphError Int :=
  match g.indexMap a, g.indexMap b with
  | some u, some v =>
    if g.cell u v = g.INF then .error .EdgeNotFound else .ok (g.cell u v)
  | _, _ => .error .NotFound

/-- `GetWeight(from, to)`. -/
def GetWeight (g : DGraph T) (a b : T) : Except GraphError Int :=
  match g.indexMap a, g.indexMap b with
  | some u, some v =>
    if g.cell u v = g.INF then .error .EdgeNotFound else .ok (g.cell u v)
  | _, _ => .error .NotFound

/-- The assignment `indexMap[key] = i`. -/
def mapInsert [DecidableEq T] (m : T → Option Nat) (key : T) (i : Nat) : T → Option Nat :=
  fun x => if x = key then some i else m x

/-- `AddV(value)`. -/
def AddV [DecidableEq T] (g : DGraph T) (value : T) : Except GraphError (DGraph T) :=
  match g.indexMap value with
  | some _ => .error .AlreadyExists
  | none =>
    let vertices := g.vertices ++ [value]
    .ok { vertices := vertices
          indexMap := mapInsert g.indexMap value (vertices.length - 1)
          adj := g.adj.map (fun row => row ++ [g.INF]) ++ [List.replicate vertices.length g.INF]
          INF := g.INF }

/-- The assignment `indexMap[vertices[i]] = i`. -/
def indexStep [DecidableEq T] (vs : List T) (m : T → Option Nat) (i : Nat) : T → Option Nat :=
  match vs[i]? with
  | some x => mapInsert m x i
  | none => m

/-- The loop `for i: indexMap[vertices[i]] = i` run on a cleared map. -/
def rebuildIndex [DecidableEq T] (vs : List T) : T → Option Nat :=
  (List.range vs.length).foldl (indexStep vs) (fun _ => none)

/-- `DeleteV(value)`. -/
def DeleteV [DecidableEq T] (g : DGraph T) (value : T) : Except GraphError (DGraph T) :=
  match g.indexMap value with
  | none => .error .NotFound
  | some idx =>
    let vertices := g.vertices.eraseIdx idx
    .ok { vertices := vertices
          adj := (g.adj.eraseIdx idx).map (fun row => row.eraseIdx idx)
          indexMap := rebuildIndex vertices
          INF := g.INF }

/-- The assignment `adj[u][v] = w`. -/
def setCell (adj : List (List Int)) (u v : Nat) (w : Int) : List (List Int) :=
  adj.set u ((adj.getD u []).set v w)

/-- `AddE(from, to, weight)`. -/
def AddE (g : DGraph T) (a b : T) (weight : Int) : Except GraphError (DGraph T) :=
  match g.indexMap a, g.indexMap b with
  | some u, some v => .ok { g with adj := setCell g.adj u v weight }
  | _, _ => .error .NotFound

/-- `DeleteE(from, to)`. -/
def DeleteE (g : DGraph T) (a b : T) : Except GraphError (DGraph T) :=
  match g.indexMap a, g.indexMap b with
  | some u, some v => .ok { g with adj := setCell g.adj u v g.INF }
  | _, _ => .error .NotFound

/-- The lookup of the start vertex shared by the three algorithms:
`NotFound` for an absent label, otherwise its index, which must address the
work vectors of `Size()` cells. -/
def startIndex (g : DGraph T) (start : T) : Except GraphError (Fin g.Size) :=
  match g.indexMap start with
  | none => .error .NotFound
  | some s => if h : s < g.Size then .ok ⟨s, h⟩ else .error .OutOfRange

/-- The label `vertices[u]`. -/
def label (g : DGraph T) (u : Fin g.Size) : T := g.vertices.get u

/-- Number of cells of a flag vector that are still `0`. -/
def unmarked {n : Nat} (f : Fin n → Bool) : Nat :=
  (Finset.univ.filter (fun v => f v = false)).card

/-- One iteration of the neighbour loop of `BFS` for the candidate `v`. -/
def bfsPush (g : DGraph T) (u : Fin g.Size) (visited : Fin g.Size → Bool)
    (st : List (Fin g.Size) × (Fin g.Size → Bool)) (v : Fin g.Size) :
    List (Fin g.Size) × (Fin g.Size → Bool) :=
  if g.cell u v ≠ g.INF ∧ visited v = false ∧ st.2 v = false then
    (st.1 ++ [v], Function.update st.2 v true)
  else st

/-- The loop `for (int v = 0; v < n; ++v)` of `BFS`. -/
def bfsScan (g : DGraph T) (u : Fin g.Size) (visited : Fin g.Size → Bool)
    (q : List (Fin g.Size)) (inq : Fin g.Size → Bool) :
    List (Fin g.Size) × (Fin g.Size → Bool) :=
  (List.finRange g.Size).foldl (bfsPush g u visited) (q, inq)

theorem unmarked_update {n : Nat} (f : Fin n → Bool) (u : Fin n) (h : f u = false) :
    unmarked (Function.update f u true) + 1 = unmarked f := by
  unfold unmarked
  have hset : Finset.univ.filter (fun v => Function.update f u true v = false)
      = (Finset.univ.filter (fun v => f v = false)).erase u := by
    ext v
    by_cases hv : v = u
    · subst hv; simp
    · simp [Function.update_noteq hv, hv]
  rw [hset, Finset.card_erase_of_mem (by simp [h])]
  have : 0 < (Finset.univ.filter (fun v => f v = false)).card :=
    Finset.card_pos.mpr ⟨u, by simp [h]⟩
  omega

theorem bfsPush_measure (g : DGraph T) (u : Fin g.Size) (visited : Fin g.Size → Bool)
    (st : List (Fin g.Size) × (Fin g.Size → Bool)) (v : Fin g.Size) :
    (bfsPush g u visited st v).1.length + unmarked (bfsPush g u visited st v).2
      = st.1.length + unmarked st.2 := by
  unfold bfsPush
  split
  · rename_i h
    have := unmarked_update st.2 v h.2.2
    simp only [List.length_append, List.length_singleton]
    omega
  · rfl

theorem bfsScan_measure (g : DGraph T) (u : Fin g.Size) (visited : Fin g.Size → Bool)
    (q : List (Fin g.Size)) (inq : Fin g.Size → Bool) :
    (bfsScan g u visited q inq).1.length + unmarked (bfsScan g u visited q inq).2
      = q.length + unmarked inq := by
  unfold bfsScan
  generalize List.finRange g.Size = vs
  have key : ∀ (st : List (Fin g.Size) × (Fin g.Size → Bool)),
      (vs.foldl (bfsPush g u visited) st).1.length
        + unmarked (vs.foldl (bfsPush g u visited) st).2 = st.1.length + unmarked st.2 := by
    induction vs with
    | nil => intro st; rfl
    | cons v vs ih =>
      intro st
      rw [List.foldl_cons, ih, bfsPush_measure]
  exact key (q, inq)

/-- The loop `while (!q.empty())` of `BFS`. -/
def bfsLoop (g : DGraph T) (q : List (Fin g.Size)) (visited inq : Fin g.Size → Bool)
    (order : List T) : List T :=
  match q with
  | [] => order
  | u :: rest =>
    if visited u = true then
      bfsLoop g rest visited inq order
    else
      bfsLoop g (bfsScan g u (Function.update visited u true) rest inq).1
        (Function.update visited u true)
        (bfsScan g u (Function.update visited u true) rest inq).2
        (order ++ [g.label u])
termination_by q.length + unmarked inq
decreasing_by
  · simp only [List.length_cons]; omega
  · rw [bfsScan_measure]; simp only [List.length_cons]; omega

/-- `BFS(start)`. -/
def BFS (g : DGraph T) (start : T) : Except GraphError (List T) :=
  match g.startIndex start with
  | .error e => .error e
  | .ok s => .ok (bfsLoop g [s] (fun _ => false) (Function.update (fun _ => false) s true) [])

/-- The neighbours pushed by the loop `for (int v = 0; v < n; ++v)` of `DFS`,
in pushing order. -/
def dfsPushed (g : DGraph T) (u : Fin g.Size) (visited : Fin g.Size → Bool) :
    List (Fin g.Size) :=
  (List.finRange g.Size).filter (fun v => decide (g.cell u v ≠ g.INF) && !visited v)

/-- The loop `while (!st.empty())` of `DFS`; the head of the list is the top
of the stack. -/
def dfsLoop (g : DGraph T) (st : List (Fin g.Size)) (visited : Fin g.Size → Bool)
    (order : List T) : List T :=
  match st with
  | [] => order
  | u :: rest =>
    if _h : visited u = true then
      dfsLoop g rest visited order
    else
      dfsLoop g ((dfsPushed g u (Function.update visited u true)).reverse ++ rest)
        (Function.update visited u true) (order ++ [g.label u])
termination_by (unmarked visited, st.length)
decreasing_by
  · exact Prod.Lex.right _ (by simp)
  · exact Prod.Lex.left _ _ (by
      have := unmarked_update visited u (by simpa using _h)
      omega)

/-- `DFS(start)`. -/
def DFS (g : DGraph T) (start : T) : Except GraphError (List T) :=
  match g.startIndex start with
  | .error e => .error e
  | .ok s => .ok (dfsLoop g [s] (fun _ => false) [])

/-- The first of the numbers `p`, `2 * p`, `4 * p`, ... that divides `m` to a
quotient below `2 ^ 53`; `fuel` bounds the number of doublings. -/
def spacingAux : Nat → Nat → Nat → Nat
  | 0, _, p => p
  | fuel + 1, m, p => if m / p < 2 ^ 53 then p else spacingAux fuel m (2 * p)

/-- The spacing of the doubles around a whole number of size `m`, the least
power of two `p` with `m / p < 2 ^ 53`: `1` below `2 ^ 53`, `2` from there
to `2 ^ 54`, and so on.  (`m` doublings are more than enough.) -/
def spacing (m : Nat) : Nat := spacingAux m m 1

/-- The double nearest to the whole number `x`, as IEEE 754 rounds to
nearest: the multiple of the spacing at `x` that is nearest to `x`, and of
two multiples equally near the even one.  For `x` of size below `2 ^ 1024`;
a double has 53 significant binary digits. -/
def roundDbl (x : Int) : Int :=
  let p := spacing x.natAbs
  let q := x.natAbs / p
  let r := x.natAbs % p
  let q1 := if 2 * r < p then q else if p < 2 * r then q + 1 else if q % 2 = 0 then q else q + 1
  Int.sign x * ((q1 * p : Nat) : Int)

/-- The operator `+` of `double` on whole numbers: the exact sum, rounded to
the nearest double.  Every instantiation of the container in the repository
has `W = double`.  For sums of size below `2 ^ 1024`. -/
def dblAdd (a b : Int) : Int := roundDbl (a + b)

/-- The body of the two inner loops of `BellmanFord` for the pair `(u, v)`.
`add` is the operator `+` of the weight type `W`; the comparisons `!=` and
`>` of `W` are those of the numbers. -/
def relaxEdge (g : DGraph T) (add : Int → Int → Int) (dist : Fin g.Size → Int)
    (u v : Fin g.Size) : Fin g.Size → Int :=
  if g.cell u v ≠ g.INF ∧ dist u ≠ g.INF then
    if dist v > add (dist u) (g.cell u v) then
      Function.update dist v (add (dist u) (g.cell u v))
    else dist
  else dist

/-- The loop `for v` for a fixed `u`. -/
def relaxRow (g : DGraph T) (add : Int → Int → Int) (dist : Fin g.Size → Int)
    (u : Fin g.Size) : Fin g.Size → Int :=
  (List.finRange g.Size).foldl (fun d v => relaxEdge g add d u v) dist

/-- One pass `for u, for v` over all matrix cells. -/
def relaxPass (g : DGraph T) (add : Int → Int → Int) (dist : Fin g.Size → Int) :
    Fin g.Size → Int :=
  (List.finRange g.Size).foldl (relaxRow g add) dist

/-- The loop `for (int k = 0; k < n - 1; ++k)`: that many passes. -/
def relaxPasses (g : DGraph T) (add : Int → Int → Int) :
    Nat → (Fin g.Size → Int) → (Fin g.Size → Int)
  | 0, dist => dist
  | k + 1, dist => relaxPasses g add k (relaxPass g add dist)

/-- The test of the final double loop: does some cell still allow a strict
improvement. -/
def improvable (g : DGraph T) (add : Int → Int → Int) (dist : Fin g.Size → Int) : Bool :=
  (List.finRange g.Size).any (fun u => (List.finRange g.Size).any (fun v =>
    decide (g.cell u v ≠ g.INF ∧ dist u ≠ g.INF ∧ dist v > add (dist u) (g.cell u v))))

/-- The vector `dist` after the main loop of `BellmanFord`. -/
def bfDist (g : DGraph T) (add : Int → Int → Int) (s : Fin g.Size) : Fin g.Size → Int :=
  relaxPasses g add (g.Size - 1) (Function.update (fun _ => g.INF) s 0)

/-- `BellmanFord(start)`, the weights being added with `add`. -/
def BellmanFord (g : DGraph T) (add : Int → Int → Int) (start : T) :
    Except GraphError (List Int) :=
  match g.startIndex start with
  | .error e => .error e
  | .ok s =>
    if improvable g add (bfDist g add s) then .error .NegativeCycle
    else .ok (List.ofFn (bfDist g add s))

/-- The representation invariant of the container. -/
structure WellFormed (g : DGraph T) : Prop where
  rows : g.adj.length = g.Size
  cols : ∀ row ∈ g.adj, row.length = g.Size
  nodup : g.vertices.Nodup
  index : ∀ (x : T) (i : Nat), g.indexMap x = some i ↔ g.vertices[i]? = some x

/-- A directed edge between two vertex indices: the cell is not the sentinel. -/
def Edge (g : DGraph T) (u v : Fin g.Size) : Prop := g.cell u v ≠ g.INF

/-- Reachability along directed edges, on indices. -/
def Reach (g : DGraph T) : Fin g.Size → Fin g.Size → Prop := Relation.ReflTransGen g.Edge

/-- A directed path of exactly `k` edges from `s`, on indices. -/
inductive Hops (g : DGraph T) (s : Fin g.Size) : Nat → Fin g.Size → Prop where
  | zero : Hops g s 0 s
  | succ {k : Nat} {u v : Fin g.Size} : Hops g s k u → g.Edge u v → Hops g s (k + 1) v

/-- Reachability along directed edges, on labels. -/
def Reachable (g : DGraph T) : T → T → Prop :=
  Relation.ReflTransGen (fun a b => g.HasEdge a b = true)

/-- A directed path of exactly `k` edges from `a`, on labels. -/
inductive HopPath (g : DGraph T) (a : T) : Nat → T → Prop where
  | zero : HopPath g a 0 a
  | succ {k : Nat} {b c : T} : HopPath g a k b → g.HasEdge b c = true → HopPath g a (k + 1) c

/-- The number `d` is the least number of edges of a directed path from `a` to `b`. -/
def MinHops (g : DGraph T) (a b : T) (d : Nat) : Prop :=
  g.HopPath a d b ∧ ∀ k, g.HopPath a k b → d ≤ k

/-- The test of the neighbour loop of `BFS`, as a Boolean. -/
def bfsCond (g : DGraph T) (u : Fin g.Size) (visited inq : Fin g.Size → Bool)
    (v : Fin g.Size) : Bool :=
  decide (g.cell u v ≠ g.INF) && !visited v && !inq v

/-- The vertices enqueued by one run of the neighbour loop of `BFS`. -/
def bfsNew (g : DGraph T) (u : Fin g.Size) (visited inq : Fin g.Size → Bool) :
    List (Fin g.Size) :=
  (List.finRange g.Size).filter (bfsCond g u visited inq)

/-- The vertex `x` is at most as far from `s` as `y`, counted in edges. -/
def HopLe (g : DGraph T) (s x y : Fin g.Size) : Prop :=
  ∀ k, g.Hops s k y → ∃ j, j ≤ k ∧ g.Hops s j x

/-- The loop invariant of `BFS`: `os` lists the indices already appended to
the result, `q` is the queue. -/
structure BfsInv (g : DGraph T) (s : Fin g.Size) (os q : List (Fin g.Size))
    (visited inq : Fin g.Size → Bool) : Prop where
  nodup : (os ++ q).Nodup
  vis_iff : ∀ v, visited v = true ↔ v ∈ os
  inq_iff : ∀ v, inq v = true ↔ v ∈ os ++ q
  head : (os ++ q).head? = some s
  hops : ∀ v ∈ os ++ q, ∃ k, g.Hops s k v
  closed : ∀ u ∈ os, ∀ v, g.Edge u v → v ∈ os ++ q
  sorted : (os ++ q).Pairwise (g.HopLe s)
  near : ∀ u ∈ q.head?, ∀ y ∈ os ++ q, ∀ k, g.Hops s k u → ∃ j, j ≤ k + 1 ∧ g.Hops s j y
  found : ∀ u ∈ q.head?, ∀ v k, g.Hops s k v → (∀ j, g.Hops s j u → k ≤ j) → v ∈ os ++ q

/-- A container state given by its vertex list and matrix, with the index map
that the source builds for that vertex list. -/
def ofMatrix [DecidableEq T] (InVal : Int) (vs : List T) (m : List (List Int)) : DGraph T :=
  { vertices := vs, adj := m, indexMap := rebuildIndex vs, INF := InVal }

/-- Two vertices `A`, `B` with the edges `A -> B` and `B -> A`. -/
def cycleAB : DGraph String :=
  ofMatrix 1000000000 ["A", "B"] [[1000000000, 1], [1, 1000000000]]

/-- Vertices `A` to `E` with the edges `A -> B`, `A -> C`, `B -> D`, `C -> E`. -/
def branching : DGraph String :=
  ofMatrix 1000000000 ["A", "B", "C", "D", "E"]
    [[1000000000, 1, 1, 1000000000, 1000000000],
     [1000000000, 1000000000, 1000000000, 1, 1000000000],
     [1000000000, 1000000000, 1000000000, 1000000000, 1],
     [1000000000, 1000000000, 1000000000, 1000000000, 1000000000],
     [1000000000, 1000000000, 1000000000, 1000000000, 1000000000]]

/-- Fuel-indexed unrolling of `bfsLoop`, used to evaluate it on concrete graphs. -/
def bfsLoopFuel (g : DGraph T) : Nat → List (Fin g.Size) → (Fin g.Size → Bool) →
    (Fin g.Size → Bool) → List T → Option (List T)
  | 0, _, _, _, _ => none
  | fuel + 1, q, visited, inq, order =>
    match q with
    | [] => some order
    | u :: rest =>
      if visited u = true then bfsLoopFuel g fuel rest visited inq order
      else
        bfsLoopFuel g fuel (bfsScan g u (Function.update visited u true) rest inq).1
          (Function.update visited u true)
          (bfsScan g u (Function.update visited u true) rest inq).2
          (order ++ [g.label u])

/-- The loop invariant of `DFS`: `os` lists the indices already appended to
the result, `st` is the stack. -/
structure DfsInv (g : DGraph T) (s : Fin g.Size) (os st : List (Fin g.Size))
    (visited : Fin g.Size → Bool) : Prop where
  nodup : os.Nodup
  vis_iff : ∀ v, visited v = true ↔ v ∈ os
  head : (os ++ st).head? = some s
  reach : ∀ v ∈ os ++ st, g.Reach s v
  closed : ∀ u ∈ os, ∀ v, g.Edge u v → v ∈ os ++ st

/-- Fuel-indexed unrolling of `dfsLoop`, used to evaluate it on concrete graphs. -/
def dfsLoopFuel (g : DGraph T) : Nat → List (Fin g.Size) → (Fin g.Size → Bool) →
    List T → Option (List T)
  | 0, _, _, _ => none
  | fuel + 1, st, visited, order =>
    match st with
    | [] => some order
    | u :: rest =>
      if visited u = true then dfsLoopFuel g fuel rest visited order
      else
        dfsLoopFuel g fuel ((dfsPushed g u (Function.update visited u true)).reverse ++ rest)
          (Function.update visited u true) (order ++ [g.label u])

theorem unmarked_mono {n : Nat} {f f1 : Fin n → Bool} (h : ∀ v, f v = true → f1 v = true) :
    unmarked f1 ≤ unmarked f := by
  unfold unmarked
  apply Finset.card_le_card
  intro v hv
  simp only [Finset.mem_filter, Finset.mem_univ, true_and] at hv ⊢
  cases hfv : f v with
  | false => rfl
  | true => rw [h v hfv] at hv; exact Bool.noConfusion hv

/-- The out-neighbours of `u` in descending index order. -/
def outDesc (g : DGraph T) (u : Fin g.Size) : List (Fin g.Size) :=
  ((List.finRange g.Size).filter (fun v : Fin g.Size => decide (g.cell u v ≠ g.INF))).reverse

theorem unmarked_update_lt {n : Nat} (f : Fin n → Bool) (u : Fin n) (h : ¬ f u = true) :
    unmarked (Function.update f u true) < unmarked f := by
  have := unmarked_update f u (by simpa using h)
  omega

theorem update_true_of {n : Nat} (f : Fin n → Bool) (v w : Fin n) (hw : f w = true) :
    Function.update f v true w = true := by
  by_cases hwv : w = v
  · subst hwv; simp
  · rw [Function.update_noteq hwv]; exact hw

/-- The recursive depth-first search of the specification, run over a list
`vs` of candidates: a candidate that is not yet visited is marked and
emitted, the search recurses into its out-neighbours in descending index
order, and then goes on with the remaining candidates.  The result carries
the emitted vertices in pre-order and the final marks, which extend the
given ones. -/
def recDfsAux (g : DGraph T) (vs : List (Fin g.Size)) (visited : Fin g.Size → Bool) :
    { r : List (Fin g.Size) × (Fin g.Size → Bool) // ∀ v, visited v = true → r.2 v = true } :=
  match vs with
  | [] => ⟨([], visited), fun _ h => h⟩
  | v :: rest =>
    if _hv : visited v = true then
      recDfsAux g rest visited
    else
      match recDfsAux g (outDesc g v) (Function.update visited v true) with
      | ⟨r1, h1⟩ =>
        match recDfsAux g rest r1.2 with
        | ⟨r2, h2⟩ =>
          ⟨(v :: r1.1 ++ r2.1, r2.2), fun w hw => h2 w (h1 w (update_true_of visited v w hw))⟩
termination_by (unmarked visited, vs.length)
decreasing_by
  · exact Prod.Lex.right _ (by simp)
  · exact Prod.Lex.left _ _ (unmarked_update_lt _ _ (by assumption))
  · exact Prod.Lex.left _ _
      (lt_of_le_of_lt (unmarked_mono (by assumption)) (unmarked_update_lt _ _ (by assumption)))

/-- The recursive search over a list of candidates: emitted vertices and final marks. -/
def recDfs (g : DGraph T) (vs : List (Fin g.Size)) (visited : Fin g.Size → Bool) :
    List (Fin g.Size) × (Fin g.Size → Bool) :=
  (recDfsAux g vs visited).1

/-- The pre-order of the recursive depth-first search from `s` that recurses
into the not-yet-visited out-neighbours in descending index order. -/
def recursiveDFS (g : DGraph T) (s : Fin g.Size) : List (Fin g.Size) :=
  (recDfs g [s] (fun _ => false)).1

/-- A directed walk: `Walk g a p v w` says that `p` lists the vertices of a
walk from `a` to `v` along edges of `g`, last vertex first, and that `w` is
the sum of its edge weights.  Vertices may repeat. -/
inductive Walk (g : DGraph T) (a : Fin g.Size) : List (Fin g.Size) → Fin g.Size → Int → Prop where
  | nil : Walk g a [a] a 0
  | snoc {p : List (Fin g.Size)} {u v : Fin g.Size} {w : Int} :
      Walk g a p u w → g.Edge u v → Walk g a (v :: p) v (w + g.cell u v)

/-- A walk from `a` each of whose initial parts, the empty one and the whole
walk included, weighs less than `INF`. -/
inductive BoundedWalk (g : DGraph T) (a : Fin g.Size) :
    List (Fin g.Size) → Fin g.Size → Int → Prop where
  | nil : 0 < g.INF → BoundedWalk g a [a] a 0
  | snoc {p : List (Fin g.Size)} {u v : Fin g.Size} {w : Int} :
      BoundedWalk g a p u w → g.Edge u v → w + g.cell u v < g.INF →
      BoundedWalk g a (v :: p) v (w + g.cell u v)

/-- Every entry is at most `INF`, and an entry other than `INF` is the
weight of a bounded walk from `s`. -/
def Realised (g : DGraph T) (s : Fin g.Size) (d : Fin g.Size → Int) : Prop :=
  (∀ v, d v ≤ g.INF) ∧ ∀ v, d v ≠ g.INF → ∃ p, BoundedWalk g s p v (d v)

/-- The entry of `v` is at most the weight of every bounded walk from `s` to `v`
with at most `k` edges. -/
def ShortLe (g : DGraph T) (s : Fin g.Size) (k : Nat) (d : Fin g.Size → Int) : Prop :=
  ∀ p v w, BoundedWalk g s p v w → p.length ≤ k + 1 → d v ≤ w

/-- A directed cycle of negative total weight, without repeated vertices, is
reachable from `s`: `a :: p` lists the vertices of a walk from `a` back to
`a`, last vertex first. -/
def NegCycleFrom (g : DGraph T) (s : Fin g.Size) : Prop :=
  ∃ (a : Fin g.Size) (p : List (Fin g.Size)) (w : Int),
    g.Reach s a ∧ Walk g a (a :: p) a w ∧ p.Nodup ∧ w < 0

/-- Every directed path from `s` without repeated vertices weighs less than `INF`. -/
def SimpleBound (g : DGraph T) (s : Fin g.Size) : Prop :=
  ∀ (p : List (Fin g.Size)) (v : Fin g.Size) (w : Int), Walk g s p v w → p.Nodup → w < g.INF

instance instDecidableEdge (g : DGraph T) (u v : Fin g.Size) : Decidable (g.Edge u v) :=
  inferInstanceAs (Decidable (g.cell u v ≠ g.INF))

/-- Vertices `A`, `B`, `C` with the edges `A -> B : 5`, `A -> C : 2`, `C -> B : -3`. -/
def negEdges : DGraph String :=
  ofMatrix 1000000000 ["A", "B", "C"]
    [[1000000000, 5, 2],
     [1000000000, 1000000000, 1000000000],
     [1000000000, -3, 1000000000]]

/-- Vertices `A`, `B`, `C` with the edges `A -> B : 1`, `B -> C : -2`, `C -> A : -1`. -/
def negCycle : DGraph String :=
  ofMatrix 1000000000 ["A", "B", "C"]
    [[1000000000, 1, 1000000000],
     [1000000000, 1000000000, -2],
     [-1, 1000000000, 1000000000]]

/-- The old index of the vertex that has index `j` after the vertex with
index `k` was erased. -/
def skipIdx (k j : Nat) : Nat := if j < k then j else j + 1

/-- A run of `AddV` calls, stopping at the first failure. -/
def addVertices [DecidableEq T] (g : DGraph T) : List T → Except GraphError (DGraph T)
  | [] => .ok g
  | x :: xs =>
    match g.AddV x with
    | .ok g1 => addVertices g1 xs
    | .error e => .error e

/-- A run of `AddE` calls, stopping at the first failure. -/
def addEdges (g : DGraph T) : List (T × T × Int) → Except GraphError (DGraph T)
  | [] => .ok g
  | (a, b, w) :: es =>
    match g.AddE a b w with
    | .ok g1 => addEdges g1 es
    | .error e => .error e

/-- The state a test reaches from the empty graph by adding the vertices
`vs` and then the edges `es`. -/
def built [DecidableEq T] (InVal : Int) (vs : List T) (es : List (T × T × Int)) :
    Except GraphError (DGraph T) :=
  match addVertices (empty InVal) vs with
  | .ok g => addEdges g es
  | .error e => .error e

/-- The object after a call of a mutator on `g` with outcome `r`: the new
state when the call returns.  A call that throws has executed no assignment,
because in `AddV`, `DeleteV`, `AddE` and `DeleteE` the only `throw` is the
first statement after the lookups; the object is then still `g`. -/
def after (g : DGraph T) (r : Except GraphError (DGraph T)) : DGraph T :=
  match r with
  | .ok g1 => g1
  | .error _ => g

/-- A call of one of the four mutators. -/
inductive Call (T : Type) where
  | addV (x : T)
  | deleteV (x : T)
  | addE (a b : T) (w : Int)
  | deleteE (a b : T)

/-- The outcome of a call on the state `g`. -/
def Call.run [DecidableEq T] (g : DGraph T) : Call T → Except GraphError (DGraph T)
  | .addV x => g.AddV x
  | .deleteV x => g.DeleteV x
  | .addE a b w => g.AddE a b w
  | .deleteE a b => g.DeleteE a b

/-- The state after a sequence of calls, failed calls included. -/
def runCalls [DecidableEq T] (g : DGraph T) : List (Call T) → DGraph T
  | [] => g
  | c :: cs => runCalls (after g (c.run g)) cs

/-- The number of `AddV` calls of the sequence that succeed. -/
def addedCount [DecidableEq T] (g : DGraph T) : List (Call T) → Nat
  | [] => 0
  | c :: cs =>
    (match c, c.run g with
      | .addV _, .ok _ => 1
      | _, _ => 0) + addedCount (after g (c.run g)) cs

/-- The number of `DeleteV` calls of the sequence that succeed. -/
def deletedCount [DecidableEq T] (g : DGraph T) : List (Call T) → Nat
  | [] => 0
  | c :: cs =>
    (match c, c.run g with
      | .deleteV _, .ok _ => 1
      | _, _ => 0) + deletedCount (after g (c.run g)) cs

/-- One iteration of the loop of `GetNeighbors` for the index `j`. -/
def neighborStep (g : DGraph T) (idx : Nat) (acc : List T) (j : Fin g.Size) : List T :=
  if g.cell idx j ≠ g.INF then acc ++ [g.label j]
  else if g.cell j idx ≠ g.INF then acc ++ [g.label j]
  else acc

/-- `GetNeighbors(vertex)`. -/
def GetNeighbors (g : DGraph T) (vertex : T) : Except GraphError (List T) :=
  match g.indexMap vertex with
  | none => .error .NotFound
  | some idx => .ok ((List.finRange g.Size).foldl (neighborStep g idx) [])

/-- Three vertices `A`, `B`, `C` without edges. -/
def edgeless : DGraph String :=
  ofMatrix 1000000000 ["A", "B", "C"]
    [[1000000000, 1000000000, 1000000000],
     [1000000000, 1000000000, 1000000000],
     [1000000000, 1000000000, 1000000000]]

/-- The test of the loop of `GetNeighbors`, as a Boolean: an edge in either
direction between `idx` and `j`. -/
def neighborCond (g : DGraph T) (idx : Nat) (j : Fin g.Size) : Bool :=
  decide (g.cell idx j ≠ g.INF) || decide (g.cell j idx ≠ g.INF)

/-- The indices reported by `GetNeighbors` for the vertex with index `idx`. -/
def neighborIdx (g : DGraph T) (idx : Nat) : List (Fin g.Size) :=
  (List.finRange g.Size).filter (neighborCond g idx)

/-- Row `i` of the matrix of `bigSparse`. -/
def bigSparseRow (i : Nat) : List Int :=
  (List.range 200).map (fun (j : Nat) =>
    if i = 0 ∧ 1 ≤ j ∧ j ≤ 10 then Int.ofNat j else 1000000000)

/-- The vertices `0 .. 199` with the edges `0 -> i` of weight `i` for
`i = 1 .. 10`. -/
def bigSparse : DGraph Nat :=
  ofMatrix 1000000000 (List.range 200) ((List.range 200).map bigSparseRow)

/-- Vertices `A`, `B` with the self-loop `A -> A : 1` as the only edge. -/
def selfLoop : DGraph String :=
  ofMatrix 1000000000 ["A", "B"] [[1, 1000000000], [1000000000, 1000000000]]

/-- Vertices `A`, `B`, `C` with the edges `A -> B : 6` and `B -> C : 6`, in a
container whose sentinel is `10`. -/
def smallSentinel : DGraph String :=
  ofMatrix 10 ["A", "B", "C"]
    [[10, 6, 10],
     [10, 10, 6],
     [10, 10, 10]]

/-- What a run of `BFS` did: the result built so far, every index pushed
onto the queue in pushing order, the number of `q.pop()` calls, and the
number of times the branch `if (visited[u]) continue` was taken. -/
structure BfsTrace (g : DGraph T) where
  order : List T
  pushed : List (Fin g.Size)
  dequeues : Nat
  skips : Nat

/-- The loop `while (!q.empty())` of `BFS`, recording what it does.  The
neighbour loop only appends to the queue, so what it pushed is the queue
after it without the `rest.length` entries that were there before. -/
def bfsLoopTrace (g : DGraph T) (q : List (Fin g.Size)) (visited inq : Fin g.Size → Bool)
    (t : BfsTrace g) : BfsTrace g :=
  match q with
  | [] => t
  | u :: rest =>
    if visited u = true then
      bfsLoopTrace g rest visited inq
        { t with dequeues := t.dequeues + 1, skips := t.skips + 1 }
    else
      bfsLoopTrace g (bfsScan g u (Function.update visited u true) rest inq).1
        (Function.update visited u true)
        (bfsScan g u (Function.update visited u true) rest inq).2
        { order := t.order ++ [g.label u]
          pushed := t.pushed
            ++ (bfsScan g u (Function.update visited u true) rest inq).1.drop rest.length
          dequeues := t.dequeues + 1
          skips := t.skips }
termination_by q.length + unmarked inq
decreasing_by
  · simp only [List.length_cons]; omega
  · rw [bfsScan_measure]; simp only [List.length_cons]; omega

/-- `BFS(start)` with the record of its run; `q.push(s)` is the first push. -/
def BFSTrace (g : DGraph T) (start : T) : Except GraphError (BfsTrace g) :=
  match g.startIndex start with
  | .error e => .error e
  | .ok s =>
    .ok (bfsLoopTrace g [s] (fun _ => false) (Function.update (fun _ => false) s true)
      { order := [], pushed := [s], dequeues := 0, skips := 0 })

/-- The position `k` of the list `os` holds the earliest vertex of `os` that
has an edge to `x`, on indices. -/
def FirstEdgeAt (g : DGraph T) (os : List (Fin g.Size)) (x : Fin g.Size) (k : Nat) : Prop :=
  (∃ p, os[k]? = some p ∧ g.Edge p x) ∧ ∀ j p, j < k → os[j]? = some p → ¬ g.Edge p x

/-- The position `k` of the list `order` holds the parent of `x`: the
earliest vertex of `order` that has an edge to `x`. -/
def ParentAt (g : DGraph T) (order : List T) (x : T) (k : Nat) : Prop :=
  (∃ p, order[k]? = some p ∧ g.HasEdge p x = true) ∧
    ∀ j p, j < k → order[j]? = some p → g.HasEdge p x = false

/-- The order in which the vertices other than the start wait in the queue of
`BFS` and leave it: by the position of the earliest dequeued vertex with an
edge to them, then by index. -/
def ParentOrder (g : DGraph T) (s : Fin g.Size) (os : List (Fin g.Size))
    (x y : Fin g.Size) : Prop :=
  x ≠ s → y ≠ s → ∀ kx ky, FirstEdgeAt g os x kx → FirstEdgeAt g os y ky →
    kx < ky ∨ (kx = ky ∧ x < y)

/-- The part of the loop invariant of `BFS` that fixes the order of the
result: `os` lists the dequeued indices, `q` is the queue. -/
structure BfsOrd (g : DGraph T) (s : Fin g.Size) (os q : List (Fin g.Size)) : Prop where
  parent : ∀ x ∈ os ++ q, x ≠ s → ∃ k, FirstEdgeAt g os x k
  order : (os ++ q).Pairwise (ParentOrder g s os)

/-- The read `adj[u][v]` with both subscripts checked: `none` when `u` is not
a row of the stored matrix or `v` is not a column of that row. -/
def readCell (g : DGraph T) (u v : Nat) : Option Int :=
  match g.adj[u]? with
  | none => none
  | some row => row[v]?

/-- The assignment `adj[u][v] = w` with both subscripts checked. -/
def writeCell (adj : List (List Int)) (u v : Nat) (w : Int) : Option (List (List Int)) :=
  match adj[u]? with
  | none => none
  | some row => if v < row.length then some (adj.set u (row.set v w)) else none

/-- The call `xs.erase(xs.begin() + i)` with the position checked. -/
def eraseChecked {α : Type} (xs : List α) (i : Nat) : Option (List α) :=
  if i < xs.length then some (xs.eraseIdx i) else none

/-- The loop of `DeleteV` that erases the column `idx` from every row, each
erase checked. -/
def eraseColumn (idx : Nat) : List (List Int) → Option (List (List Int))
  | [] => some []
  | row :: rows =>
    match eraseChecked row idx, eraseColumn idx rows with
    | some r, some rs => some (r :: rs)
    | _, _ => none

/-- One iteration of the rebuild loop of `DeleteV`, the read `vertices[i]` checked. -/
def indexStepChecked [DecidableEq T] (vs : List T) (m : Option (T → Option Nat)) (i : Nat) :
    Option (T → Option Nat) :=
  match m, vs[i]? with
  | some m1, some x => some (mapInsert m1 x i)
  | _, _ => none

/-- The rebuild loop of `DeleteV` with checked reads. -/
def rebuildIndexChecked [DecidableEq T] (vs : List T) : Option (T → Option Nat) :=
  (List.range vs.length).foldl (indexStepChecked vs) (some (fun _ => none))

/-- `HasEdge` with the matrix read checked. -/
def HasEdgeChecked (g : DGraph T) (a b : T) : Except GraphError Bool :=
  match g.indexMap a, g.indexMap b with
  | some u, some v =>
    match g.readCell u v with
    | none => .error .OutOfRange
    | some w => .ok (decide (w ≠ g.INF))
  | _, _ => .ok false

/-- `GetEdge` with the matrix read checked. -/
def GetEdgeChecked (g : DGraph T) (a b : T) : Except GraphError Int :=
  match g.indexMap a, g.indexMap b with
  | some u, some v =>
    match g.readCell u v with
    | none => .error .OutOfRange
    | some w => if w = g.INF then .error .EdgeNotFound else .ok w
  | _, _ => .error .NotFound

/-- `GetWeight` with the matrix reads checked; both reads are of the same cell. -/
def GetWeightChecked (g : DGraph T) (a b : T) : Except GraphError Int :=
  match g.indexMap a, g.indexMap b with
  | some u, some v =>
    match g.readCell u v with
    | none => .error .OutOfRange
    | some w => if w = g.INF then .error .EdgeNotFound else .ok w
  | _, _ => .error .NotFound

/-- `AddE` with the matrix write checked. -/
def AddEChecked (g : DGraph T) (a b : T) (weight : Int) : Except GraphError (DGraph T) :=
  match g.indexMap a, g.indexMap b with
  | some u, some v =>
    match writeCell g.adj u v weight with
    | none => .error .OutOfRange
    | some adj1 => .ok { g with adj := adj1 }
  | _, _ => .error .NotFound

/-- `DeleteE` with the matrix write checked. -/
def DeleteEChecked (g : DGraph T) (a b : T) : Except GraphError (DGraph T) :=
  match g.indexMap a, g.indexMap b with
  | some u, some v =>
    match writeCell g.adj u v g.INF with
    | none => .error .OutOfRange
    | some adj1 => .ok { g with adj := adj1 }
  | _, _ => .error .NotFound

/-- `DeleteV` with every erase and every read of the rebuild loop checked. -/
def DeleteVChecked [DecidableEq T] (g : DGraph T) (value : T) : Except GraphError (DGraph T) :=
  match g.indexMap value with
  | none => .error .NotFound
  | some idx =>
    match eraseChecked g.vertices idx, eraseChecked g.adj idx with
    | some vertices, some rows =>
      match eraseColumn idx rows, rebuildIndexChecked vertices with
      | some adj1, some m => .ok { vertices := vertices, adj := adj1, indexMap := m, INF := g.INF }
      | _, _ => .error .OutOfRange
    | _, _ => .error .OutOfRange

/-- One iteration of the loop of `GetNeighbors` with the matrix reads checked;
`adj[j][idx]` is read only when `adj[idx][j]` is the sentinel. -/
def neighborStepChecked (g : DGraph T) (idx : Nat) (acc : List T) (j : Fin g.Size) :
    Except GraphError (List T) :=
  match g.readCell idx j with
  | none => .error .OutOfRange
  | some w =>
    if w ≠ g.INF then .ok (acc ++ [g.label j])
    else
      match g.readCell j idx with
      | none => .error .OutOfRange
      | some w2 => if w2 ≠ g.INF then .ok (acc ++ [g.label j]) else .ok acc

/-- `GetNeighbors` with the matrix reads checked. -/
def GetNeighborsChecked (g : DGraph T) (vertex : T) : Except GraphError (List T) :=
  match g.indexMap vertex with
  | none => .error .NotFound
  | some idx => (List.finRange g.Size).foldlM (neighborStepChecked g idx) []

/-- One iteration of the neighbour loop of `BFS` with the matrix read checked. -/
def bfsPushChecked (g : DGraph T) (u : Fin g.Size) (visited : Fin g.Size → Bool)
    (st : List (Fin g.Size) × (Fin g.Size → Bool)) (v : Fin g.Size) :
    Except GraphError (List (Fin g.Size) × (Fin g.Size → Bool)) :=
  match g.readCell u v with
  | none => .error .OutOfRange
  | some w =>
    if w ≠ g.INF ∧ visited v = false ∧ st.2 v = false then
      .ok (st.1 ++ [v], Function.update st.2 v true)
    else .ok st

/-- The neighbour loop of `BFS` with checked reads. -/
def bfsScanChecked (g : DGraph T) (u : Fin g.Size) (visited : Fin g.Size → Bool)
    (q : List (Fin g.Size)) (inq : Fin g.Size → Bool) :
    Except GraphError (List (Fin g.Size) × (Fin g.Size → Bool)) :=
  (List.finRange g.Size).foldlM (bfsPushChecked g u visited) (q, inq)

theorem bfsPushChecked_measure (g : DGraph T) (u : Fin g.Size) (visited : Fin g.Size → Bool)
    (st st1 : List (Fin g.Size) × (Fin g.Size → Bool)) (v : Fin g.Size)
    (h : bfsPushChecked g u visited st v = .ok st1) :
    st1.1.length + unmarked st1.2 = st.1.length + unmarked st.2 := by
  unfold bfsPushChecked at h
  cases hr : g.readCell u v with
  | none => rw [hr] at h; exact Except.noConfusion h
  | some w =>
    rw [hr] at h
    simp only at h
    split at h
    · rename_i hc
      simp only [Except.ok.injEq] at h
      subst h
      have := unmarked_update st.2 v hc.2.2
      simp only [List.length_append, List.length_singleton]
      omega
    · simp only [Except.ok.injEq] at h
      subst h
      rfl

theorem bfsScanChecked_measure (g : DGraph T) (u : Fin g.Size) (visited : Fin g.Size → Bool)
    (q : List (Fin g.Size)) (inq : Fin g.Size → Bool)
    (st1 : List (Fin g.Size) × (Fin g.Size → Bool))
    (h : bfsScanChecked g u visited q inq = .ok st1) :
    st1.1.length + unmarked st1.2 = q.length + unmarked inq := by
  unfold bfsScanChecked at h
  have key : ∀ (vs : List (Fin g.Size)) (st : List (Fin g.Size) × (Fin g.Size → Bool)),
      vs.foldlM (bfsPushChecked g u visited) st = .ok st1 →
      st1.1.length + unmarked st1.2 = st.1.length + unmarked st.2 := by
    intro vs
    induction vs with
    | nil =>
      intro st h
      simp only [List.foldlM_nil, pure, Except.pure, Except.ok.injEq] at h
      subst h
      rfl
    | cons v vs ih =>
      intro st h
      rw [List.foldlM_cons] at h
      cases hp : bfsPushChecked g u visited st v with
      | error e => rw [hp] at h; exact Except.noConfusion h
      | ok st2 =>
        rw [hp] at h
        rw [ih st2 h, bfsPushChecked_measure g u visited st st2 v hp]
  exact key _ (q, inq) h

/-- The loop `while (!q.empty())` of `BFS` with checked matrix reads. -/
def bfsLoopChecked (g : DGraph T) (q : List (Fin g.Size)) (visited inq : Fin g.Size → Bool)
    (order : List T) : Except GraphError (List T) :=
  match q with
  | [] => .ok order
  | u :: rest =>
    if visited u = true then
      bfsLoopChecked g rest visited inq order
    else
      match _h : bfsScanChecked g u (Function.update visited u true) rest inq with
      | .error e => .error e
      | .ok st =>
        bfsLoopChecked g st.1 (Function.update visited u true) st.2 (order ++ [g.label u])
termination_by q.length + unmarked inq
decreasing_by
  · simp only [List.length_cons]; omega
  · rw [bfsScanChecked_measure _ _ _ _ _ _ (by assumption)]
    simp only [List.length_cons]; omega

/-- `BFS(start)` with checked matrix reads. -/
def BFSChecked (g : DGraph T) (start : T) : Except GraphError (List T) :=
  match g.startIndex start with
  | .error e => .error e
  | .ok s =>
    bfsLoopChecked g [s] (fun _ => false) (Function.update (fun _ => false) s true) []

/-- One iteration of the neighbour loop of `DFS` with the matrix read checked. -/
def dfsPushChecked (g : DGraph T) (u : Fin g.Size) (visited : Fin g.Size → Bool)
    (acc : List (Fin g.Size)) (v : Fin g.Size) : Except GraphError (List (Fin g.Size)) :=
  match g.readCell u v with
  | none => .error .OutOfRange
  | some w => if w ≠ g.INF ∧ visited v = false then .ok (acc ++ [v]) else .ok acc

/-- The neighbour loop of `DFS` with checked reads: the indices it pushes,
in pushing order. -/
def dfsScanChecked (g : DGraph T) (u : Fin g.Size) (visited : Fin g.Size → Bool) :
    Except GraphError (List (Fin g.Size)) :=
  (List.finRange g.Size).foldlM (dfsPushChecked g u visited) []

/-- The loop `while (!st.empty())` of `DFS` with checked matrix reads. -/
def dfsLoopChecked (g : DGraph T) (st : List (Fin g.Size)) (visited : Fin g.Size → Bool)
    (order : List T) : Except GraphError (List T) :=
  match st with
  | [] => .ok order
  | u :: rest =>
    if _h : visited u = true then
      dfsLoopChecked g rest visited order
    else
      match dfsScanChecked g u (Function.update visited u true) with
      | .error e => .error e
      | .ok pushed =>
        dfsLoopChecked g (pushed.reverse ++ rest) (Function.update visited u true)
          (order ++ [g.label u])
termination_by (unmarked visited, st.length)
decreasing_by
  · exact Prod.Lex.right _ (by simp)
  · exact Prod.Lex.left _ _ (unmarked_update_lt _ _ (by assumption))

/-- `DFS(start)` with checked matrix reads. -/
def DFSChecked (g : DGraph T) (start : T) : Except GraphError (List T) :=
  match g.startIndex start with
  | .error e => .error e
  | .ok s => dfsLoopChecked g [s] (fun _ => false) []

/-- The body of the inner loops of the main loop of `BellmanFord` with the
matrix read checked. -/
def relaxEdgeChecked (g : DGraph T) (add : Int → Int → Int) (u : Fin g.Size)
    (dist : Fin g.Size → Int) (v : Fin g.Size) : Except GraphError (Fin g.Size → Int) :=
  match g.readCell u v with
  | none => .error .OutOfRange
  | some w =>
    if w ≠ g.INF ∧ dist u ≠ g.INF then
      if dist v > add (dist u) w then .ok (Function.update dist v (add (dist u) w))
      else .ok dist
    else .ok dist

/-- The loop `for v` for a fixed `u`, checked. -/
def relaxRowChecked (g : DGraph T) (add : Int → Int → Int) (dist : Fin g.Size → Int)
    (u : Fin g.Size) : Except GraphError (Fin g.Size → Int) :=
  (List.finRange g.Size).foldlM (relaxEdgeChecked g add u) dist

/-- One pass over all matrix cells, checked. -/
def relaxPassChecked (g : DGraph T) (add : Int → Int → Int) (dist : Fin g.Size → Int) :
    Except GraphError (Fin g.Size → Int) :=
  (List.finRange g.Size).foldlM (relaxRowChecked g add) dist

/-- The main loop of `BellmanFord`, checked. -/
def relaxPassesChecked (g : DGraph T) (add : Int → Int → Int) :
    Nat → (Fin g.Size → Int) → Except GraphError (Fin g.Size → Int)
  | 0, dist => .ok dist
  | k + 1, dist =>
    match relaxPassChecked g add dist with
    | .error e => .error e
    | .ok d => relaxPassesChecked g add k d

/-- The body of the final double loop of `BellmanFord` with the matrix read
checked: it throws at a cell that still allows an improvement. -/
def checkEdgeChecked (g : DGraph T) (add : Int → Int → Int) (dist : Fin g.Size → Int)
    (u : Fin g.Size) (_ : Unit) (v : Fin g.Size) : Except GraphError Unit :=
  match g.readCell u v with
  | none => .error .OutOfRange
  | some w =>
    if w ≠ g.INF ∧ dist u ≠ g.INF ∧ dist v > add (dist u) w then .error .NegativeCycle
    else .ok ()

/-- The final double loop of `BellmanFord`, checked. -/
def checkPassChecked (g : DGraph T) (add : Int → Int → Int) (dist : Fin g.Size → Int) :
    Except GraphError Unit :=
  (List.finRange g.Size).foldlM
    (fun _ u => (List.finRange g.Size).foldlM (checkEdgeChecked g add dist u) ()) ()

/-- `BellmanFord(start)` with checked matrix reads. -/
def BellmanFordChecked (g : DGraph T) (add : Int → Int → Int) (start : T) :
    Except GraphError (List Int) :=
  match g.startIndex start with
  | .error e => .error e
  | .ok s =>
    match relaxPassesChecked g add (g.Size - 1) (Function.update (fun _ => g.INF) s 0) with
    | .error e => .error e
    | .ok dist =>
      match checkPassChecked g add dist with
      | .error e => .error e
      | .ok _ => .ok (List.ofFn dist)

/-- A matrix with a short row: the vertex `B` has index `1`, the row of `A`
has one cell only. -/
def raggedRow : DGraph String :=
  ofMatrix 1000000000 ["A", "B"] [[1000000000], [1, 1000000000]]

/-- Does the text `s` begin with `pat`. -/
def startsWith : List Char → List Char → Bool
  | [], _ => true
  | _ :: _, [] => false
  | p :: ps, c :: cs => p == c && startsWith ps cs

/-- The call `s.find(pat)` of `std::string`: the position of the first
occurrence of `pat` in `s`, `none` for `npos`. -/
def strFind (pat : List Char) : List Char → Option Nat
  | [] => if startsWith pat [] then some 0 else none
  | c :: cs => if startsWith pat (c :: cs) then some 0 else (strFind pat cs).map (· + 1)

/-- The call `s.find(pat, pos)`: the first occurrence at or after `pos`. -/
def strFindFrom (pat s : List Char) (pos : Nat) : Option Nat :=
  if pos ≤ s.length then (strFind pat (s.drop pos)).map (· + pos) else none

/-- The call `s.substr(pos, stop - pos)` for a position `stop` returned by
`find`; with `npos` for `stop` the count exceeds the text and the rest of
the text is taken.  The caller has `pos ≤ s.size()`, so the call does not
throw. -/
def substr (s : List Char) (pos : Nat) (stop : Option Nat) : List Char :=
  match stop with
  | some e => (s.drop pos).take (e - pos)
  | none => s.drop pos

/-- The value of an attribute as `loadGraphML` extracts it: `pat` is the
attribute name with `=` and the opening quote, `skip` the number the source
adds to the position of `pat` (`4`, `6` or `8`); the value runs to the next
double quote.  `none` when `pat` does not occur. -/
def attrValue (pat : List Char) (skip : Nat) (line : List Char) : Option (List Char) :=
  match strFind pat line with
  | none => none
  | some p => some (substr line (p + skip) (strFindFrom "\"".data line (p + skip)))

/-- The lines that successive `getline` calls read from a text: the pieces
between newline characters; a last piece without newline is a line when it
is not empty. -/
def getLinesAux : List Char → List Char → List (List Char)
  | cur, [] => if cur.isEmpty then [] else [cur.reverse]
  | cur, c :: cs => if c = '\n' then cur.reverse :: getLinesAux [] cs else getLinesAux (c :: cur) cs

/-- The lines of a text, as `getline` reads them. -/
def getLines (text : List Char) : List (List Char) := getLinesAux [] text

/-- The failures of `loadGraphML`: the file cannot be opened; a node line
without `name`, or an edge line without `weight`; `AddV` rejects a label
that is already a vertex; `xmlIdToIndex.at` does not know an id; a stored
index is not a position of `vertices`; `AddE` does not find a vertex. -/
inductive LoadError where
  | IOFailure
  | ParseError
  | AlreadyExists
  | UnknownId
  | OutOfRange
  | NotFound
  deriving DecidableEq, Repr

/-- The state of `loadGraphML` between two lines: the container and the
local map `xmlIdToIndex`. -/
structure LoadState where
  g : DGraph String
  ids : List Char → Option Nat

/-- The body of the loop `while (getline(file, line))` of `loadGraphML`.
`parseW` is the conversion `ss >> weight` of the standard library. -/
def loadLine (parseW : List Char → Int) (st : LoadState) (line : List Char) :
    Except LoadError LoadState :=
  if (strFind "<node".data line).isSome then
    match attrValue "id=\"".data 4 line with
    | none => .ok st
    | some xmlId =>
      match attrValue "name=\"".data 6 line with
      | none => .error .ParseError
      | some value =>
        match st.g.AddV (String.mk value) with
        | .error _ => .error .AlreadyExists
        | .ok g1 => .ok { g := g1, ids := mapInsert st.ids xmlId (g1.Size - 1) }
  else if (strFind "<edge".data line).isSome then
    match attrValue "source=\"".data 8 line with
    | none => .ok st
    | some xmlSource =>
      match attrValue "target=\"".data 8 line with
      | none => .ok st
      | some xmlTarget =>
        match attrValue "weight=\"".data 8 line with
        | none => .error .ParseError
        | some wStr =>
          match st.ids xmlSource, st.ids xmlTarget with
          | some u, some v =>
            match st.g.vertices[u]?, st.g.vertices[v]? with
            | some a, some b =>
              match st.g.AddE a b (parseW wStr) with
              | .error _ => .error .NotFound
              | .ok g1 => .ok { st with g := g1 }
            | _, _ => .error .OutOfRange
          | _, _ => .error .UnknownId
  else .ok st

/-- The loop `while (getline(file, line))`: the state when the loop ends or
a line throws, and the failure if one was thrown.  A line that throws has
not changed the state. -/
def loadLines (parseW : List Char → Int) : LoadState → List (List Char) →
    LoadState × Option LoadError
  | st, [] => (st, none)
  | st, line :: rest =>
    match loadLine parseW st line with
    | .ok st1 => loadLines parseW st1 rest
    | .error e => (st, some e)

/-- `loadGraphML` after the file was opened, on the lines of the file: the
three `clear()` calls, then the loop.  The result is the container when the
call ends and the failure, if the call throws. -/
def loadFrom (parseW : List Char → Int) (g : DGraph String) (lines : List (List Char)) :
    DGraph String × Option LoadError :=
  ((loadLines parseW
      { g := { vertices := [], adj := [], indexMap := fun _ => none, INF := g.INF }
        ids := fun _ => none } lines).1.g,
    (loadLines parseW
      { g := { vertices := [], adj := [], indexMap := fun _ => none, INF := g.INF }
        ids := fun _ => none } lines).2)

/-- `loadGraphML(filename)`: `file` is the content of the file, `none` when
it cannot be opened.  The result is the container when the call ends and the
failure, if the call throws. -/
def loadGraphML (parseW : List Char → Int) (g : DGraph String) (file : Option (List Char)) :
    DGraph String × Option LoadError :=
  match file with
  | none => (g, some .IOFailure)
  | some text => loadFrom parseW g (getLines text)

/-- The text `saveGraphML` writes for the vertex with index `i`. -/
def nodeText (g : DGraph String) (i : Fin g.Size) : List Char :=
  "    <node id=\"n".data ++ (Nat.repr i.val).data ++ "\"".data
    ++ " name = ".data ++ "\"".data ++ (g.label i).data ++ "\"".data
    ++ "</node>\n".data

/-- The text `saveGraphML` writes for the cell `(u, v)`: nothing when the
cell holds the sentinel.  `showW` is the output operator of `W`. -/
def edgeText (showW : Int → List Char) (g : DGraph String) (u v : Fin g.Size) : List Char :=
  if g.cell u v ≠ g.INF then
    "    <edge isDirected=\"true\" source=\"n".data ++ (Nat.repr u.val).data
      ++ "\" target=\"n".data ++ (Nat.repr v.val).data ++ "\"".data
      ++ " weight = ".data ++ "\"".data ++ showW (g.cell u v) ++ "\"".data
      ++ "</edge>\n".data
  else []

/-- The text that `saveGraphML` writes to the file it has opened. -/
def saveGraphML (showW : Int → List Char) (g : DGraph String) : List Char :=
  "<?xml version=\"1.0\" encoding=\"UTF-8\"?>\n".data
    ++ "<graphml xmlns=\"http://graphml.graphdrawing.org/xmlns\"\n".data
    ++ "         xmlns:xsi=\"http://www.w3.org/2001/XMLSchema-instance\"\n".data
    ++ "         xsi:schemaLocation=\"http://graphml.graphdrawing.org/xmlns\n".data
    ++ "         http://graphml.graphdrawing.org/xmlns/1.0/graphml.xsd\">\n".data
    ++ "  <graph id=\"G\" edgedefault=\"directed\">\n".data
    ++ ((List.finRange g.Size).map (nodeText g)).flatten
    ++ ((List.finRange g.Size).map
        (fun u => ((List.finRange g.Size).map (edgeText showW g u)).flatten)).flatten
    ++ "  </graph>\n".data
    ++ "</graphml>\n".data

/-- Is `line` one on which the loop of `loadGraphML` throws its parse
error: it contains `<node` and `id="` but no `name="`, or it contains no
`<node` but `<edge`, `source="` and `target="`, and no `weight="`. -/
def parseErrorLine (line : List Char) : Bool :=
  if (strFind "<node".data line).isSome then
    (strFind "id=\"".data line).isSome && (strFind "name=\"".data line).isNone
  else
    (strFind "<edge".data line).isSome && (strFind "source=\"".data line).isSome
      && (strFind "target=\"".data line).isSome && (strFind "weight=\"".data line).isNone

/-- The graph with the single vertex `A`. -/
def singleA : DGraph String := ofMatrix 1000000000 ["A"] [[1000000000]]

/-- Is `c` one of the blank characters that `ss >> weight` skips before a
number (`isspace` in the "C" locale): blank, tab, line feed, vertical tab,
form feed, carriage return. -/
def isBlank (c : Char) : Bool :=
  c = ' ' || c = '\t' || c = '\n' || c = '\r' || c.toNat = 11 || c.toNat = 12

/-- The number that a text of decimal digits writes, after the digits read
so far gave `acc`; `none` when another character occurs. -/
def digitsValue : Nat → List Char → Option Nat
  | acc, [] => some acc
  | acc, c :: cs => if c.isDigit then digitsValue (acc * 10 + (c.toNat - 48)) cs else none

/-- The whole number written without sign as `digits`, `digits.`, or
`digits.0...0`, with at least one digit before the point; `none` for every
other text. -/
def wholeUnsigned (s : List Char) : Option Nat :=
  match s.dropWhile Char.isDigit with
  | [] => if (s.takeWhile Char.isDigit).isEmpty then none
      else digitsValue 0 (s.takeWhile Char.isDigit)
  | c :: fs =>
    if c = '.' ∧ (s.takeWhile Char.isDigit).isEmpty = false ∧ fs.all (· == '0') = true then
      digitsValue 0 (s.takeWhile Char.isDigit)
    else none

/-- The value that the conversion `ss >> weight` stores, for `W = double`,
when the text writes a whole number below `2 ^ 53` in the plain way: blank
characters, an optional sign, digits, optionally a point and zeros, and then
the end of the text (`7`, `-3`, `+7`, ` 12`, `1.0`).  Such a number is a
double, so nothing is rounded.  `none` for every other text: one that holds
no number, one that writes a number that is not whole (`5.5`) or in another
way (`1e3`), or one with characters after the number. -/
def wholeW (s : List Char) : Option Int :=
  match s.dropWhile isBlank with
  | [] => none
  | c :: cs =>
    match wholeUnsigned (if c = '-' ∨ c = '+' then cs else c :: cs) with
    | none => none
    | some n => if n < 2 ^ 53 then some (if c = '-' then -(n : Int) else (n : Int)) else none

/-- A conversion for files whose weight texts write whole numbers: the value
of `wholeW` where there is one.  For a text that holds no number it gives
`0`, which is what the library stores when the conversion fails; a text that
writes a number that is not whole is outside the weights considered here,
and no example contains one. -/
def readWhole (s : List Char) : Int := (wholeW s).getD 0

/-- The file of the test "большой файл" of `test_loadGraphML`, with three
nodes in place of eighty: the nodes `n0`, `n1`, `n2`, labelled with their
ids, and the edges `n0 -> n1` and `n1 -> n2`, both with the weight text
`1.0`. -/
def chainFile : List Char :=
  "<?xml version=\"1.0\"?>\n<graphml>\n  <graph id=\"G\" edgedefault=\"directed\">\n".data
    ++ "    <node id=\"n0\" name=\"n0\"></node>\n".data
    ++ "    <node id=\"n1\" name=\"n1\"></node>\n".data
    ++ "    <node id=\"n2\" name=\"n2\"></node>\n".data
    ++ "    <edge isDirected=\"true\" source=\"n0\" target=\"n1\" weight=\"1.0\"></edge>\n".data
    ++ "    <edge isDirected=\"true\" source=\"n1\" target=\"n2\" weight=\"1.0\"></edge>\n".data
    ++ "  </graph>\n</graphml>\n".data

/-- Does the text `s` end with `pat`. -/
def endsWith (pat s : List Char) : Bool := startsWith pat.reverse s.reverse

/-- A node line of a file: the text `ind` before the tag, the id, the
label, and the text `tail` after the closing quote of the label. -/
structure NodeLine where
  ind : List Char
  id : List Char
  label : String
  tail : List Char

/-- The text of a node line: `ind<node id="id" name="label"tail`. -/
def NodeLine.text (n : NodeLine) : List Char :=
  n.ind ++ ("<node id=\"".data ++ (n.id ++ ("\" name=\"".data
    ++ (n.label.data ++ ("\"".data ++ n.tail)))))

/-- An edge line of a file: the text `ind` before the tag, whether the
attribute `isDirected="true"` is present, the two ids, the weight text, and
the text `tail` after the closing quote of the weight. -/
structure EdgeLine where
  ind : List Char
  directed : Bool
  source : List Char
  target : List Char
  weight : List Char
  tail : List Char

/-- The text of an edge line:
`ind<edge isDirected="true" source="s" target="t" weight="w"tail`, the
attribute `isDirected` being optional. -/
def EdgeLine.text (e : EdgeLine) : List Char :=
  e.ind ++ ((if e.directed then "<edge isDirected=\"true\"".data else "<edge".data)
    ++ (" source=\"".data ++ (e.source ++ ("\" target=\"".data
    ++ (e.target ++ ("\" weight=\"".data ++ (e.weight ++ ("\"".data ++ e.tail))))))))

/-- A line of a file: a node line, an edge line, or another text. -/
inductive FileLine where
  | node (n : NodeLine)
  | edge (e : EdgeLine)
  | other (t : List Char)

/-- The text of a line. -/
def FileLine.text : FileLine → List Char
  | .node n => n.text
  | .edge e => e.text
  | .other t => t

/-- What a run of `DFS` did: the result built so far, the number of
`st.pop()` calls, that is, of iterations of the loop, and for every iteration
that visits a vertex the number of entries its neighbour loop pushes. -/
structure DfsTrace (g : DGraph T) where
  order : List T
  pops : Nat
  pushCounts : List Nat

/-- The loop `while (!st.empty())` of `DFS`, recording what it does; total by
the same measure as `dfsLoop`, the pair (number of unvisited vertices, stack
size) in lexicographic order. -/
def dfsLoopTrace (g : DGraph T) (st : List (Fin g.Size)) (visited : Fin g.Size → Bool)
    (t : DfsTrace g) : DfsTrace g :=
  match st with
  | [] => t
  | u :: rest =>
    if _h : visited u = true then
      dfsLoopTrace g rest visited { t with pops := t.pops + 1 }
    else
      dfsLoopTrace g ((dfsPushed g u (Function.update visited u true)).reverse ++ rest)
        (Function.update visited u true)
        { order := t.order ++ [g.label u]
          pops := t.pops + 1
          pushCounts := t.pushCounts ++ [(dfsPushed g u (Function.update visited u true)).length] }
termination_by (unmarked visited, st.length)
decreasing_by
  · exact Prod.Lex.right _ (by simp)
  · exact Prod.Lex.left _ _ (unmarked_update_lt _ _ (by assumption))

/-- `DFS(start)` with the record of its run; `st.push(s)` precedes the loop. -/
def DFSTrace (g : DGraph T) (start : T) : Except GraphError (DfsTrace g) :=
  match g.startIndex start with
  | .error e => .error e
  | .ok s => .ok (dfsLoopTrace g [s] (fun _ => false) { order := [], pops := 0, pushCounts := [] })

/-- Fuel-indexed unrolling of `dfsLoopTrace`, used to evaluate it on concrete graphs. -/
def dfsLoopTraceFuel (g : DGraph T) : Nat → List (Fin g.Size) → (Fin g.Size → Bool) →
    DfsTrace g → Option (DfsTrace g)
  | 0, _, _, _ => none
  | fuel + 1, st, visited, t =>
    match st with
    | [] => some t
    | u :: rest =>
      if visited u = true then
        dfsLoopTraceFuel g fuel rest visited { t with pops := t.pops + 1 }
      else
        dfsLoopTraceFuel g fuel
          ((dfsPushed g u (Function.update visited u true)).reverse ++ rest)
          (Function.update visited u true)
          { order := t.order ++ [g.label u]
            pops := t.pops + 1
            pushCounts := t.pushCounts
              ++ [(dfsPushed g u (Function.update visited u true)).length] }

/-- The operator `+` of `W` gives the exact sum `a + b` whenever `a` is of
size at most `K` and `b` of size at most `M`. -/
def ExactAdd (add : Int → Int → Int) (K M : Int) : Prop :=
  ∀ a b : Int, -K ≤ a → a ≤ K → -M ≤ b → b ≤ M → add a b = a + b

/-- Every edge weight is of size at most `M`. -/
def WeightsWithin (g : DGraph T) (M : Int) : Prop :=
  ∀ u v : Fin g.Size, g.Edge u v → -M ≤ g.cell u v ∧ g.cell u v ≤ M

/-- The bound on the weights is checked cell by cell. -/
instance instDecidableWeightsWithin (g : DGraph T) (M : Int) : Decidable (WeightsWithin g M) :=
  inferInstanceAs (Decidable (∀ u v : Fin g.Size, g.Edge u v → -M ≤ g.cell u v ∧ g.cell u v ≤ M))

/-- Every entry of `dist` is `INF` or of size at most `B`. -/
def Within (g : DGraph T) (B : Int) (d : Fin g.Size → Int) : Prop :=
  ∀ v, d v = g.INF ∨ (-B ≤ d v ∧ d v ≤ B)

/-- Vertices `A`, `B`, `C` with the edges `A -> B : 2 ^ 53`, `B -> C : 1` and
the sentinel `10 ^ 18`. -/
def bigWeights : DGraph String :=
  ofMatrix 1000000000000000000 ["A", "B", "C"]
    [[1000000000000000000, 9007199254740992, 1000000000000000000],
     [1000000000000000000, 1000000000000000000, 1],
     [1000000000000000000, 1000000000000000000, 1000000000000000000]]

/-- Vertices `A`, `B`, `C` with the edges `A -> B : 2 ^ 54`, `B -> C : -1`,
`C -> A : -2 ^ 54` and the sentinel `10 ^ 18`. -/
def roundedCycle : DGraph String :=
  ofMatrix 1000000000000000000 ["A", "B", "C"]
    [[1000000000000000000, 18014398509481984, 1000000000000000000],
     [1000000000000000000, 1000000000000000000, -1],
     [-18014398509481984, 1000000000000000000, 1000000000000000000]]

/-- Vertices `V`, `U`, `S`, added in this order, with the edges
`S -> U : 2 ^ 53`, `U -> V : 1`, `V -> U : -1` and the sentinel `10 ^ 18`. -/
def falseAlarm : DGraph String :=
  ofMatrix 1000000000000000000 ["V", "U", "S"]
    [[1000000000000000000, -1, 1000000000000000000],
     [1, 1000000000000000000, 1000000000000000000],
     [1000000000000000000, 9007199254740992, 1000000000000000000]]

/-! ## Properties -/

theorem WellFormed.indexMap_label {g : DGraph T} (h : g.WellFormed) (u : Fin g.Size) :
    g.indexMap (g.label u) = some u.val := by
  rw [h.index]
  simp [label, List.getElem?_eq_getElem u.isLt]

theorem WellFormed.label_of_indexMap {g : DGraph T} (h : g.WellFormed) {x : T} {i : Nat}
    (hx : g.indexMap x = some i) : ∃ u : Fin g.Size, u.val = i ∧ g.label u = x := by
  have h1 := (h.index x i).mp hx
  obtain ⟨hi, hget⟩ := List.getElem?_eq_some.mp h1
  exact ⟨⟨i, hi⟩, rfl, hget⟩

theorem WellFormed.label_injective {g : DGraph T} (h : g.WellFormed) :
    Function.Injective g.label := by
  intro u v huv
  have hu := h.indexMap_label u
  have hv := h.indexMap_label v
  rw [huv, hv] at hu
  exact Fin.ext (Option.some.inj hu).symm

theorem WellFormed.startIndex_label {g : DGraph T} (h : g.WellFormed) (u : Fin g.Size) :
    g.startIndex (g.label u) = .ok u := by
  unfold startIndex
  rw [h.indexMap_label]
  simp

theorem WellFormed.startIndex_of_hasVert {g : DGraph T} (h : g.WellFormed) {start : T}
    (hv : g.HasVert start = true) :
    ∃ s : Fin g.Size, g.startIndex start = .ok s ∧ g.label s = start := by
  unfold HasVert at hv
  obtain ⟨i, hi⟩ := Option.isSome_iff_exists.mp hv
  obtain ⟨u, hu, hl⟩ := h.label_of_indexMap hi
  exact ⟨u, hl ▸ h.startIndex_label u, hl⟩

theorem WellFormed.hasEdge_label {g : DGraph T} (h : g.WellFormed) (u v : Fin g.Size) :
    g.HasEdge (g.label u) (g.label v) = true ↔ g.Edge u v := by
  unfold HasEdge Edge
  rw [h.indexMap_label, h.indexMap_label]
  simp

theorem WellFormed.hasEdge_iff {g : DGraph T} (h : g.WellFormed) (a b : T) :
    g.HasEdge a b = true ↔ ∃ u v : Fin g.Size, g.label u = a ∧ g.label v = b ∧ g.Edge u v := by
  constructor
  · intro hab
    unfold HasEdge at hab
    split at hab
    · rename_i i j hi hj
      obtain ⟨u, hu, hul⟩ := h.label_of_indexMap hi
      obtain ⟨v, hv, hvl⟩ := h.label_of_indexMap hj
      refine ⟨u, v, hul, hvl, ?_⟩
      unfold Edge
      rw [hu, hv]
      simpa using hab
    · simp at hab
  · rintro ⟨u, v, rfl, rfl, huv⟩
    exact (h.hasEdge_label u v).mpr huv

theorem bfsCond_iff (g : DGraph T) (u : Fin g.Size) (visited inq : Fin g.Size → Bool)
    (v : Fin g.Size) :
    bfsCond g u visited inq v = true ↔ g.cell u v ≠ g.INF ∧ visited v = false ∧ inq v = false := by
  unfold bfsCond
  simp [and_assoc]

theorem bfs_foldl_eq (g : DGraph T) (u : Fin g.Size) (visited : Fin g.Size → Bool) :
    ∀ (vs : List (Fin g.Size)), vs.Nodup → ∀ (q : List (Fin g.Size)) (inq : Fin g.Size → Bool),
    vs.foldl (bfsPush g u visited) (q, inq)
      = (q ++ vs.filter (bfsCond g u visited inq),
         fun x => inq x || decide (x ∈ vs.filter (bfsCond g u visited inq))) := by
  intro vs
  induction vs with
  | nil => intro _ q inq; simp
  | cons v vs ih =>
    intro hnd q inq
    obtain ⟨hv, hnd'⟩ := List.nodup_cons.mp hnd
    rw [List.foldl_cons]
    by_cases hc : g.cell u v ≠ g.INF ∧ visited v = false ∧ inq v = false
    · have hstep : bfsPush g u visited (q, inq) v = (q ++ [v], Function.update inq v true) := by
        unfold bfsPush; rw [if_pos hc]
      rw [hstep, ih hnd']
      have hfil : vs.filter (bfsCond g u visited (Function.update inq v true))
          = vs.filter (bfsCond g u visited inq) := by
        apply List.filter_congr
        intro w hw
        have : w ≠ v := fun e => hv (e ▸ hw)
        unfold bfsCond
        rw [Function.update_noteq this]
      have hcv : bfsCond g u visited inq v = true := (bfsCond_iff g u visited inq v).mpr hc
      rw [hfil, List.filter_cons_of_pos hcv]
      refine Prod.ext (by simp) ?_
      funext x
      by_cases hx : x = v
      · subst hx; simp
      · simp [Function.update_noteq hx, hx]
    · have hstep : bfsPush g u visited (q, inq) v = (q, inq) := by
        unfold bfsPush; rw [if_neg hc]
      have hcv : ¬ bfsCond g u visited inq v = true :=
        fun h => hc ((bfsCond_iff g u visited inq v).mp h)
      rw [hstep, ih hnd', List.filter_cons_of_neg hcv]

theorem bfsScan_eq (g : DGraph T) (u : Fin g.Size) (visited : Fin g.Size → Bool)
    (q : List (Fin g.Size)) (inq : Fin g.Size → Bool) :
    bfsScan g u visited q inq
      = (q ++ bfsNew g u visited inq, fun x => inq x || decide (x ∈ bfsNew g u visited inq)) :=
  bfs_foldl_eq g u visited _ (List.nodup_finRange _) q inq

theorem mem_bfsNew (g : DGraph T) (u : Fin g.Size) (visited inq : Fin g.Size → Bool)
    (v : Fin g.Size) :
    v ∈ bfsNew g u visited inq ↔ g.Edge u v ∧ visited v = false ∧ inq v = false := by
  unfold bfsNew Edge
  simp [List.mem_filter, List.mem_finRange, bfsCond_iff]

theorem nodup_bfsNew (g : DGraph T) (u : Fin g.Size) (visited inq : Fin g.Size → Bool) :
    (bfsNew g u visited inq).Nodup :=
  (List.nodup_finRange _).filter _

theorem exists_minHops (g : DGraph T) (s v : Fin g.Size) (h : ∃ k, g.Hops s k v) :
    ∃ d, g.Hops s d v ∧ ∀ k, g.Hops s k v → d ≤ k := by
  classical
  exact ⟨Nat.find h, Nat.find_spec h, fun k hk => Nat.find_min' h hk⟩

theorem Hops.hops_reach {g : DGraph T} {s v : Fin g.Size} {k : Nat} (h : g.Hops s k v) :
    g.Reach s v := by
  induction h with
  | zero => exact Relation.ReflTransGen.refl
  | succ _ he ih => exact Relation.ReflTransGen.tail ih he

theorem Reach.hops {g : DGraph T} {s v : Fin g.Size} (h : g.Reach s v) :
    ∃ k, g.Hops s k v := by
  induction h with
  | refl => exact ⟨0, Hops.zero⟩
  | tail _ he ih => obtain ⟨k, hk⟩ := ih; exact ⟨k + 1, Hops.succ hk he⟩

theorem bfsInv_init (g : DGraph T) (s : Fin g.Size) :
    BfsInv g s [] [s] (fun _ => false) (Function.update (fun _ => false) s true) where
  nodup := by simp
  vis_iff := by simp
  inq_iff := by
    intro v
    by_cases hv : v = s
    · subst hv; simp
    · simp [Function.update_noteq hv, hv]
  head := by simp
  hops := by
    intro v hv
    simp only [List.nil_append, List.mem_singleton] at hv
    exact ⟨0, hv ▸ Hops.zero⟩
  closed := by simp
  sorted := by simp
  near := by
    intro u hu y hy k hk
    simp only [List.head?_cons, Option.mem_def, Option.some.injEq] at hu
    simp only [List.nil_append, List.mem_singleton] at hy
    exact ⟨0, Nat.zero_le _, hy ▸ Hops.zero⟩
  found := by
    intro u hu v k hk hmin
    simp only [List.head?_cons, Option.mem_def, Option.some.injEq] at hu
    subst hu
    have : k = 0 := Nat.le_zero.mp (hmin 0 Hops.zero)
    subst this
    cases hk
    simp

theorem BfsInv.step {g : DGraph T} {s u : Fin g.Size} {os rest : List (Fin g.Size)}
    {visited inq : Fin g.Size → Bool} (h : BfsInv g s os (u :: rest) visited inq) :
    visited u = false ∧
    BfsInv g s (os ++ [u]) (rest ++ bfsNew g u (Function.update visited u true) inq)
      (Function.update visited u true)
      (fun x => inq x || decide (x ∈ bfsNew g u (Function.update visited u true) inq)) := by
  have hnd := List.nodup_append.mp h.nodup
  have huq : u ∈ os ++ u :: rest := by simp
  have huos : u ∉ os := fun hu => hnd.2.2 hu (List.mem_cons_self u rest)
  have hvu : visited u = false := by
    cases hv : visited u with
    | false => rfl
    | true => exact absurd ((h.vis_iff u).mp hv) huos
  refine ⟨hvu, ?_⟩
  have hN : ∀ v, v ∈ bfsNew g u (Function.update visited u true) inq
      ↔ g.Edge u v ∧ v ∉ os ++ u :: rest := by
    intro v
    rw [mem_bfsNew]
    constructor
    · rintro ⟨he, _, hi⟩
      refine ⟨he, fun hv => ?_⟩
      rw [(h.inq_iff v).mpr hv] at hi
      exact Bool.noConfusion hi
    · rintro ⟨he, hv⟩
      have hi : inq v = false := by
        cases hiv : inq v with
        | false => rfl
        | true => exact absurd ((h.inq_iff v).mp hiv) hv
      have hne : v ≠ u := fun e => hv (e ▸ huq)
      have hvis : visited v = false := by
        cases hvv : visited v with
        | false => rfl
        | true => exact absurd (List.mem_append_left _ ((h.vis_iff v).mp hvv)) hv
      exact ⟨he, by rw [Function.update_noteq hne]; exact hvis, hi⟩
  have hNnd := nodup_bfsNew g u (Function.update visited u true) inq
  generalize bfsNew g u (Function.update visited u true) inq = N at hN hNnd ⊢
  have hL : (os ++ [u]) ++ (rest ++ N) = (os ++ u :: rest) ++ N := by simp
  obtain ⟨d, hd, hdmin⟩ := exists_minHops g s u (h.hops u huq)
  have F1 : ∀ y ∈ N, g.Hops s (d + 1) y := fun y hy => Hops.succ hd ((hN y).mp hy).1
  have F2 : ∀ y ∈ N, ∀ k, g.Hops s k y → d + 1 ≤ k := by
    intro y hy k hk
    by_contra hlt
    have hkd : k ≤ d := by omega
    exact ((hN y).mp hy).2 (h.found u rfl y k hk (fun j hj => le_trans hkd (hdmin j hj)))
  have F3 : ∀ a ∈ os ++ u :: rest, ∃ j, j ≤ d + 1 ∧ g.Hops s j a :=
    fun a ha => h.near u rfl a ha d hd
  have hsorted := List.pairwise_append.mp h.sorted
  have hurest : ∀ x ∈ rest, g.HopLe s u x := (List.pairwise_cons.mp hsorted.2.1).1
  have hsL : s ∈ os ++ u :: rest := List.mem_of_mem_head? h.head
  -- the new head is at least as far as `u`
  have hhead : ∀ w, w ∈ rest ++ N → ∀ k, g.Hops s k w → d ≤ k := by
    intro w hw k hk
    rcases List.mem_append.mp hw with hw | hw
    · obtain ⟨j, hj, hju⟩ := hurest w hw k hk
      exact le_trans (hdmin j hju) hj
    · have := F2 w hw k hk; omega
  constructor
  · -- nodup
    rw [hL]
    refine List.nodup_append.mpr ⟨h.nodup, ?_, ?_⟩
    · exact hNnd
    · intro a ha hb
      exact ((hN a).mp hb).2 ha
  · intro v
    by_cases hv : v = u
    · subst hv; simp
    · rw [Function.update_noteq hv, h.vis_iff]; simp [hv]
  · intro v
    rw [hL]
    simp only [Bool.or_eq_true, decide_eq_true_eq, h.inq_iff, List.mem_append]
  · rw [hL, List.head?_append_of_ne_nil _ (by simp)]
    exact h.head
  · intro v hv
    rw [hL] at hv
    rcases List.mem_append.mp hv with hv | hv
    · exact h.hops v hv
    · exact ⟨d + 1, F1 v hv⟩
  · intro w hw v he
    rw [hL]
    rcases List.mem_append.mp hw with hw | hw
    · exact List.mem_append_left _ (h.closed w hw v he)
    · have hwu : w = u := by simpa using hw
      subst hwu
      by_cases hv : v ∈ os ++ w :: rest
      · exact List.mem_append_left _ hv
      · exact List.mem_append_right _ ((hN v).mpr ⟨he, hv⟩)
  · rw [hL]
    refine List.pairwise_append.mpr ⟨h.sorted, ?_, ?_⟩
    · apply List.pairwise_of_forall_mem_list
      intro a ha b hb k hk
      exact ⟨d + 1, F2 b hb k hk, F1 a ha⟩
    · intro a ha b hb k hk
      obtain ⟨j, hj, hja⟩ := F3 a ha
      exact ⟨j, le_trans hj (F2 b hb k hk), hja⟩
  · intro w hw y hy k hk
    have hdk := hhead w (List.mem_of_mem_head? hw) k hk
    rw [hL] at hy
    rcases List.mem_append.mp hy with hy | hy
    · obtain ⟨j, hj, hjy⟩ := F3 y hy
      exact ⟨j, by omega, hjy⟩
    · exact ⟨d + 1, by omega, F1 y hy⟩
  · intro w hw v k hk hmin
    rw [hL]
    have hwmem := List.mem_of_mem_head? hw
    have hwj : ∃ j, j ≤ d + 1 ∧ g.Hops s j w := by
      rcases List.mem_append.mp hwmem with hw1 | hw1
      · exact F3 w (by simp [hw1])
      · exact ⟨d + 1, le_refl _, F1 w hw1⟩
    obtain ⟨jw, hjw, hjw2⟩ := hwj
    cases hk with
    | zero => exact List.mem_append_left _ hsL
    | succ hp he =>
      rename_i k1 p
      have hk1 : k1 + 1 ≤ d + 1 := le_trans (hmin jw hjw2) hjw
      have hpL : p ∈ os ++ u :: rest :=
        h.found u rfl p k1 hp (fun j hj => le_trans (by omega) (hdmin j hj))
      rcases List.mem_append.mp hpL with hpo | hpq
      · exact List.mem_append_left _ (h.closed p hpo v he)
      · rcases List.mem_cons.mp hpq with hpu | hpr
        · subst hpu
          by_cases hv : v ∈ os ++ p :: rest
          · exact List.mem_append_left _ hv
          · exact List.mem_append_right _ ((hN v).mpr ⟨he, hv⟩)
        · exfalso
          cases rest with
          | nil => simp at hpr
          | cons r rest1 =>
            have hwr : w = r := by
              simp only [List.cons_append, List.head?_cons, Option.mem_def,
                Option.some.injEq] at hw
              exact hw.symm
            subst hwr
            have hrs := List.pairwise_cons.mp (List.pairwise_cons.mp hsorted.2.1).2
            rcases List.mem_cons.mp hpr with hpw | hpr1
            · subst hpw
              have := hmin k1 hp
              omega
            · obtain ⟨j, hj, hjw⟩ := hrs.1 p hpr1 k1 hp
              have := hmin j hjw
              omega

theorem bfsLoop_spec (g : DGraph T) (s : Fin g.Size) :
    ∀ (m : Nat) (q : List (Fin g.Size)) (visited inq : Fin g.Size → Bool)
      (os : List (Fin g.Size)),
      q.length + unmarked inq = m → BfsInv g s os q visited inq →
      ∃ os1 visited1 inq1, bfsLoop g q visited inq (os.map g.label) = os1.map g.label ∧
        BfsInv g s os1 [] visited1 inq1 := by
  intro m
  induction m using Nat.strong_induction_on with
  | _ m ih =>
    intro q visited inq os hm hinv
    cases q with
    | nil =>
      rw [bfsLoop]
      exact ⟨os, visited, inq, rfl, hinv⟩
    | cons u rest =>
      obtain ⟨hvu, hstep⟩ := hinv.step
      rw [bfsLoop]
      simp only [hvu, Bool.false_eq_true, if_false]
      have hmeas := bfsScan_measure g u (Function.update visited u true) rest inq
      have hlab : os.map g.label ++ [g.label u] = (os ++ [u]).map g.label := by simp
      rw [hlab]
      rw [bfsScan_eq] at hmeas ⊢
      refine ih _ ?_ _ _ _ _ rfl hstep
      rw [hmeas, ← hm]
      simp

/-- What the loop of `BFS` returns, on indices. -/
theorem bfs_index_spec (g : DGraph T) (s : Fin g.Size) :
    ∃ os : List (Fin g.Size),
      bfsLoop g [s] (fun _ => false) (Function.update (fun _ => false) s true) []
        = os.map g.label ∧
      os.Nodup ∧ os.head? = some s ∧ (∀ v, v ∈ os ↔ g.Reach s v) ∧
      os.Pairwise (g.HopLe s) := by
  obtain ⟨os, visited1, inq1, heq, hinv⟩ :=
    bfsLoop_spec g s _ [s] _ _ [] rfl (bfsInv_init g s)
  refine ⟨os, by simpa using heq, by simpa using hinv.nodup, by simpa using hinv.head, ?_,
    by simpa using hinv.sorted⟩
  have hs : s ∈ os := by
    have := List.mem_of_mem_head? hinv.head
    simpa using this
  intro v
  constructor
  · intro hv
    obtain ⟨k, hk⟩ := hinv.hops v (by simpa using hv)
    exact hk.hops_reach
  · intro hr
    induction hr with
    | refl => exact hs
    | tail _ he ih => simpa using hinv.closed _ ih _ he

theorem WellFormed.reachable_iff {g : DGraph T} (h : g.WellFormed) (s : Fin g.Size) (x : T) :
    g.Reachable (g.label s) x ↔ ∃ v, g.Reach s v ∧ g.label v = x := by
  constructor
  · intro hr
    induction hr with
    | refl => exact ⟨s, Relation.ReflTransGen.refl, rfl⟩
    | tail _ he ih =>
      obtain ⟨v, hv, hvl⟩ := ih
      obtain ⟨u1, v1, hu1, hv1, he1⟩ := (h.hasEdge_iff _ _).mp he
      have : u1 = v := h.label_injective (hu1.trans hvl.symm)
      subst this
      exact ⟨v1, Relation.ReflTransGen.tail hv he1, hv1⟩
  · rintro ⟨v, hv, rfl⟩
    induction hv with
    | refl => exact Relation.ReflTransGen.refl
    | tail _ he ih => exact Relation.ReflTransGen.tail ih ((h.hasEdge_label _ _).mpr he)

theorem WellFormed.hopPath_iff {g : DGraph T} (h : g.WellFormed) (s : Fin g.Size) (k : Nat)
    (x : T) : g.HopPath (g.label s) k x ↔ ∃ v, g.Hops s k v ∧ g.label v = x := by
  constructor
  · intro hr
    induction hr with
    | zero => exact ⟨s, Hops.zero, rfl⟩
    | succ _ he ih =>
      obtain ⟨v, hv, hvl⟩ := ih
      obtain ⟨u1, v1, hu1, hv1, he1⟩ := (h.hasEdge_iff _ _).mp he
      have : u1 = v := h.label_injective (hu1.trans hvl.symm)
      subst this
      exact ⟨v1, Hops.succ hv he1, hv1⟩
  · rintro ⟨v, hv, rfl⟩
    induction hv with
    | zero => exact HopPath.zero
    | succ _ he ih => exact HopPath.succ ih ((h.hasEdge_label _ _).mpr he)

theorem WellFormed.hopPath_label_iff {g : DGraph T} (h : g.WellFormed) (s v : Fin g.Size)
    (k : Nat) : g.HopPath (g.label s) k (g.label v) ↔ g.Hops s k v := by
  rw [h.hopPath_iff]
  constructor
  · rintro ⟨w, hw, hwl⟩
    exact h.label_injective hwl ▸ hw
  · intro hv
    exact ⟨v, hv, rfl⟩

theorem rebuild_foldl_spec [DecidableEq T] (vs : List T) (hnd : vs.Nodup) :
    ∀ n, n ≤ vs.length → ∀ (x : T) (i : Nat),
      (List.range n).foldl (indexStep vs) (fun _ => none) x = some i
        ↔ i < n ∧ vs[i]? = some x := by
  intro n
  induction n with
  | zero => intro _ x i; simp
  | succ n ih =>
    intro hn x i
    have hlt : n < vs.length := hn
    rw [List.range_succ, List.foldl_append, List.foldl_cons, List.foldl_nil]
    simp only [indexStep, List.getElem?_eq_getElem hlt, mapInsert]
    by_cases hx : x = vs[n]
    · rw [if_pos hx]
      constructor
      · intro h
        have : n = i := Option.some.inj h
        subst this
        exact ⟨Nat.lt_succ_self _, by rw [List.getElem?_eq_getElem hlt, hx]⟩
      · rintro ⟨_, hi2⟩
        obtain ⟨hi3, hi4⟩ := List.getElem?_eq_some.mp hi2
        have : i = n := (List.Nodup.getElem_inj_iff hnd).mp (hi4.trans hx)
        rw [this]
    · rw [if_neg hx, ih (Nat.le_of_lt hlt)]
      constructor
      · rintro ⟨h1, h2⟩
        exact ⟨Nat.lt_succ_of_lt h1, h2⟩
      · rintro ⟨h1, h2⟩
        refine ⟨?_, h2⟩
        rcases Nat.lt_succ_iff_lt_or_eq.mp h1 with h | h
        · exact h
        · exfalso
          subst h
          rw [List.getElem?_eq_getElem hlt] at h2
          exact hx (Option.some.inj h2).symm

theorem rebuildIndex_spec [DecidableEq T] (vs : List T) (hnd : vs.Nodup) (x : T) (i : Nat) :
    rebuildIndex vs x = some i ↔ vs[i]? = some x := by
  unfold rebuildIndex
  rw [rebuild_foldl_spec vs hnd vs.length (le_refl _)]
  constructor
  · exact fun h => h.2
  · intro h
    exact ⟨(List.getElem?_eq_some.mp h).1, h⟩

theorem ofMatrix_wellFormed [DecidableEq T] (InVal : Int) (vs : List T) (m : List (List Int))
    (hnd : vs.Nodup) (hrows : m.length = vs.length)
    (hcols : ∀ row ∈ m, row.length = vs.length) : (ofMatrix InVal vs m).WellFormed where
  rows := hrows
  cols := hcols
  nodup := hnd
  index := rebuildIndex_spec vs hnd

theorem cycleAB_wellFormed : cycleAB.WellFormed :=
  ofMatrix_wellFormed _ _ _ (by decide) (by decide) (by decide)

theorem branching_wellFormed : branching.WellFormed :=
  ofMatrix_wellFormed _ _ _ (by decide) (by decide) (by decide)

theorem bfsLoop_of_fuel (g : DGraph T) (fuel : Nat) : ∀ (q : List (Fin g.Size))
    (visited inq : Fin g.Size → Bool) (order r : List T),
    bfsLoopFuel g fuel q visited inq order = some r → bfsLoop g q visited inq order = r := by
  induction fuel with
  | zero => intro q visited inq order r h; simp [bfsLoopFuel] at h
  | succ fuel ih =>
    intro q visited inq order r h
    cases q with
    | nil => rw [bfsLoop]; simpa [bfsLoopFuel] using h
    | cons u rest =>
      rw [bfsLoop]
      simp only [bfsLoopFuel] at h
      split
      · rename_i hv; rw [if_pos hv] at h; exact ih _ _ _ _ _ h
      · rename_i hv; rw [if_neg hv] at h; exact ih _ _ _ _ _ h

theorem BFS_of_fuel (g : DGraph T) (start : T) (s : Fin g.Size) (fuel : Nat) (r : List T)
    (hs : g.startIndex start = .ok s)
    (h : bfsLoopFuel g fuel [s] (fun _ => false) (Function.update (fun _ => false) s true) []
      = some r) : g.BFS start = .ok r := by
  unfold BFS
  rw [hs]
  simp only
  rw [bfsLoop_of_fuel g fuel _ _ _ _ _ h]

theorem BFS_cycleAB : cycleAB.BFS "A" = .ok ["A", "B"] :=
  BFS_of_fuel cycleAB "A" ⟨0, by decide⟩ 5 _ (by rfl) (by rfl)

theorem BFS_branching : branching.BFS "A" = .ok ["A", "B", "C", "D", "E"] :=
  BFS_of_fuel branching "A" ⟨0, by decide⟩ 8 _ (by rfl) (by rfl)

/-- C4. For a well-formed graph and a present start vertex, `BFS(start)`
succeeds with a duplicate-free list that begins with `start` and whose
elements are exactly the vertices reachable from `start` along directed
edges followed forwards. -/
theorem BFS_reachable_set (g : DGraph T) (hwf : g.WellFormed) (start : T)
    (hs : g.HasVert start = true) :
    ∃ order, g.BFS start = .ok order ∧ order.Nodup ∧ order.head? = some start ∧
      ∀ x, x ∈ order ↔ g.Reachable start x := by
  obtain ⟨s, hsi, hsl⟩ := hwf.startIndex_of_hasVert hs
  obtain ⟨os, heq, hnd, hhead, hmem, _⟩ := bfs_index_spec g s
  refine ⟨os.map g.label, ?_, hnd.map hwf.label_injective, ?_, ?_⟩
  · unfold BFS
    rw [hsi]
    simp only
    rw [heq]
  · rw [List.head?_map, hhead, Option.map_some', hsl]
  · intro x
    rw [← hsl, hwf.reachable_iff, List.mem_map]
    constructor
    · rintro ⟨v, hv, hvx⟩
      exact ⟨v, (hmem v).mp hv, hvx⟩
    · rintro ⟨v, hv, hvx⟩
      exact ⟨v, (hmem v).mpr hv, hvx⟩

/-- On the two-vertex cycle `A -> B`, `B -> A` the traversal from `A` is
`[A, B]`, and the general statement applies to it. -/
theorem BFS_reachable_set_witness :
    cycleAB.WellFormed ∧ cycleAB.HasVert "A" = true ∧ cycleAB.BFS "A" = .ok ["A", "B"] ∧
    ∃ order, cycleAB.BFS "A" = .ok order ∧ order.Nodup ∧ order.head? = some "A" ∧
      ∀ x, x ∈ order ↔ cycleAB.Reachable "A" x :=
  ⟨cycleAB_wellFormed, by rfl, BFS_cycleAB,
    BFS_reachable_set cycleAB cycleAB_wellFormed "A" (by rfl)⟩

/-- C5. For a well-formed graph and a present start vertex, whenever `x`
comes before `y` in `BFS(start)`, the least number of edges of a directed
path from `start` to `x` is at most the least number for `y`. -/
theorem BFS_level_order (g : DGraph T) (hwf : g.WellFormed) (start : T)
    (hs : g.HasVert start = true) :
    ∃ order, g.BFS start = .ok order ∧
      order.Pairwise (fun x y =>
        ∃ dx dy, g.MinHops start x dx ∧ g.MinHops start y dy ∧ dx ≤ dy) := by
  obtain ⟨s, hsi, hsl⟩ := hwf.startIndex_of_hasVert hs
  obtain ⟨os, heq, hnd, hhead, hmem, hsorted⟩ := bfs_index_spec g s
  refine ⟨os.map g.label, ?_, ?_⟩
  · unfold BFS
    rw [hsi]
    simp only
    rw [heq]
  · rw [List.pairwise_map]
    refine hsorted.imp_of_mem ?_
    intro u v hu hv hle
    obtain ⟨du, hdu, hdumin⟩ := exists_minHops g s u ((hmem u).mp hu).hops
    obtain ⟨dv, hdv, hdvmin⟩ := exists_minHops g s v ((hmem v).mp hv).hops
    refine ⟨du, dv, ⟨?_, ?_⟩, ⟨?_, ?_⟩, ?_⟩
    · rw [← hsl]; exact (hwf.hopPath_label_iff s u du).mpr hdu
    · intro k hk
      rw [← hsl] at hk
      exact hdumin k ((hwf.hopPath_label_iff s u k).mp hk)
    · rw [← hsl]; exact (hwf.hopPath_label_iff s v dv).mpr hdv
    · intro k hk
      rw [← hsl] at hk
      exact hdvmin k ((hwf.hopPath_label_iff s v k).mp hk)
    · obtain ⟨j, hj, hju⟩ := hle dv hdv
      exact le_trans (hdumin j hju) hj

/-- On the graph `A -> B`, `A -> C`, `B -> D`, `C -> E` the traversal from `A`
is `[A, B, C, D, E]`, and the general statement applies to it. -/
theorem BFS_level_order_witness :
    branching.WellFormed ∧ branching.HasVert "A" = true ∧
    branching.BFS "A" = .ok ["A", "B", "C", "D", "E"] ∧
    ∃ order, branching.BFS "A" = .ok order ∧
      order.Pairwise (fun x y =>
        ∃ dx dy, branching.MinHops "A" x dx ∧ branching.MinHops "A" y dy ∧ dx ≤ dy) :=
  ⟨branching_wellFormed, by rfl, BFS_branching,
    BFS_level_order branching branching_wellFormed "A" (by rfl)⟩

theorem mem_dfsPushed (g : DGraph T) (u : Fin g.Size) (visited : Fin g.Size → Bool)
    (v : Fin g.Size) : v ∈ dfsPushed g u visited ↔ g.Edge u v ∧ visited v = false := by
  unfold dfsPushed Edge
  simp [List.mem_filter, List.mem_finRange]

theorem dfsInv_init (g : DGraph T) (s : Fin g.Size) : DfsInv g s [] [s] (fun _ => false) where
  nodup := by simp
  vis_iff := by simp
  head := by simp
  reach := by
    intro v hv
    simp only [List.nil_append, List.mem_singleton] at hv
    exact hv ▸ Relation.ReflTransGen.refl
  closed := by simp

theorem DfsInv.skip {g : DGraph T} {s u : Fin g.Size} {os rest : List (Fin g.Size)}
    {visited : Fin g.Size → Bool} (h : DfsInv g s os (u :: rest) visited)
    (hu : visited u = true) : DfsInv g s os rest visited where
  nodup := h.nodup
  vis_iff := h.vis_iff
  head := by
    have huo : u ∈ os := (h.vis_iff u).mp hu
    have hne : os ≠ [] := List.ne_nil_of_mem huo
    have := h.head
    rw [List.head?_append_of_ne_nil _ hne] at this ⊢
    exact this
  reach := by
    intro v hv
    apply h.reach
    rcases List.mem_append.mp hv with hv | hv
    · exact List.mem_append_left _ hv
    · exact List.mem_append_right _ (List.mem_cons_of_mem _ hv)
  closed := by
    intro w hw v he
    rcases List.mem_append.mp (h.closed w hw v he) with hv | hv
    · exact List.mem_append_left _ hv
    · rcases List.mem_cons.mp hv with hv | hv
      · exact List.mem_append_left _ (hv ▸ (h.vis_iff u).mp hu)
      · exact List.mem_append_right _ hv

theorem DfsInv.visit {g : DGraph T} {s u : Fin g.Size} {os rest : List (Fin g.Size)}
    {visited : Fin g.Size → Bool} (h : DfsInv g s os (u :: rest) visited)
    (hu : ¬ visited u = true) :
    DfsInv g s (os ++ [u]) ((dfsPushed g u (Function.update visited u true)).reverse ++ rest)
      (Function.update visited u true) where
  nodup := by
    have huo : u ∉ os := fun hm => hu ((h.vis_iff u).mpr hm)
    exact List.nodup_append.mpr ⟨h.nodup, by simp, by
      intro a ha hb
      simp only [List.mem_singleton] at hb
      exact huo (hb ▸ ha)⟩
  vis_iff := by
    intro v
    by_cases hv : v = u
    · subst hv; simp
    · rw [Function.update_noteq hv, h.vis_iff]; simp [hv]
  head := by
    have := h.head
    cases os with
    | nil => simpa using this
    | cons a os1 => simpa using this
  reach := by
    intro v hv
    have hur : g.Reach s u := h.reach u (by simp)
    simp only [List.mem_append, List.mem_singleton, List.mem_reverse, mem_dfsPushed] at hv
    rcases hv with (hv | hv) | (hv | hv)
    · exact h.reach v (List.mem_append_left _ hv)
    · exact hv ▸ hur
    · exact Relation.ReflTransGen.tail hur hv.1
    · exact h.reach v (List.mem_append_right _ (List.mem_cons_of_mem _ hv))
  closed := by
    intro w hw v he
    simp only [List.mem_append, List.mem_singleton, List.mem_reverse, mem_dfsPushed]
    by_cases hvu : v = u
    · exact Or.inl (Or.inr hvu)
    rcases List.mem_append.mp hw with hw | hw
    · rcases List.mem_append.mp (h.closed w hw v he) with hv | hv
      · exact Or.inl (Or.inl hv)
      · rcases List.mem_cons.mp hv with hv | hv
        · exact absurd hv hvu
        · exact Or.inr (Or.inr hv)
    · have hwu : w = u := by simpa using hw
      subst hwu
      by_cases hvo : v ∈ os
      · exact Or.inl (Or.inl hvo)
      · refine Or.inr (Or.inl ⟨he, ?_⟩)
        rw [Function.update_noteq hvu]
        cases hvv : visited v with
        | false => rfl
        | true => exact absurd ((h.vis_iff v).mp hvv) hvo

theorem dfsLoop_spec (g : DGraph T) (s : Fin g.Size) (st : List (Fin g.Size))
    (visited : Fin g.Size → Bool) (order : List T) :
    ∀ os : List (Fin g.Size), order = os.map g.label → DfsInv g s os st visited →
      ∃ os1 visited1, dfsLoop g st visited order = os1.map g.label ∧
        DfsInv g s os1 [] visited1 := by
  induction st, visited, order using dfsLoop.induct g with
  | case1 visited order =>
    intro os ho hinv
    rw [dfsLoop]
    exact ⟨os, visited, ho, hinv⟩
  | case2 visited order u rest hu ih =>
    intro os ho hinv
    rw [dfsLoop]
    simp only [hu, dite_true]
    exact ih os ho (hinv.skip hu)
  | case3 visited order u rest hu ih =>
    intro os ho hinv
    rw [dfsLoop]
    simp only [hu, dite_false]
    exact ih (os ++ [u]) (by simp [ho]) (hinv.visit hu)

/-- What the loop of `DFS` returns, on indices. -/
theorem dfs_index_spec (g : DGraph T) (s : Fin g.Size) :
    ∃ os : List (Fin g.Size),
      dfsLoop g [s] (fun _ => false) [] = os.map g.label ∧
      os.Nodup ∧ os.head? = some s ∧ (∀ v, v ∈ os ↔ g.Reach s v) := by
  obtain ⟨os, visited1, heq, hinv⟩ :=
    dfsLoop_spec g s [s] _ [] [] rfl (dfsInv_init g s)
  refine ⟨os, heq, hinv.nodup, by simpa using hinv.head, ?_⟩
  have hs : s ∈ os := by
    have := List.mem_of_mem_head? hinv.head
    simpa using this
  intro v
  constructor
  · intro hv
    exact hinv.reach v (by simpa using hv)
  · intro hr
    induction hr with
    | refl => exact hs
    | tail _ he ih => simpa using hinv.closed _ ih _ he

theorem dfsLoop_of_fuel (g : DGraph T) (fuel : Nat) : ∀ (st : List (Fin g.Size))
    (visited : Fin g.Size → Bool) (order r : List T),
    dfsLoopFuel g fuel st visited order = some r → dfsLoop g st visited order = r := by
  induction fuel with
  | zero => intro st visited order r h; simp [dfsLoopFuel] at h
  | succ fuel ih =>
    intro st visited order r h
    cases st with
    | nil => rw [dfsLoop]; simpa [dfsLoopFuel] using h
    | cons u rest =>
      rw [dfsLoop]
      simp only [dfsLoopFuel] at h
      split
      · rename_i hv; rw [if_pos hv] at h; exact ih _ _ _ _ h
      · rename_i hv; rw [if_neg hv] at h; exact ih _ _ _ _ h

theorem DFS_of_fuel (g : DGraph T) (start : T) (s : Fin g.Size) (fuel : Nat) (r : List T)
    (hs : g.startIndex start = .ok s)
    (h : dfsLoopFuel g fuel [s] (fun _ => false) [] = some r) : g.DFS start = .ok r := by
  unfold DFS
  rw [hs]
  simp only
  rw [dfsLoop_of_fuel g fuel _ _ _ _ h]

theorem DFS_cycleAB : cycleAB.DFS "A" = .ok ["A", "B"] :=
  DFS_of_fuel cycleAB "A" ⟨0, by decide⟩ 5 _ (by rfl) (by rfl)

theorem DFS_branching : branching.DFS "A" = .ok ["A", "C", "E", "B", "D"] :=
  DFS_of_fuel branching "A" ⟨0, by decide⟩ 8 _ (by rfl) (by rfl)

/-- C6. For a well-formed graph and a present start vertex, `DFS(start)`
succeeds with a duplicate-free list that begins with `start` and whose
elements are exactly the vertices reachable from `start` along directed
edges. -/
theorem DFS_reachable_set (g : DGraph T) (hwf : g.WellFormed) (start : T)
    (hs : g.HasVert start = true) :
    ∃ order, g.DFS start = .ok order ∧ order.Nodup ∧ order.head? = some start ∧
      ∀ x, x ∈ order ↔ g.Reachable start x := by
  obtain ⟨s, hsi, hsl⟩ := hwf.startIndex_of_hasVert hs
  obtain ⟨os, heq, hnd, hhead, hmem⟩ := dfs_index_spec g s
  refine ⟨os.map g.label, ?_, hnd.map hwf.label_injective, ?_, ?_⟩
  · unfold DFS
    rw [hsi]
    simp only
    rw [heq]
  · rw [List.head?_map, hhead, Option.map_some', hsl]
  · intro x
    rw [← hsl, hwf.reachable_iff, List.mem_map]
    constructor
    · rintro ⟨v, hv, hvx⟩
      exact ⟨v, (hmem v).mp hv, hvx⟩
    · rintro ⟨v, hv, hvx⟩
      exact ⟨v, (hmem v).mpr hv, hvx⟩

/-- On the two-vertex cycle `A -> B`, `B -> A` the traversal from `A` has
length 2, and the general statement applies to it. -/
theorem DFS_reachable_set_witness :
    cycleAB.WellFormed ∧ cycleAB.HasVert "A" = true ∧
    (∃ order, cycleAB.DFS "A" = .ok order ∧ order.length = 2) ∧
    ∃ order, cycleAB.DFS "A" = .ok order ∧ order.Nodup ∧ order.head? = some "A" ∧
      ∀ x, x ∈ order ↔ cycleAB.Reachable "A" x :=
  ⟨cycleAB_wellFormed, by rfl, ⟨_, DFS_cycleAB, rfl⟩,
    DFS_reachable_set cycleAB cycleAB_wellFormed "A" (by rfl)⟩

theorem recDfs_nil (g : DGraph T) (visited : Fin g.Size → Bool) :
    recDfs g [] visited = ([], visited) := by
  unfold recDfs
  rw [recDfsAux]

theorem recDfs_cons_visited (g : DGraph T) (v : Fin g.Size) (rest : List (Fin g.Size))
    (visited : Fin g.Size → Bool) (hv : visited v = true) :
    recDfs g (v :: rest) visited = recDfs g rest visited := by
  unfold recDfs
  rw [recDfsAux, dif_pos hv]

theorem recDfs_cons_fresh (g : DGraph T) (v : Fin g.Size) (rest : List (Fin g.Size))
    (visited : Fin g.Size → Bool) (hv : ¬ visited v = true) :
    recDfs g (v :: rest) visited =
      (v :: (recDfs g (outDesc g v) (Function.update visited v true)).1
          ++ (recDfs g rest (recDfs g (outDesc g v) (Function.update visited v true)).2).1,
       (recDfs g rest (recDfs g (outDesc g v) (Function.update visited v true)).2).2) := by
  unfold recDfs
  rw [recDfsAux, dif_neg hv]

theorem recDfs_marks_mono (g : DGraph T) (vs : List (Fin g.Size))
    (visited : Fin g.Size → Bool) (v : Fin g.Size) (hv : visited v = true) :
    (recDfs g vs visited).2 v = true :=
  (recDfsAux g vs visited).2 v hv

theorem recDfs_append (g : DGraph T) (a b : List (Fin g.Size)) :
    ∀ visited : Fin g.Size → Bool,
    recDfs g (a ++ b) visited =
      ((recDfs g a visited).1 ++ (recDfs g b (recDfs g a visited).2).1,
       (recDfs g b (recDfs g a visited).2).2) := by
  induction a with
  | nil => intro visited; simp [recDfs_nil]
  | cons v rest ih =>
    intro visited
    by_cases hv : visited v = true
    · rw [List.cons_append, recDfs_cons_visited g v _ _ hv, recDfs_cons_visited g v _ _ hv, ih]
    · rw [List.cons_append, recDfs_cons_fresh g v _ _ hv, recDfs_cons_fresh g v _ _ hv, ih]
      simp

theorem recDfs_filter (g : DGraph T) (visited : Fin g.Size → Bool) (l : List (Fin g.Size)) :
    ∀ visited1 : Fin g.Size → Bool, (∀ v, visited v = true → visited1 v = true) →
      recDfs g (l.filter (fun v => !visited v)) visited1 = recDfs g l visited1 := by
  induction l with
  | nil => intro _ _; rfl
  | cons v rest ih =>
    intro visited1 hsub
    by_cases hv : visited v = true
    · rw [List.filter_cons_of_neg (by simp [hv]), recDfs_cons_visited g v _ _ (hsub v hv)]
      exact ih visited1 hsub
    · rw [List.filter_cons_of_pos (by simpa using hv)]
      by_cases hv1 : visited1 v = true
      · rw [recDfs_cons_visited g v _ _ hv1, recDfs_cons_visited g v _ _ hv1]
        exact ih visited1 hsub
      · rw [recDfs_cons_fresh g v _ _ hv1, recDfs_cons_fresh g v _ _ hv1]
        have hsub1 : ∀ w, visited w = true →
            (recDfs g (outDesc g v) (Function.update visited1 v true)).2 w = true :=
          fun w hw => recDfs_marks_mono g _ _ w (update_true_of visited1 v w (hsub w hw))
        rw [ih _ hsub1]

theorem dfsPushed_reverse (g : DGraph T) (u : Fin g.Size) (visited : Fin g.Size → Bool) :
    (dfsPushed g u visited).reverse = (outDesc g u).filter (fun v => !visited v) := by
  unfold dfsPushed outDesc
  rw [List.filter_reverse, List.filter_filter]
  congr 1
  apply List.filter_congr
  intro v _
  rw [Bool.and_comm]

theorem dfsLoop_eq_recDfs (g : DGraph T) (st : List (Fin g.Size))
    (visited : Fin g.Size → Bool) (order : List T) :
    dfsLoop g st visited order = order ++ (recDfs g st visited).1.map g.label := by
  induction st, visited, order using dfsLoop.induct g with
  | case1 visited order =>
    rw [dfsLoop, recDfs_nil]; simp
  | case2 visited order u rest hu ih =>
    rw [dfsLoop, dif_pos hu, ih, recDfs_cons_visited g u _ _ hu]
  | case3 visited order u rest hu ih =>
    rw [dfsLoop, dif_neg hu, ih, recDfs_append, dfsPushed_reverse,
      recDfs_filter g _ _ _ (fun _ h => h), recDfs_cons_fresh g u _ _ hu]
    simp

/-- C7. For a well-formed graph and a present start vertex, the list returned
by the stack-based `DFS(start)` is the pre-order of the recursive depth-first
search that recurses, at each vertex, into the not-yet-visited out-neighbours
in descending index order. -/
theorem DFS_eq_recursive_descending (g : DGraph T) (hwf : g.WellFormed) (start : T)
    (hs : g.HasVert start = true) :
    ∃ s : Fin g.Size, g.indexMap start = some s.val ∧
      g.DFS start = .ok ((recursiveDFS g s).map g.label) := by
  obtain ⟨s, hsi, hsl⟩ := hwf.startIndex_of_hasVert hs
  refine ⟨s, hsl ▸ hwf.indexMap_label s, ?_⟩
  unfold DFS recursiveDFS
  rw [hsi]
  simp only
  rw [dfsLoop_eq_recDfs, List.nil_append]

/-- On the graph `A -> B`, `A -> C`, `B -> D`, `C -> E` the traversal from `A`
is `[A, C, E, B, D]`, and the general statement applies to it. -/
theorem DFS_eq_recursive_descending_witness :
    branching.WellFormed ∧ branching.HasVert "A" = true ∧
    branching.DFS "A" = .ok ["A", "C", "E", "B", "D"] ∧
    ∃ s : Fin branching.Size, branching.indexMap "A" = some s.val ∧
      branching.DFS "A" = .ok ((recursiveDFS branching s).map branching.label) :=
  ⟨branching_wellFormed, by rfl, DFS_branching,
    DFS_eq_recursive_descending branching branching_wellFormed "A" (by rfl)⟩

theorem startIndex_notFound_iff (g : DGraph T) (start : T) :
    g.startIndex start = .error .NotFound ↔ g.HasVert start = false := by
  unfold startIndex HasVert
  cases h : g.indexMap start with
  | none => simp
  | some s =>
    by_cases hs : s < g.Size
    · simp [hs]
    · simp [hs]

/-- C8. Each of `BFS(start)`, `DFS(start)` and `BellmanFord(start)` fails with
`NotFound` exactly when `start` is not a vertex of the graph; in particular
all three fail so on the empty graph.  The addition of the weight type plays
no part. -/
theorem traversals_notFound_iff (g : DGraph T) (start : T) :
    (g.BFS start = .error .NotFound ↔ g.HasVert start = false) ∧
    (g.DFS start = .error .NotFound ↔ g.HasVert start = false) ∧
    (∀ add, g.BellmanFord add start = .error .NotFound ↔ g.HasVert start = false) ∧
    (∀ InVal : Int, (empty InVal : DGraph T).BFS start = .error .NotFound ∧
      (empty InVal : DGraph T).DFS start = .error .NotFound ∧
      ∀ add, (empty InVal : DGraph T).BellmanFord add start = .error .NotFound) := by
  have hb : ∀ g : DGraph T, g.BFS start = .error .NotFound ↔ g.HasVert start = false := by
    intro g
    rw [← startIndex_notFound_iff]
    unfold BFS
    cases h : g.startIndex start with
    | error e => simp
    | ok s => simp
  have hd : ∀ g : DGraph T, g.DFS start = .error .NotFound ↔ g.HasVert start = false := by
    intro g
    rw [← startIndex_notFound_iff]
    unfold DFS
    cases h : g.startIndex start with
    | error e => simp
    | ok s => simp
  have hf : ∀ (g : DGraph T) (add : Int → Int → Int),
      g.BellmanFord add start = .error .NotFound ↔ g.HasVert start = false := by
    intro g add
    rw [← startIndex_notFound_iff]
    unfold BellmanFord
    cases h : g.startIndex start with
    | error e => simp
    | ok s =>
      by_cases hi : improvable g add (bfDist g add s) = true
      · simp [hi]
      · simp [hi]
  exact ⟨hb g, hd g, hf g, fun InVal =>
    ⟨(hb _).mpr rfl, (hd _).mpr rfl, fun add => (hf _ add).mpr rfl⟩⟩

theorem BoundedWalk.walk {g : DGraph T} {a v : Fin g.Size} {p : List (Fin g.Size)} {w : Int}
    (h : BoundedWalk g a p v w) : Walk g a p v w := by
  induction h with
  | nil _ => exact Walk.nil
  | snoc _ he _ ih => exact Walk.snoc ih he

theorem BoundedWalk.lt_inf {g : DGraph T} {a v : Fin g.Size} {p : List (Fin g.Size)} {w : Int}
    (h : BoundedWalk g a p v w) : w < g.INF := by
  cases h with
  | nil h0 => exact h0
  | snoc _ _ hlt => exact hlt

theorem Walk.walk_reach {g : DGraph T} {a v : Fin g.Size} {p : List (Fin g.Size)} {w : Int}
    (h : Walk g a p v w) : g.Reach a v := by
  induction h with
  | nil => exact Relation.ReflTransGen.refl
  | snoc _ he ih => exact Relation.ReflTransGen.tail ih he

theorem Walk.start_mem {g : DGraph T} {a v : Fin g.Size} {p : List (Fin g.Size)} {w : Int}
    (h : Walk g a p v w) : a ∈ p := by
  induction h with
  | nil => simp
  | snoc _ _ ih => exact List.mem_cons_of_mem _ ih

theorem Walk.closed_simple {g : DGraph T} {a : Fin g.Size} {p : List (Fin g.Size)} {w : Int}
    (h : Walk g a p a w) (hnd : p.Nodup) : w = 0 := by
  cases h with
  | nil => rfl
  | snoc h1 _ => exact absurd h1.start_mem (List.nodup_cons.mp hnd).1

/-- Cutting a walk at an inner vertex `x`: the part up to `x` is a walk of
the same kind and the rest is a walk from `x`. -/
theorem BoundedWalk.bounded_split {g : DGraph T} {a u : Fin g.Size} {p : List (Fin g.Size)} {w : Int}
    (h : BoundedWalk g a p u w) :
    ∀ (A B : List (Fin g.Size)) (x : Fin g.Size), p = A ++ x :: B →
      ∃ wx wc, BoundedWalk g a (x :: B) x wx ∧ Walk g x (A ++ [x]) u wc ∧ w = wx + wc := by
  induction h with
  | nil h0 =>
    intro A B x hp
    cases A with
    | nil =>
      simp only [List.nil_append, List.cons.injEq] at hp
      obtain ⟨rfl, rfl⟩ := hp
      exact ⟨0, 0, BoundedWalk.nil h0, Walk.nil, by simp⟩
    | cons a1 A1 =>
      simp at hp
  | snoc h1 he hlt ih =>
    rename_i p1 u1 v1 w1
    intro A B x hp
    cases A with
    | nil =>
      simp only [List.nil_append, List.cons.injEq] at hp
      obtain ⟨rfl, rfl⟩ := hp
      exact ⟨_, 0, BoundedWalk.snoc h1 he hlt, Walk.nil, by simp⟩
    | cons a1 A1 =>
      simp only [List.cons_append, List.cons.injEq] at hp
      obtain ⟨rfl, hp1⟩ := hp
      obtain ⟨wx, wc, hx, hc, hw⟩ := ih A1 B x hp1
      exact ⟨wx, wc + g.cell u1 v1, hx, Walk.snoc hc he, by rw [hw]; ring⟩

theorem Walk.walk_split {g : DGraph T} {a u : Fin g.Size} {p : List (Fin g.Size)} {w : Int}
    (h : Walk g a p u w) :
    ∀ (A B : List (Fin g.Size)) (x : Fin g.Size), p = A ++ x :: B →
      ∃ wx wc, Walk g a (x :: B) x wx ∧ Walk g x (A ++ [x]) u wc ∧ w = wx + wc := by
  induction h with
  | nil =>
    intro A B x hp
    cases A with
    | nil =>
      simp only [List.nil_append, List.cons.injEq] at hp
      obtain ⟨rfl, rfl⟩ := hp
      exact ⟨0, 0, Walk.nil, Walk.nil, by simp⟩
    | cons a1 A1 =>
      simp at hp
  | snoc h1 he ih =>
    rename_i p1 u1 v1 w1
    intro A B x hp
    cases A with
    | nil =>
      simp only [List.nil_append, List.cons.injEq] at hp
      obtain ⟨rfl, rfl⟩ := hp
      exact ⟨_, 0, Walk.snoc h1 he, Walk.nil, by simp⟩
    | cons a1 A1 =>
      simp only [List.cons_append, List.cons.injEq] at hp
      obtain ⟨rfl, hp1⟩ := hp
      obtain ⟨wx, wc, hx, hc, hw⟩ := ih A1 B x hp1
      exact ⟨wx, wc + g.cell u1 v1, hx, Walk.snoc hc he, by rw [hw]; ring⟩

/-- Every reachable vertex is the end of a walk without repeated vertices. -/
theorem Reach.simple_walk {g : DGraph T} {a v : Fin g.Size} (h : g.Reach a v) :
    ∃ p w, Walk g a p v w ∧ p.Nodup := by
  induction h with
  | refl => exact ⟨[a], 0, Walk.nil, by simp⟩
  | tail hab he ih =>
    rename_i u v1
    obtain ⟨p, w, hp, hnd⟩ := ih
    by_cases hv : v1 ∈ p
    · obtain ⟨A, B, hAB⟩ := List.append_of_mem hv
      obtain ⟨wx, wc, hx, _, _⟩ := hp.walk_split A B v1 hAB
      refine ⟨v1 :: B, wx, hx, ?_⟩
      rw [hAB] at hnd
      exact (List.nodup_append.mp hnd).2.1
    · exact ⟨v1 :: p, _, Walk.snoc hp he, List.nodup_cons.mpr ⟨hv, hnd⟩⟩

theorem foldl_preserves {α β : Type} (P : α → Prop) (f : α → β → α)
    (hstep : ∀ a b, P a → P (f a b)) : ∀ (l : List β) (a : α), P a → P (l.foldl f a) := by
  intro l
  induction l with
  | nil => intro a ha; exact ha
  | cons b l ih => intro a ha; exact ih _ (hstep a b ha)

theorem relaxEdge_le (g : DGraph T) (d : Fin g.Size → Int) (u v x : Fin g.Size) :
    relaxEdge g (· + ·) d u v x ≤ d x := by
  unfold relaxEdge
  split
  · split
    · rename_i hlt
      by_cases hx : x = v
      · subst hx; rw [Function.update_same]; exact le_of_lt hlt
      · rw [Function.update_noteq hx]
    · exact le_refl _
  · exact le_refl _

theorem relaxEdge_at (g : DGraph T) (d : Fin g.Size → Int) (u v : Fin g.Size)
    (he : g.Edge u v) (hu : d u ≠ g.INF) : relaxEdge g (· + ·) d u v v ≤ d u + g.cell u v := by
  unfold relaxEdge
  rw [if_pos ⟨he, hu⟩]
  split
  · rw [Function.update_same]
  · rename_i hlt
    exact not_lt.mp hlt

theorem relaxRow_le (g : DGraph T) (d : Fin g.Size → Int) (u x : Fin g.Size) :
    relaxRow g (· + ·) d u x ≤ d x := by
  unfold relaxRow
  exact foldl_preserves (fun d1 : Fin g.Size → Int => d1 x ≤ d x)
    (fun d1 v => relaxEdge g (· + ·) d1 u v)
    (fun d1 v h => le_trans (relaxEdge_le g d1 u v x) h) _ d (le_refl _)

theorem relaxPass_le (g : DGraph T) (d : Fin g.Size → Int) (x : Fin g.Size) :
    relaxPass g (· + ·) d x ≤ d x := by
  unfold relaxPass
  exact foldl_preserves (fun d1 : Fin g.Size → Int => d1 x ≤ d x) (relaxRow g (· + ·))
    (fun d1 u h => le_trans (relaxRow_le g d1 u x) h) _ d (le_refl _)

theorem relaxRow_at (g : DGraph T) (u v : Fin g.Size) (a : Int) (he : g.Edge u v)
    (ha : a < g.INF) (d : Fin g.Size → Int) (hd : d u ≤ a) :
    relaxRow g (· + ·) d u v ≤ a + g.cell u v := by
  unfold relaxRow
  have key : ∀ (vs : List (Fin g.Size)), v ∈ vs → ∀ d : Fin g.Size → Int, d u ≤ a →
      vs.foldl (fun d1 v1 => relaxEdge g (· + ·) d1 u v1) d v ≤ a + g.cell u v := by
    intro vs
    induction vs with
    | nil => intro hv; simp at hv
    | cons v0 vs ih =>
      intro hv d hd
      rw [List.foldl_cons]
      by_cases hv0 : v = v0
      · subst hv0
        have h1 : relaxEdge g (· + ·) d u v v ≤ a + g.cell u v :=
          le_trans (relaxEdge_at g d u v he (fun e => by rw [e] at hd; omega))
            (by omega)
        exact foldl_preserves (fun d1 : Fin g.Size → Int => d1 v ≤ a + g.cell u v)
          (fun d1 v1 => relaxEdge g (· + ·) d1 u v1)
          (fun d1 v1 h => le_trans (relaxEdge_le g d1 u v1 v) h) vs _ h1
      · have hmem : v ∈ vs := by
          rcases List.mem_cons.mp hv with h | h
          · exact absurd h hv0
          · exact h
        exact ih hmem _ (le_trans (relaxEdge_le g d u v0 u) hd)
  exact key _ (List.mem_finRange v) d hd

theorem relaxPass_at (g : DGraph T) (u v : Fin g.Size) (a : Int) (he : g.Edge u v)
    (ha : a < g.INF) (d : Fin g.Size → Int) (hd : d u ≤ a) :
    relaxPass g (· + ·) d v ≤ a + g.cell u v := by
  unfold relaxPass
  have key : ∀ (us : List (Fin g.Size)), u ∈ us → ∀ d : Fin g.Size → Int, d u ≤ a →
      us.foldl (relaxRow g (· + ·)) d v ≤ a + g.cell u v := by
    intro us
    induction us with
    | nil => intro hu; simp at hu
    | cons u0 us ih =>
      intro hu d hd
      rw [List.foldl_cons]
      by_cases hu0 : u = u0
      · subst hu0
        have h1 : relaxRow g (· + ·) d u v ≤ a + g.cell u v := relaxRow_at g u v a he ha d hd
        exact foldl_preserves (fun d1 : Fin g.Size → Int => d1 v ≤ a + g.cell u v)
          (relaxRow g (· + ·)) (fun d1 u1 h => le_trans (relaxRow_le g d1 u1 v) h) us _ h1
      · have hmem : u ∈ us := by
          rcases List.mem_cons.mp hu with h | h
          · exact absurd h hu0
          · exact h
        exact ih hmem _ (le_trans (relaxRow_le g d u0 u) hd)
  exact key _ (List.mem_finRange u) d hd

theorem realised_init (g : DGraph T) (s : Fin g.Size) (hinf : 0 < g.INF) :
    Realised g s (Function.update (fun _ => g.INF) s 0) := by
  constructor
  · intro v
    by_cases hv : v = s
    · subst hv; rw [Function.update_same]; exact le_of_lt hinf
    · rw [Function.update_noteq hv]
  · intro v hne
    by_cases hv : v = s
    · subst hv; rw [Function.update_same]; exact ⟨[v], BoundedWalk.nil hinf⟩
    · rw [Function.update_noteq hv] at hne; exact absurd rfl hne

theorem relaxEdge_realised (g : DGraph T) (s : Fin g.Size) (d : Fin g.Size → Int)
    (u v : Fin g.Size) (h : Realised g s d) : Realised g s (relaxEdge g (· + ·) d u v) := by
  unfold relaxEdge
  split
  · rename_i hc
    split
    · rename_i hlt
      have hnew : d u + g.cell u v < g.INF := lt_of_lt_of_le hlt (h.1 v)
      constructor
      · intro x
        by_cases hx : x = v
        · subst hx; rw [Function.update_same]; exact le_of_lt hnew
        · rw [Function.update_noteq hx]; exact h.1 x
      · intro x hne
        by_cases hx : x = v
        · subst hx
          rw [Function.update_same]
          obtain ⟨p, hp⟩ := h.2 u hc.2
          exact ⟨x :: p, BoundedWalk.snoc hp hc.1 hnew⟩
        · rw [Function.update_noteq hx] at hne ⊢
          exact h.2 x hne
    · exact h
  · exact h

theorem relaxPass_realised (g : DGraph T) (s : Fin g.Size) (d : Fin g.Size → Int)
    (h : Realised g s d) : Realised g s (relaxPass g (· + ·) d) := by
  unfold relaxPass
  refine foldl_preserves (Realised g s) (relaxRow g (· + ·)) ?_ _ d h
  intro d1 u h1
  unfold relaxRow
  exact foldl_preserves (Realised g s) (fun d2 v => relaxEdge g (· + ·) d2 u v)
    (fun d2 v h2 => relaxEdge_realised g s d2 u v h2) _ d1 h1

theorem relaxPasses_realised (g : DGraph T) (s : Fin g.Size) (k : Nat) :
    ∀ d : Fin g.Size → Int, Realised g s d → Realised g s (relaxPasses g (· + ·) k d) := by
  induction k with
  | zero => intro d h; exact h
  | succ k ih => intro d h; exact ih _ (relaxPass_realised g s d h)

theorem BoundedWalk.bounded_length_pos {g : DGraph T} {a v : Fin g.Size} {p : List (Fin g.Size)}
    {w : Int} (h : BoundedWalk g a p v w) : 1 ≤ p.length := by
  cases h <;> simp

theorem shortLe_init (g : DGraph T) (s : Fin g.Size) :
    ShortLe g s 0 (Function.update (fun _ => g.INF) s 0) := by
  intro p v w hw hlen
  cases hw with
  | nil _ => rw [Function.update_same]
  | snoc h1 _ _ =>
    have := h1.bounded_length_pos
    simp only [List.length_cons] at hlen
    omega

theorem shortLe_relaxPass (g : DGraph T) (s : Fin g.Size) (k : Nat) (d : Fin g.Size → Int)
    (h : ShortLe g s k d) : ShortLe g s (k + 1) (relaxPass g (· + ·) d) := by
  intro p v w hw hlen
  cases hw with
  | nil h0 =>
    exact le_trans (relaxPass_le g d s) (h [s] s 0 (BoundedWalk.nil h0) (by simp))
  | snoc h1 he hlt =>
    rename_i p1 u w1
    have hu : d u ≤ w1 := h p1 u w1 h1 (by simp only [List.length_cons] at hlen; omega)
    exact relaxPass_at g u v w1 he h1.lt_inf d hu

theorem shortLe_relaxPasses (g : DGraph T) (s : Fin g.Size) (j : Nat) :
    ∀ (k : Nat) (d : Fin g.Size → Int), ShortLe g s k d →
      ShortLe g s (k + j) (relaxPasses g (· + ·) j d) := by
  induction j with
  | zero => intro k d h; exact h
  | succ j ih =>
    intro k d h
    have := ih (k + 1) _ (shortLe_relaxPass g s k d h)
    rw [show k + (j + 1) = k + 1 + j by omega]
    exact this

/-- Without a reachable negative cycle, a bounded walk can be cut down to one
without repeated vertices that is no heavier. -/
theorem BoundedWalk.simplify {g : DGraph T} {s v : Fin g.Size} {p : List (Fin g.Size)}
    {w : Int} (hneg : ¬ NegCycleFrom g s) (h : BoundedWalk g s p v w) :
    ∃ p1 w1, BoundedWalk g s p1 v w1 ∧ p1.Nodup ∧ w1 ≤ w := by
  induction h with
  | nil h0 => exact ⟨[s], 0, BoundedWalk.nil h0, by simp, le_refl _⟩
  | snoc h1 he hlt ih =>
    rename_i p0 u v1 w0
    obtain ⟨p1, w1, hp1, hnd, hle⟩ := ih
    by_cases hv : v1 ∈ p1
    · obtain ⟨A, B, hAB⟩ := List.append_of_mem hv
      obtain ⟨wx, wc, hx, hc, hw⟩ := hp1.bounded_split A B v1 hAB
      rw [hAB] at hnd
      have hnd2 := List.nodup_append.mp hnd
      have hcyc : Walk g v1 (v1 :: (A ++ [v1])) v1 (wc + g.cell u v1) := Walk.snoc hc he
      have hAnd : (A ++ [v1]).Nodup := by
        refine List.nodup_append.mpr ⟨hnd2.1, by simp, ?_⟩
        intro x hxA hx1
        simp only [List.mem_singleton] at hx1
        exact hnd2.2.2 hxA (hx1 ▸ List.mem_cons_self _ _)
      have hnonneg : 0 ≤ wc + g.cell u v1 := by
        by_contra hlt0
        exact hneg ⟨v1, A ++ [v1], _, hx.walk.walk_reach, hcyc, hAnd, not_le.mp hlt0⟩
      exact ⟨v1 :: B, wx, hx, hnd2.2.1, by omega⟩
    · exact ⟨v1 :: p1, w1 + g.cell u v1, BoundedWalk.snoc hp1 he (by omega),
        List.nodup_cons.mpr ⟨hv, hnd⟩, by omega⟩

theorem Walk.bounded_of_simple {g : DGraph T} {s v : Fin g.Size} {p : List (Fin g.Size)}
    {w : Int} (hb : SimpleBound g s) (h : Walk g s p v w) (hnd : p.Nodup) :
    BoundedWalk g s p v w := by
  induction h with
  | nil => exact BoundedWalk.nil (hb [s] s 0 Walk.nil (by simp))
  | snoc h1 he ih =>
    exact BoundedWalk.snoc (ih (List.nodup_cons.mp hnd).2) he (hb _ _ _ (Walk.snoc h1 he) hnd)

theorem nodup_length_le (g : DGraph T) (s : Fin g.Size) (p : List (Fin g.Size))
    (hnd : p.Nodup) : p.length ≤ g.Size - 1 + 1 := by
  have h1 := hnd.length_le_card
  rw [Fintype.card_fin] at h1
  have := s.isLt
  omega

theorem improvable_iff (g : DGraph T) (d : Fin g.Size → Int) :
    improvable g (· + ·) d = true ↔
      ∃ u v : Fin g.Size, g.Edge u v ∧ d u ≠ g.INF ∧ d u + g.cell u v < d v := by
  unfold improvable Edge
  simp [List.any_eq_true, List.mem_finRange]

theorem bfDist_realised (g : DGraph T) (s : Fin g.Size) (hinf : 0 < g.INF) :
    Realised g s (bfDist g (· + ·) s) :=
  relaxPasses_realised g s _ _ (realised_init g s hinf)

theorem bfDist_shortLe (g : DGraph T) (s : Fin g.Size) :
    ShortLe g s (g.Size - 1) (bfDist g (· + ·) s) := by
  have := shortLe_relaxPasses g s (g.Size - 1) 0 _ (shortLe_init g s)
  rw [Nat.zero_add] at this
  exact this

theorem bfDist_le_simple (g : DGraph T) (s : Fin g.Size) {p : List (Fin g.Size)}
    {v : Fin g.Size} {w : Int} (h : BoundedWalk g s p v w) (hnd : p.Nodup) :
    bfDist g (· + ·) s v ≤ w :=
  bfDist_shortLe g s p v w h (nodup_length_le g s p hnd)

theorem bfDist_stable (g : DGraph T) (s : Fin g.Size) (hinf : 0 < g.INF)
    (hneg : ¬ NegCycleFrom g s) : improvable g (· + ·) (bfDist g (· + ·) s) = false := by
  cases himp : improvable g (· + ·) (bfDist g (· + ·) s) with
  | false => rfl
  | true =>
    exfalso
    obtain ⟨u, v, he, hu, hlt⟩ := (improvable_iff g _).mp himp
    have hr := bfDist_realised g s hinf
    obtain ⟨p, hp⟩ := hr.2 u hu
    have hnew : bfDist g (· + ·) s u + g.cell u v < g.INF := lt_of_lt_of_le hlt (hr.1 v)
    obtain ⟨p1, w1, hp1, hnd, hle⟩ := (BoundedWalk.snoc hp he hnew).simplify hneg
    have := bfDist_le_simple g s hp1 hnd
    omega

theorem bfDist_finite_of_reach (g : DGraph T) (s : Fin g.Size) (hb : SimpleBound g s)
    {v : Fin g.Size} (hr : g.Reach s v) : bfDist g (· + ·) s v < g.INF := by
  obtain ⟨p, w, hp, hnd⟩ := hr.simple_walk
  have hbw := hp.bounded_of_simple hb hnd
  exact lt_of_le_of_lt (bfDist_le_simple g s hbw hnd) hbw.lt_inf

/-- Once no cell allows an improvement, the entries obey the triangle
inequality along every walk that stays among finite entries. -/
theorem stable_walk_le (g : DGraph T) (d : Fin g.Size → Int)
    (hst : improvable g (· + ·) d = false)
    {a v : Fin g.Size} {p : List (Fin g.Size)} {w : Int}
    (hall : ∀ x, g.Reach a x → d x ≠ g.INF) (h : Walk g a p v w) : d v ≤ d a + w := by
  induction h with
  | nil => simp
  | snoc h1 he ih =>
    rename_i p1 u v1 w1
    have hu : d u ≠ g.INF := hall u h1.walk_reach
    by_contra hlt
    have : improvable g (· + ·) d = true := (improvable_iff g d).mpr ⟨u, v1, he, hu, by omega⟩
    rw [hst] at this
    exact Bool.noConfusion this

theorem startIndex_of_indexMap (g : DGraph T) (start : T) (s : Fin g.Size)
    (hs : g.indexMap start = some s.val) : g.startIndex start = .ok s := by
  unfold startIndex
  rw [hs]
  simp [s.isLt]

/-- With sums that are exact: let `start` have index `s`, let `INF > 0`, let
every directed path from `s` without repeated vertices weigh less than `INF`,
and let no negative cycle be reachable from `s`.  Then `BellmanFord(start)`
succeeds with a list of length `Size()`; its entry for `start` is `0`; its
entry at index `i` is, when `i` is reachable, the least weight of a directed
walk from `s` to `i` (attained by a path without repeated vertices), and `INF`
when `i` is not reachable. -/
theorem shortest_of_exact (g : DGraph T) (start : T) (s : Fin g.Size)
    (hs : g.indexMap start = some s.val) (hinf : 0 < g.INF)
    (hbound : SimpleBound g s) (hneg : ¬ NegCycleFrom g s) :
    ∃ dist : List Int, g.BellmanFord (· + ·) start = .ok dist ∧ dist.length = g.Size ∧
      dist[s.val]? = some 0 ∧
      ∀ i : Fin g.Size, ∃ d : Int, dist[i.val]? = some d ∧
        (g.Reach s i →
          (∃ p, Walk g s p i d ∧ p.Nodup) ∧ ∀ p w, Walk g s p i w → d ≤ w) ∧
        (¬ g.Reach s i → d = g.INF) := by
  have hst := bfDist_stable g s hinf hneg
  have hreal := bfDist_realised g s hinf
  have hfin : ∀ x, g.Reach s x → bfDist g (· + ·) s x ≠ g.INF :=
    fun x hx => ne_of_lt (bfDist_finite_of_reach g s hbound hx)
  have hlow : ∀ (i : Fin g.Size) (p : List (Fin g.Size)) (w : Int),
      Walk g s p i w → bfDist g (· + ·) s i ≤ w := by
    intro i p w hw
    have h1 := stable_walk_le g _ hst hfin hw
    have h2 : bfDist g (· + ·) s s ≤ 0 :=
      bfDist_le_simple g s (BoundedWalk.nil hinf) (by simp)
    omega
  have hatt : ∀ i, g.Reach s i → ∃ p, Walk g s p i (bfDist g (· + ·) s i) ∧ p.Nodup := by
    intro i hi
    obtain ⟨p, hp⟩ := hreal.2 i (hfin i hi)
    obtain ⟨p1, w1, hp1, hnd, hle⟩ := hp.simplify hneg
    have := hlow i p1 w1 hp1.walk
    have he : w1 = bfDist g (· + ·) s i := by omega
    exact ⟨p1, he ▸ hp1.walk, hnd⟩
  have hzero : bfDist g (· + ·) s s = 0 := by
    obtain ⟨p, hp, hnd⟩ := hatt s Relation.ReflTransGen.refl
    exact hp.closed_simple hnd
  refine ⟨List.ofFn (bfDist g (· + ·) s), ?_, by simp [Size], ?_, ?_⟩
  · unfold BellmanFord
    rw [startIndex_of_indexMap g start s hs]
    simp only [hst, Bool.false_eq_true, if_false]
  · rw [List.getElem?_ofFn, List.ofFnNthVal, dif_pos s.isLt]
    exact congrArg some hzero
  · intro i
    refine ⟨bfDist g (· + ·) s i, ?_, ?_, ?_⟩
    · rw [List.getElem?_ofFn, List.ofFnNthVal, dif_pos i.isLt]
    · intro hi
      exact ⟨hatt i hi, hlow i⟩
    · intro hi
      by_contra hne
      obtain ⟨p, hp⟩ := hreal.2 i hne
      exact hi hp.walk.walk_reach

/-- With sums that are exact: let `start` have index `s` and let every
directed path from `s` without repeated vertices weigh less than `INF`.  If
some closed directed walk of negative total weight starts at a vertex
reachable from `s`, then `BellmanFord(start)` fails with `NegativeCycle`. -/
theorem detects_negative_cycle_of_exact (g : DGraph T) (start : T) (s : Fin g.Size)
    (hs : g.indexMap start = some s.val) (hbound : SimpleBound g s)
    (a : Fin g.Size) (p : List (Fin g.Size)) (w : Int)
    (hreach : g.Reach s a) (hcyc : Walk g a p a w) (hw : w < 0) :
    g.BellmanFord (· + ·) start = .error .NegativeCycle := by
  have hfin : ∀ x, g.Reach a x → bfDist g (· + ·) s x ≠ g.INF :=
    fun x hx => ne_of_lt (bfDist_finite_of_reach g s hbound (hreach.trans hx))
  unfold BellmanFord
  rw [startIndex_of_indexMap g start s hs]
  cases hst : improvable g (· + ·) (bfDist g (· + ·) s) with
  | true => simp only [hst, if_true]
  | false =>
    exfalso
    have := stable_walk_le g _ hst hfin hcyc
    omega

/-- With sums that are exact: let `INF > 0`.  If `BellmanFord(start)` fails
with `NegativeCycle`, then `start` has an index `s` and a directed cycle of
negative total weight, without repeated vertices, is reachable from `s`. -/
theorem negative_cycle_sound_of_exact (g : DGraph T) (start : T) (hinf : 0 < g.INF)
    (h : g.BellmanFord (· + ·) start = .error .NegativeCycle) :
    ∃ s : Fin g.Size, g.indexMap start = some s.val ∧ NegCycleFrom g s := by
  unfold BellmanFord at h
  cases hsi : g.startIndex start with
  | error e =>
    rw [hsi] at h
    unfold startIndex at hsi
    cases hm : g.indexMap start with
    | none =>
      rw [hm] at hsi
      simp only [Except.error.injEq] at hsi h
      rw [← hsi] at h
      exact absurd h (by decide)
    | some i =>
      rw [hm] at hsi
      simp only at hsi
      split at hsi
      · exact absurd hsi (by simp)
      · simp only [Except.error.injEq] at hsi h
        rw [← hsi] at h
        exact absurd h (by decide)
  | ok s =>
    have hm : g.indexMap start = some s.val := by
      unfold startIndex at hsi
      cases hm : g.indexMap start with
      | none => rw [hm] at hsi; simp at hsi
      | some i =>
        rw [hm] at hsi
        simp only at hsi
        split at hsi
        · simp only [Except.ok.injEq] at hsi
          rw [← hsi]
        · simp at hsi
    refine ⟨s, hm, ?_⟩
    by_contra hneg
    rw [hsi] at h
    simp only [bfDist_stable g s hinf hneg, Bool.false_eq_true, if_false] at h
    exact absurd h (by simp)

theorem Walk.walk_length_pos {g : DGraph T} {a v : Fin g.Size} {p : List (Fin g.Size)}
    {w : Int} (h : Walk g a p v w) : 1 ≤ p.length := by
  cases h <;> simp

theorem Walk.weight_le {g : DGraph T} {a v : Fin g.Size} {p : List (Fin g.Size)} {w : Int}
    (M : Int) (hM : ∀ u v : Fin g.Size, g.Edge u v → g.cell u v ≤ M)
    (h : Walk g a p v w) : w ≤ M * ((p.length : Int) - 1) := by
  induction h with
  | nil => simp
  | snoc h1 he ih =>
    rename_i p1 u v1 w1
    have := hM u v1 he
    simp only [List.length_cons, Nat.cast_add, Nat.cast_one]
    have e : M * ((p1.length : Int) + 1 - 1) = M * ((p1.length : Int) - 1) + M := by ring
    rw [e]
    omega

/-- A graph whose edges weigh at most `M`, with `M * (Size() - 1) < INF`,
has only paths below `INF` among those without repeated vertices. -/
theorem simpleBound_of_edge_le (g : DGraph T) (s : Fin g.Size) (M : Int) (hM0 : 0 ≤ M)
    (hM : ∀ u v : Fin g.Size, g.Edge u v → g.cell u v ≤ M)
    (hI : M * ((g.Size : Int) - 1) < g.INF) : SimpleBound g s := by
  intro p v w hw hnd
  have h1 := hw.weight_le M hM
  have h2 := nodup_length_le g s p hnd
  have h3 := hw.walk_length_pos
  have h4 : ((p.length : Int) - 1) ≤ (g.Size : Int) - 1 := by
    have := s.isLt
    omega
  have h5 := mul_le_mul_of_nonneg_left h4 hM0
  omega

/-- A potential `f` with `f v ≤ f u + cell u v` on every edge rules out
negative cycles. -/
theorem noNegCycle_of_potential (g : DGraph T) (s : Fin g.Size) (f : Fin g.Size → Int)
    (hf : ∀ u v : Fin g.Size, g.Edge u v → f v ≤ f u + g.cell u v) : ¬ NegCycleFrom g s := by
  rintro ⟨a, p, w, _, hw, _, hneg⟩
  have key : ∀ {p : List (Fin g.Size)} {x : Fin g.Size} {w : Int},
      Walk g a p x w → f x ≤ f a + w := by
    intro p x w h
    induction h with
    | nil => simp
    | snoc h1 he ih =>
      have := hf _ _ he
      omega
  have := key hw
  omega

theorem BellmanFord_negEdges : negEdges.BellmanFord dblAdd "A" = .ok [0, -1, 2] := by
  rfl

theorem BellmanFord_negCycle : negCycle.BellmanFord dblAdd "A" = .error .NegativeCycle := by
  rfl

theorem negEdges_simpleBound : SimpleBound negEdges ⟨0, by decide⟩ :=
  simpleBound_of_edge_le negEdges _ 5 (by decide) (by decide) (by decide)

theorem negCycle_simpleBound : SimpleBound negCycle ⟨0, by decide⟩ :=
  simpleBound_of_edge_le negCycle _ 1 (by decide) (by decide) (by decide)

theorem negEdges_noNegCycle : ¬ NegCycleFrom negEdges ⟨0, by decide⟩ :=
  noNegCycle_of_potential negEdges _ (fun i => [0, -1, 2].getD i.val 0) (by decide)

/-- The closed walk `A -> B -> C -> A` of weight `-2`. -/
theorem negCycle_walk :
    Walk negCycle ⟨0, by decide⟩ [⟨0, by decide⟩, ⟨2, by decide⟩, ⟨1, by decide⟩, ⟨0, by decide⟩]
      ⟨0, by decide⟩ (0 + 1 + -2 + -1) :=
  Walk.snoc (Walk.snoc (Walk.snoc Walk.nil (by decide)) (by decide)) (by decide)

theorem getElem?_eraseIdx_skip {α : Type} (l : List α) (k j : Nat) :
    (l.eraseIdx k)[j]? = l[skipIdx k j]? := by
  rw [List.getElem?_eraseIdx]
  unfold skipIdx
  split <;> rfl

theorem skipIdx_ne (k j : Nat) : skipIdx k j ≠ k := by
  unfold skipIdx
  split <;> omega

theorem cell_deleted [DecidableEq T] (g : DGraph T) (k i j : Nat) :
    ({ vertices := g.vertices.eraseIdx k
       adj := (g.adj.eraseIdx k).map (fun row => row.eraseIdx k)
       indexMap := rebuildIndex (g.vertices.eraseIdx k)
       INF := g.INF } : DGraph T).cell i j = g.cell (skipIdx k i) (skipIdx k j) := by
  unfold cell
  simp only [List.getD_eq_getElem?_getD, List.getElem?_map, getElem?_eraseIdx_skip]
  cases h : g.adj[skipIdx k i]? with
  | none => simp
  | some row => simp [getElem?_eraseIdx_skip]

theorem WellFormed.index_lt {g : DGraph T} (h : g.WellFormed) {x : T} {i : Nat}
    (hx : g.indexMap x = some i) : i < g.vertices.length :=
  (List.getElem?_eq_some.mp ((h.index x i).mp hx)).1

/-- After `DeleteV` of the vertex with index `k`, a label has index `j` exactly
when it had the index `skipIdx k j` before. -/
theorem WellFormed.deleted_index [DecidableEq T] {g : DGraph T} (h : g.WellFormed)
    (k : Nat) (y : T) (j : Nat) :
    rebuildIndex (g.vertices.eraseIdx k) y = some j ↔ g.indexMap y = some (skipIdx k j) := by
  rw [rebuildIndex_spec _ (h.nodup.sublist (List.eraseIdx_sublist _ _)),
    getElem?_eraseIdx_skip, h.index]

theorem deleteV_eq [DecidableEq T] {g : DGraph T} {x : T} {k : Nat}
    (hx : g.indexMap x = some k) :
    g.DeleteV x = .ok { vertices := g.vertices.eraseIdx k
                        adj := (g.adj.eraseIdx k).map (fun row => row.eraseIdx k)
                        indexMap := rebuildIndex (g.vertices.eraseIdx k)
                        INF := g.INF } := by
  unfold DeleteV
  rw [hx]

theorem skipIdx_of_lt {k i : Nat} (h : i < k) : skipIdx k i = i := by
  unfold skipIdx; rw [if_pos h]

theorem skipIdx_pred {k i : Nat} (h : k < i) : skipIdx k (i - 1) = i := by
  unfold skipIdx; rw [if_neg (by omega)]; omega

theorem WellFormed.index_inj {g : DGraph T} (h : g.WellFormed) {x y : T} {i : Nat}
    (hx : g.indexMap x = some i) (hy : g.indexMap y = some i) : x = y := by
  have h1 := (h.index x i).mp hx
  have h2 := (h.index y i).mp hy
  rw [h1] at h2
  exact Option.some.inj h2

/-- C9. For a well-formed graph `g` and a present vertex `x`, `DeleteV(x)`
succeeds, and in the resulting graph: `x` is absent, `Size()` is one less,
the vertices are exactly the other vertices of `g`, no edge starts or ends
at `x`, and `GetWeight(a, b)` gives what it gave in `g` for all labels `a`,
`b` other than `x`. -/
theorem DeleteV_removes_vertex [DecidableEq T] (g : DGraph T) (hwf : g.WellFormed) (x : T)
    (hx : g.HasVert x = true) :
    ∃ g1 : DGraph T, g.DeleteV x = .ok g1 ∧
      g1.HasVert x = false ∧
      g1.Size + 1 = g.Size ∧
      (∀ y, g1.HasVert y = true ↔ (g.HasVert y = true ∧ y ≠ x)) ∧
      (∀ y, g1.HasEdge x y = false ∧ g1.HasEdge y x = false) ∧
      (∀ a b, a ≠ x → b ≠ x → g1.GetWeight a b = g.GetWeight a b) := by
  unfold HasVert at hx
  obtain ⟨k, hk⟩ := Option.isSome_iff_exists.mp hx
  refine ⟨_, deleteV_eq hk, ?_⟩
  have hidx := hwf.deleted_index k
  have hxnone : rebuildIndex (g.vertices.eraseIdx k) x = none := by
    cases hr : rebuildIndex (g.vertices.eraseIdx k) x with
    | none => rfl
    | some j =>
      have := (hidx x j).mp hr
      rw [hk] at this
      exact absurd (Option.some.inj this).symm (skipIdx_ne k j)
  have hsurv : ∀ y i, y ≠ x → g.indexMap y = some i →
      ∃ j, skipIdx k j = i ∧ rebuildIndex (g.vertices.eraseIdx k) y = some j := by
    intro y i hyx hy
    have hik : i ≠ k := fun e => hyx (hwf.index_inj hy (e ▸ hk))
    rcases Nat.lt_or_gt_of_ne hik with hlt | hgt
    · exact ⟨i, skipIdx_of_lt hlt, (hidx y i).mpr (by rw [skipIdx_of_lt hlt]; exact hy)⟩
    · exact ⟨i - 1, skipIdx_pred hgt, (hidx y (i - 1)).mpr (by rw [skipIdx_pred hgt]; exact hy)⟩
  have hgone : ∀ y, y ≠ x → g.indexMap y = none →
      rebuildIndex (g.vertices.eraseIdx k) y = none := by
    intro y _ hy
    cases hr : rebuildIndex (g.vertices.eraseIdx k) y with
    | none => rfl
    | some j =>
      have := (hidx y j).mp hr
      rw [hy] at this
      exact Option.noConfusion this
  refine ⟨?_, ?_, ?_, ?_, ?_⟩
  · unfold HasVert
    simp only [hxnone, Option.isSome_none]
  · unfold Size
    simp only
    have := List.length_eraseIdx_of_lt (hwf.index_lt hk)
    have := hwf.index_lt hk
    omega
  · intro y
    unfold HasVert
    simp only
    constructor
    · intro hy
      obtain ⟨j, hj⟩ := Option.isSome_iff_exists.mp hy
      refine ⟨?_, ?_⟩
      · rw [(hidx y j).mp hj]; rfl
      · intro e
        rw [e, hxnone] at hj
        exact Option.noConfusion hj
    · rintro ⟨hy, hyx⟩
      obtain ⟨i, hi⟩ := Option.isSome_iff_exists.mp hy
      obtain ⟨j, _, hj⟩ := hsurv y i hyx hi
      rw [hj]; rfl
  · intro y
    unfold HasEdge
    simp only [hxnone]
    constructor
    · trivial
    · cases rebuildIndex (g.vertices.eraseIdx k) y <;> simp
  · intro a b ha hb
    unfold GetWeight
    simp only
    cases hia : g.indexMap a with
    | none => rw [hgone a ha hia]
    | some i =>
      obtain ⟨i1, hi1, hi2⟩ := hsurv a i ha hia
      rw [hi2]
      cases hjb : g.indexMap b with
      | none => rw [hgone b hb hjb]
      | some j =>
        obtain ⟨j1, hj1, hj2⟩ := hsurv b j hb hjb
        rw [hj2]
        simp only [cell_deleted, hi1, hj1]

/-- Deleting `B` from `A -> B : 5`, `A -> C : 2`, `C -> B : -3` leaves the
vertices `A`, `C` with the edge `A -> C : 2`; the general statement applies. -/
theorem DeleteV_removes_vertex_witness :
    negEdges.WellFormed ∧ negEdges.HasVert "B" = true ∧
    negEdges.DeleteV "B" = .ok (ofMatrix 1000000000 ["A", "C"]
      [[1000000000, 2], [1000000000, 1000000000]]) ∧
    ∃ g1 : DGraph String, negEdges.DeleteV "B" = .ok g1 ∧
      g1.HasVert "B" = false ∧
      g1.Size + 1 = negEdges.Size ∧
      (∀ y, g1.HasVert y = true ↔ (negEdges.HasVert y = true ∧ y ≠ "B")) ∧
      (∀ y, g1.HasEdge "B" y = false ∧ g1.HasEdge y "B" = false) ∧
      (∀ a b, a ≠ "B" → b ≠ "B" → g1.GetWeight a b = negEdges.GetWeight a b) :=
  ⟨ofMatrix_wellFormed _ _ _ (by decide) (by decide) (by decide), by rfl, by rfl,
    DeleteV_removes_vertex negEdges
      (ofMatrix_wellFormed _ _ _ (by decide) (by decide) (by decide)) "B" (by rfl)⟩

/-- C10. For a well-formed graph and a vertex `x` with index `k`, `DeleteV(x)`
succeeds, and in the resulting graph: a surviving vertex with old index below
`k` keeps its index, one with old index above `k` has its index lowered by
one, the index map sends each label to its position in the new vertex list,
and the new vertex list is the old one without its entry `k`, in the same
order. -/
theorem DeleteV_shifts_indices [DecidableEq T] (g : DGraph T) (hwf : g.WellFormed) (x : T)
    (k : Nat) (hk : g.indexMap x = some k) :
    ∃ g1 : DGraph T, g.DeleteV x = .ok g1 ∧
      (∀ y i, g.indexMap y = some i → i < k → g1.indexMap y = some i) ∧
      (∀ y i, g.indexMap y = some i → k < i → g1.indexMap y = some (i - 1)) ∧
      (∀ y j, g1.indexMap y = some j ↔ g1.vertices[j]? = some y) ∧
      g1.vertices = g.vertices.eraseIdx k ∧ g1.vertices.Sublist g.vertices := by
  refine ⟨_, deleteV_eq hk, ?_, ?_, ?_, rfl, List.eraseIdx_sublist _ _⟩
  · intro y i hy hlt
    exact (hwf.deleted_index k y i).mpr (by rw [skipIdx_of_lt hlt]; exact hy)
  · intro y i hy hgt
    exact (hwf.deleted_index k y (i - 1)).mpr (by rw [skipIdx_pred hgt]; exact hy)
  · intro y j
    exact rebuildIndex_spec _ (hwf.nodup.sublist (List.eraseIdx_sublist _ _)) y j

/-- Deleting `B` (index 1) from the vertices `A`, `B`, `C`: `A` keeps index 0
and `C` moves from index 2 to index 1; the general statement applies. -/
theorem DeleteV_shifts_indices_witness :
    negEdges.WellFormed ∧ negEdges.indexMap "B" = some 1 ∧
    ∃ g1 : DGraph String, negEdges.DeleteV "B" = .ok g1 ∧
      (∀ y i, negEdges.indexMap y = some i → i < 1 → g1.indexMap y = some i) ∧
      (∀ y i, negEdges.indexMap y = some i → 1 < i → g1.indexMap y = some (i - 1)) ∧
      (∀ y j, g1.indexMap y = some j ↔ g1.vertices[j]? = some y) ∧
      g1.vertices = negEdges.vertices.eraseIdx 1 ∧ g1.vertices.Sublist negEdges.vertices :=
  ⟨ofMatrix_wellFormed _ _ _ (by decide) (by decide) (by decide), by rfl,
    DeleteV_shifts_indices negEdges
      (ofMatrix_wellFormed _ _ _ (by decide) (by decide) (by decide)) "B" 1 (by rfl)⟩

theorem cycleAB_built :
    built 1000000000 ["A", "B"] [("A", "B", 1), ("B", "A", 1)] = .ok cycleAB := by
  rfl

theorem branching_built :
    built 1000000000 ["A", "B", "C", "D", "E"]
      [("A", "B", 1), ("B", "D", 1), ("A", "C", 1), ("C", "E", 1)] = .ok branching := by
  rfl

theorem negEdges_built :
    built 1000000000 ["A", "B", "C"] [("A", "B", 5), ("A", "C", 2), ("C", "B", -3)]
      = .ok negEdges := by
  rfl

theorem negCycle_built :
    built 1000000000 ["A", "B", "C"] [("A", "B", 1), ("B", "C", -2), ("C", "A", -1)]
      = .ok negCycle := by
  rfl

/-- In a well-formed graph the index of a present start vertex addresses the
work vectors. -/
theorem WellFormed.startIndex_in_range {g : DGraph T} (h : g.WellFormed) (start : T) :
    g.startIndex start ≠ .error .OutOfRange := by
  unfold startIndex
  cases hm : g.indexMap start with
  | none => simp
  | some i =>
    have := h.index_lt hm
    simp [Size, this]

theorem addV_ok [DecidableEq T] {g g1 : DGraph T} {x : T} (h : g.AddV x = .ok g1) :
    g.indexMap x = none ∧ g1.vertices = g.vertices ++ [x] ∧
    g1.indexMap = mapInsert g.indexMap x g.vertices.length ∧
    g1.adj = g.adj.map (fun row => row ++ [g.INF])
      ++ [List.replicate (g.vertices.length + 1) g.INF] ∧
    g1.INF = g.INF := by
  unfold AddV at h
  cases hm : g.indexMap x with
  | some i => rw [hm] at h; exact Except.noConfusion h
  | none =>
    rw [hm] at h
    simp only [Except.ok.injEq] at h
    subst h
    simp

theorem addV_of_absent [DecidableEq T] (g : DGraph T) (x : T) (h : g.indexMap x = none) :
    ∃ g1, g.AddV x = .ok g1 := by
  unfold AddV
  rw [h]
  exact ⟨_, rfl⟩

theorem addV_of_present [DecidableEq T] (g : DGraph T) (x : T) (i : Nat)
    (h : g.indexMap x = some i) : g.AddV x = .error .AlreadyExists := by
  unfold AddV
  rw [h]

/-- Growing the matrix by a row and a column of `INF` changes no cell, in or
out of range. -/
theorem cell_addV [DecidableEq T] {g g1 : DGraph T} {x : T} (h : g.AddV x = .ok g1)
    (i j : Nat) : g1.cell i j = g.cell i j := by
  obtain ⟨_, _, _, hadj, hinf⟩ := addV_ok h
  unfold cell
  rw [hadj, hinf]
  simp only [List.getD_eq_getElem?_getD]
  have hrow : ∀ row : List Int, (row ++ [g.INF])[j]?.getD g.INF = row[j]?.getD g.INF := by
    intro row
    rcases Nat.lt_trichotomy j row.length with hlt | heq | hgt
    · rw [List.getElem?_append_left hlt]
    · subst heq
      simp
    · rw [List.getElem?_eq_none (by simp; omega), List.getElem?_eq_none (by omega)]
  rcases Nat.lt_trichotomy i g.adj.length with hlt | heq | hgt
  · rw [List.getElem?_append_left (by simpa using hlt), List.getElem?_map,
      List.getElem?_eq_getElem hlt]
    simp only [Option.map_some', Option.getD_some]
    exact hrow _
  · subst heq
    rw [List.getElem?_append_right (by simp)]
    simp only [List.length_map, Nat.sub_self, List.getElem?_cons_zero, Option.getD_some,
      List.getElem?_eq_none (le_refl g.adj.length), Option.getD_none,
      List.getElem?_nil]
    by_cases hj : j < g.vertices.length + 1
    · rw [List.getElem?_replicate]
      simp [hj]
    · rw [List.getElem?_eq_none (by simp; omega)]
      rfl
  · have h1 : (g.adj.map (fun row => row ++ [g.INF])
        ++ [List.replicate (g.vertices.length + 1) g.INF])[i]? = none :=
      List.getElem?_eq_none (by simp; omega)
    have h2 : g.adj[i]? = none := List.getElem?_eq_none (by omega)
    rw [h1, h2]

theorem WellFormed.not_mem_of_absent {g : DGraph T} (h : g.WellFormed) {x : T}
    (hx : g.indexMap x = none) : x ∉ g.vertices := by
  intro hmem
  obtain ⟨i, hi, hget⟩ := List.getElem_of_mem hmem
  have : g.indexMap x = some i := (h.index x i).mpr (by rw [List.getElem?_eq_getElem hi, hget])
  rw [hx] at this
  exact Option.noConfusion this

/-- In a well-formed graph a cell outside the matrix reads as `INF`. -/
theorem WellFormed.cell_out {g : DGraph T} (h : g.WellFormed) (i j : Nat)
    (hij : g.Size ≤ i ∨ g.Size ≤ j) : g.cell i j = g.INF := by
  unfold cell
  simp only [List.getD_eq_getElem?_getD]
  by_cases hi : i < g.adj.length
  · rw [List.getElem?_eq_getElem hi]
    simp only [Option.getD_some]
    have hlen := h.cols _ (List.getElem_mem hi)
    have hj : g.Size ≤ j := by
      rcases hij with h1 | h1
      · have := h.rows; omega
      · exact h1
    have h2 : g.adj[i][j]? = none := List.getElem?_eq_none (by omega)
    rw [h2]
    rfl
  · have h1 : g.adj[i]? = none := List.getElem?_eq_none (by omega)
    rw [h1]
    rfl

theorem hasVert_eq_false_iff (g : DGraph T) (x : T) :
    g.HasVert x = false ↔ g.indexMap x = none := by
  unfold HasVert
  cases g.indexMap x <;> simp

theorem hasVert_eq_true_iff (g : DGraph T) (x : T) :
    g.HasVert x = true ↔ ∃ i, g.indexMap x = some i := by
  unfold HasVert
  exact Option.isSome_iff_exists

theorem WellFormed.addV [DecidableEq T] {g g1 : DGraph T} {x : T} (h : g.WellFormed)
    (hadd : g.AddV x = .ok g1) : g1.WellFormed := by
  obtain ⟨hx, hv, hm, hadj, _⟩ := addV_ok hadd
  have hxv := h.not_mem_of_absent hx
  refine ⟨?_, ?_, ?_, ?_⟩
  · rw [hadj, Size, hv]
    simp only [List.length_append, List.length_map, List.length_singleton]
    have := h.rows
    unfold Size at this
    omega
  · intro row hrow
    rw [hadj] at hrow
    rw [Size, hv]
    simp only [List.length_append, List.length_singleton]
    rcases List.mem_append.mp hrow with hr | hr
    · obtain ⟨r0, hr0, rfl⟩ := List.mem_map.mp hr
      have := h.cols r0 hr0
      unfold Size at this
      simp [this]
    · simp only [List.mem_singleton] at hr
      rw [hr]
      simp
  · rw [hv]
    exact List.nodup_append.mpr ⟨h.nodup, by simp, by
      intro a ha hb
      simp only [List.mem_singleton] at hb
      exact hxv (hb ▸ ha)⟩
  · intro y i
    rw [hm, hv]
    unfold mapInsert
    by_cases hy : y = x
    · subst hy
      rw [if_pos rfl]
      constructor
      · intro hi
        have : g.vertices.length = i := Option.some.inj hi
        subst this
        simp
      · intro hi
        rcases Nat.lt_trichotomy i g.vertices.length with hlt | heq | hgt
        · rw [List.getElem?_append_left hlt] at hi
          exact absurd (List.getElem?_mem hi) hxv
        · rw [heq]
        · rw [List.getElem?_eq_none (by simp; omega)] at hi
          exact Option.noConfusion hi
    · rw [if_neg hy, h.index]
      rcases Nat.lt_trichotomy i g.vertices.length with hlt | heq | hgt
      · rw [List.getElem?_append_left hlt]
      · subst heq
        simp only [List.getElem?_eq_none (le_refl _), List.getElem?_concat_length]
        constructor
        · intro hc; exact Option.noConfusion hc
        · intro hc; exact absurd (Option.some.inj hc).symm hy
      · rw [List.getElem?_eq_none (by omega : g.vertices.length ≤ i),
          List.getElem?_eq_none (by simp; omega)]

/-- C11. For a well-formed graph `g` and a label `x` that is not a vertex,
`AddV(x)` succeeds, and in the resulting graph: the vertex list is the old
one with `x` appended, `Size()` is one more, `x` has index `Size(g)`, every
prior vertex keeps its index, `GetWeight(a, b)` gives what it gave in `g` for
all labels other than `x`, and no edge starts or ends at `x`. -/
theorem AddV_appends [DecidableEq T] (g : DGraph T) (hwf : g.WellFormed) (x : T)
    (hx : g.HasVert x = false) :
    ∃ g1 : DGraph T, g.AddV x = .ok g1 ∧
      g1.vertices = g.vertices ++ [x] ∧
      g1.Size = g.Size + 1 ∧
      g1.indexMap x = some g.Size ∧
      (∀ y i, g.indexMap y = some i → g1.indexMap y = some i) ∧
      (∀ a b, a ≠ x → b ≠ x → g1.GetWeight a b = g.GetWeight a b) ∧
      (∀ y, g1.HasEdge x y = false ∧ g1.HasEdge y x = false) := by
  have hxn := (hasVert_eq_false_iff g x).mp hx
  obtain ⟨g1, hadd⟩ := addV_of_absent g x hxn
  obtain ⟨_, hv, hm, _, hinf⟩ := addV_ok hadd
  have hwf1 := hwf.addV hadd
  have hix : g1.indexMap x = some g.Size := by
    rw [hm]; unfold mapInsert; rw [if_pos rfl]; rfl
  have hother : ∀ y, y ≠ x → g1.indexMap y = g.indexMap y := by
    intro y hy
    rw [hm]; unfold mapInsert; rw [if_neg hy]
  refine ⟨g1, hadd, hv, ?_, hix, ?_, ?_, ?_⟩
  · unfold Size; rw [hv]; simp
  · intro y i hy
    have hyx : y ≠ x := by
      intro e
      rw [e, hxn] at hy
      exact Option.noConfusion hy
    rw [hother y hyx, hy]
  · intro a b ha hb
    unfold GetWeight
    rw [hother a ha, hother b hb]
    simp only [cell_addV hadd, hinf]
  · intro y
    have hcell1 : ∀ j, g1.cell g.Size j = g1.INF := by
      intro j
      rw [cell_addV hadd, hinf]
      exact hwf.cell_out _ _ (Or.inl (le_refl _))
    have hcell2 : ∀ j, g1.cell j g.Size = g1.INF := by
      intro j
      rw [cell_addV hadd, hinf]
      exact hwf.cell_out _ _ (Or.inr (le_refl _))
    unfold HasEdge
    rw [hix]
    cases hy : g1.indexMap y with
    | none => simp
    | some j => simp [hcell1, hcell2]

/-- Adding `D` to the graph `A -> B : 5`, `A -> C : 2`, `C -> B : -3` gives it
index 3; the general statement applies. -/
theorem AddV_appends_witness :
    negEdges.WellFormed ∧ negEdges.HasVert "D" = false ∧
    ∃ g1 : DGraph String, negEdges.AddV "D" = .ok g1 ∧
      g1.vertices = negEdges.vertices ++ ["D"] ∧
      g1.Size = negEdges.Size + 1 ∧
      g1.indexMap "D" = some negEdges.Size ∧
      (∀ y i, negEdges.indexMap y = some i → g1.indexMap y = some i) ∧
      (∀ a b, a ≠ "D" → b ≠ "D" → g1.GetWeight a b = negEdges.GetWeight a b) ∧
      (∀ y, g1.HasEdge "D" y = false ∧ g1.HasEdge y "D" = false) :=
  ⟨ofMatrix_wellFormed _ _ _ (by decide) (by decide) (by decide), by rfl,
    AddV_appends negEdges
      (ofMatrix_wellFormed _ _ _ (by decide) (by decide) (by decide)) "D" (by rfl)⟩

/-- C12. `AddV(x)` fails with `AlreadyExists` exactly when `x` is already a
vertex; it fails in no other way, and a failed call leaves the object as it
was; after a successful `AddV(x)` a second `AddV(x)` fails with
`AlreadyExists` and leaves the object, hence `Size()`, unchanged. -/
theorem AddV_alreadyExists_iff [DecidableEq T] (g : DGraph T) (x : T) :
    (g.AddV x = .error .AlreadyExists ↔ g.HasVert x = true) ∧
    (∀ e, g.AddV x = .error e → e = .AlreadyExists ∧ after g (g.AddV x) = g) ∧
    (∀ g1, g.AddV x = .ok g1 →
      g1.AddV x = .error .AlreadyExists ∧ after g1 (g1.AddV x) = g1 ∧
      (after g1 (g1.AddV x)).Size = g1.Size) := by
  refine ⟨?_, ?_, ?_⟩
  · rw [hasVert_eq_true_iff]
    constructor
    · intro h
      cases hm : g.indexMap x with
      | none =>
        obtain ⟨g1, hg1⟩ := addV_of_absent g x hm
        rw [hg1] at h
        exact Except.noConfusion h
      | some i => exact ⟨i, rfl⟩
    · rintro ⟨i, hi⟩
      exact addV_of_present g x i hi
  · intro e he
    cases hm : g.indexMap x with
    | none =>
      obtain ⟨g1, hg1⟩ := addV_of_absent g x hm
      rw [hg1] at he
      exact Except.noConfusion he
    | some i =>
      have h2 := addV_of_present g x i hm
      rw [h2] at he ⊢
      simp only [Except.error.injEq] at he
      exact ⟨he.symm, rfl⟩
  · intro g1 hg1
    obtain ⟨_, _, hm, _, _⟩ := addV_ok hg1
    have hix : g1.indexMap x = some g.vertices.length := by
      rw [hm]; unfold mapInsert; rw [if_pos rfl]
    have h2 := addV_of_present g1 x _ hix
    rw [h2]
    exact ⟨rfl, rfl, rfl⟩

theorem getD_setCell (adj : List (List Int)) (u v : Nat) (w d : Int) (i j : Nat) :
    ((setCell adj u v w).getD i []).getD j d =
      if i = u ∧ j = v ∧ u < adj.length ∧ v < (adj.getD u []).length then w
      else (adj.getD i []).getD j d := by
  unfold setCell
  simp only [List.getD_eq_getElem?_getD]
  by_cases hi : i = u
  · subst hi
    by_cases hu : i < adj.length
    · rw [List.getElem?_set_self hu, List.getElem?_eq_getElem hu]
      simp only [Option.getD_some]
      by_cases hj : j = v
      · subst hj
        by_cases hv : j < adj[i].length
        · rw [List.getElem?_set_self hv]
          simp [hu, hv]
        · rw [List.set_eq_of_length_le (by omega)]
          simp [hv]
      · rw [List.getElem?_set_ne (Ne.symm hj)]
        simp [hj]
    · rw [List.set_eq_of_length_le (by omega)]
      simp [hu]
  · rw [List.getElem?_set_ne (Ne.symm hi)]
    simp [hi]

/-- Writing into a cell the value it reads as leaves the matrix unchanged. -/
theorem setCell_same (adj : List (List Int)) (u v : Nat) (d : Int)
    (h : (adj.getD u []).getD v d = d) : setCell adj u v d = adj := by
  unfold setCell
  simp only [List.getD_eq_getElem?_getD] at h ⊢
  by_cases hu : u < adj.length
  · rw [List.getElem?_eq_getElem hu] at h ⊢
    simp only [Option.getD_some] at h ⊢
    have hrow : adj[u].set v d = adj[u] := by
      by_cases hv : v < adj[u].length
      · rw [List.getElem?_eq_getElem hv] at h
        simp only [Option.getD_some] at h
        apply List.ext_getElem? 
        intro k
        rw [List.getElem?_set]
        by_cases hk : v = k
        · subst hk
          simp [hv, h]
        · simp [hk]
      · exact List.set_eq_of_length_le (by omega)
    rw [hrow]
    apply List.ext_getElem?
    intro k
    rw [List.getElem?_set]
    by_cases hk : u = k
    · subst hk
      simp [hu]
    · simp [hk]
  · exact List.set_eq_of_length_le (by omega)

theorem length_setCell (adj : List (List Int)) (u v : Nat) (w : Int) :
    (setCell adj u v w).length = adj.length := by
  unfold setCell
  simp

theorem mem_setCell_length (adj : List (List Int)) (u v : Nat) (w : Int) (n : Nat)
    (h : ∀ row ∈ adj, row.length = n) : ∀ row ∈ setCell adj u v w, row.length = n := by
  intro row hrow
  unfold setCell at hrow
  by_cases hu : u < adj.length
  · rcases List.mem_or_eq_of_mem_set hrow with hr | hr
    · exact h row hr
    · rw [hr, List.length_set, List.getD_eq_getElem?_getD, List.getElem?_eq_getElem hu]
      exact h _ (List.getElem_mem hu)
  · rw [List.set_eq_of_length_le (by omega)] at hrow
    exact h row hrow

theorem addE_ok {g g1 : DGraph T} {a b : T} {w : Int} (h : g.AddE a b w = .ok g1) :
    ∃ u v, g.indexMap a = some u ∧ g.indexMap b = some v ∧
      g1 = { g with adj := setCell g.adj u v w } := by
  unfold AddE at h
  cases ha : g.indexMap a with
  | none => rw [ha] at h; exact Except.noConfusion h
  | some u =>
    cases hb : g.indexMap b with
    | none => rw [ha, hb] at h; exact Except.noConfusion h
    | some v =>
      rw [ha, hb] at h
      simp only [Except.ok.injEq] at h
      exact ⟨u, v, rfl, rfl, h.symm⟩

theorem addE_of_present (g : DGraph T) (a b : T) (w : Int) (u v : Nat)
    (ha : g.indexMap a = some u) (hb : g.indexMap b = some v) :
    g.AddE a b w = .ok { g with adj := setCell g.adj u v w } := by
  unfold AddE
  rw [ha, hb]

theorem addE_error {g : DGraph T} {a b : T} {w : Int} {e : GraphError}
    (h : g.AddE a b w = .error e) :
    e = .NotFound ∧ (g.indexMap a = none ∨ g.indexMap b = none) := by
  unfold AddE at h
  cases ha : g.indexMap a with
  | none =>
    rw [ha] at h
    simp only [Except.error.injEq] at h
    exact ⟨h.symm, Or.inl rfl⟩
  | some u =>
    cases hb : g.indexMap b with
    | none =>
      rw [ha, hb] at h
      simp only [Except.error.injEq] at h
      exact ⟨h.symm, Or.inr rfl⟩
    | some v => rw [ha, hb] at h; exact Except.noConfusion h

theorem addE_of_absent (g : DGraph T) (a b : T) (w : Int)
    (h : g.indexMap a = none ∨ g.indexMap b = none) : g.AddE a b w = .error .NotFound := by
  unfold AddE
  rcases h with h | h
  · rw [h]
  · rw [h]
    cases g.indexMap a <;> rfl

theorem deleteE_eq_addE (g : DGraph T) (a b : T) : g.DeleteE a b = g.AddE a b g.INF := rfl

theorem WellFormed.setCell_wf {g : DGraph T} (h : g.WellFormed) (u v : Nat) (w : Int) :
    ({ g with adj := setCell g.adj u v w } : DGraph T).WellFormed :=
  ⟨(length_setCell _ _ _ _).trans h.rows, mem_setCell_length _ _ _ _ _ h.cols, h.nodup, h.index⟩

theorem WellFormed.addE {g g1 : DGraph T} {a b : T} {w : Int} (h : g.WellFormed)
    (hadd : g.AddE a b w = .ok g1) : g1.WellFormed := by
  obtain ⟨u, v, _, _, rfl⟩ := addE_ok hadd
  exact h.setCell_wf u v w

theorem cell_setCell (g : DGraph T) (u v : Nat) (w : Int) (i j : Nat) :
    ({ g with adj := setCell g.adj u v w } : DGraph T).cell i j =
      if i = u ∧ j = v ∧ u < g.adj.length ∧ v < (g.adj.getD u []).length then w
      else g.cell i j := by
  unfold cell
  exact getD_setCell g.adj u v w g.INF i j

theorem WellFormed.in_range {g : DGraph T} (h : g.WellFormed) {a b : T} {u v : Nat}
    (ha : g.indexMap a = some u) (hb : g.indexMap b = some v) :
    u < g.adj.length ∧ v < (g.adj.getD u []).length := by
  have hu : u < g.adj.length := by
    have := h.index_lt ha
    have := h.rows
    unfold Size at this
    omega
  refine ⟨hu, ?_⟩
  rw [List.getD_eq_getElem?_getD, List.getElem?_eq_getElem hu]
  simp only [Option.getD_some]
  rw [h.cols _ (List.getElem_mem hu)]
  exact h.index_lt hb

theorem WellFormed.getWeight_setCell_self {g : DGraph T} (h : g.WellFormed) {a b : T}
    {u v : Nat} (ha : g.indexMap a = some u) (hb : g.indexMap b = some v) (w : Int)
    (hw : w ≠ g.INF) :
    ({ g with adj := setCell g.adj u v w } : DGraph T).GetWeight a b = .ok w := by
  obtain ⟨hu, hv⟩ := h.in_range ha hb
  unfold GetWeight
  simp only [ha, hb, cell_setCell, hu, hv, and_self, if_true, if_neg hw]

theorem WellFormed.getWeight_setCell_other {g : DGraph T} (h : g.WellFormed) {a b : T}
    {u v : Nat} (ha : g.indexMap a = some u) (hb : g.indexMap b = some v) (w : Int)
    (c d : T) (hcd : (c, d) ≠ (a, b)) :
    ({ g with adj := setCell g.adj u v w } : DGraph T).GetWeight c d = g.GetWeight c d := by
  unfold GetWeight
  simp only
  cases hc : g.indexMap c with
  | none => rfl
  | some i =>
    cases hd : g.indexMap d with
    | none => rfl
    | some j =>
      have hne : ¬ (i = u ∧ j = v ∧ u < g.adj.length ∧ v < (g.adj.getD u []).length) := by
        rintro ⟨hi, hj, _⟩
        apply hcd
        rw [hi] at hc
        rw [hj] at hd
        rw [h.index_inj hc ha, h.index_inj hd hb]
      simp only [cell_setCell, if_neg hne]

/-- C13. For a well-formed graph, present vertices `a`, `b` and a weight
`w ≠ INF`, `AddE(a, b, w)` succeeds, and in the resulting graph:
`GetWeight(a, b)` returns `w`, the vertex list, the index map and the sentinel
are unchanged, `GetWeight(c, d)` gives what it gave before for every pair
other than `(a, b)`, and a further `AddE(a, b, w2)` leaves the weight `w2`. -/
theorem AddE_sets_one_cell (g : DGraph T) (hwf : g.WellFormed) (a b : T) (w : Int)
    (ha : g.HasVert a = true) (hb : g.HasVert b = true) (hw : w ≠ g.INF) :
    ∃ g1 : DGraph T, g.AddE a b w = .ok g1 ∧
      g1.GetWeight a b = .ok w ∧
      g1.vertices = g.vertices ∧ g1.indexMap = g.indexMap ∧ g1.INF = g.INF ∧
      (∀ c d, (c, d) ≠ (a, b) → g1.GetWeight c d = g.GetWeight c d) ∧
      (∀ w2, w2 ≠ g.INF → ∃ g2 : DGraph T, g1.AddE a b w2 = .ok g2 ∧
        g2.GetWeight a b = .ok w2) := by
  obtain ⟨u, hu⟩ := (hasVert_eq_true_iff g a).mp ha
  obtain ⟨v, hv⟩ := (hasVert_eq_true_iff g b).mp hb
  refine ⟨_, addE_of_present g a b w u v hu hv, hwf.getWeight_setCell_self hu hv w hw,
    rfl, rfl, rfl, hwf.getWeight_setCell_other hu hv w, ?_⟩
  intro w2 hw2
  have hwf1 := hwf.setCell_wf u v w
  exact ⟨_, addE_of_present _ a b w2 u v hu hv, hwf1.getWeight_setCell_self hu hv w2 hw2⟩

/-- On the graph `A -> B : 5`, `A -> C : 2`, `C -> B : -3` the call
`AddE(A, B, 7)` overwrites the weight 5; the general statement applies. -/
theorem AddE_sets_one_cell_witness :
    negEdges.WellFormed ∧ negEdges.HasVert "A" = true ∧ negEdges.HasVert "B" = true ∧
    (7 : Int) ≠ negEdges.INF ∧ negEdges.GetWeight "A" "B" = .ok 5 ∧
    ∃ g1 : DGraph String, negEdges.AddE "A" "B" 7 = .ok g1 ∧
      g1.GetWeight "A" "B" = .ok 7 ∧
      g1.vertices = negEdges.vertices ∧ g1.indexMap = negEdges.indexMap ∧
      g1.INF = negEdges.INF ∧
      (∀ c d, (c, d) ≠ ("A", "B") → g1.GetWeight c d = negEdges.GetWeight c d) ∧
      (∀ w2, w2 ≠ negEdges.INF → ∃ g2 : DGraph String, g1.AddE "A" "B" w2 = .ok g2 ∧
        g2.GetWeight "A" "B" = .ok w2) :=
  ⟨ofMatrix_wellFormed _ _ _ (by decide) (by decide) (by decide), by rfl, by rfl, by decide,
    by rfl,
    AddE_sets_one_cell negEdges
      (ofMatrix_wellFormed _ _ _ (by decide) (by decide) (by decide)) "A" "B" 7
      (by rfl) (by rfl) (by decide)⟩

/-- C14. For present vertices `a`, `b` with indices `u`, `v`, `DeleteE(a, b)`
succeeds, and in the resulting graph: `HasEdge(a, b)` is false, every cell
other than `(u, v)` reads as before, and the vertex list, the index map and
the sentinel are unchanged.  If `HasEdge(a, b)` was already false the
resulting state is the original state; so a second `DeleteE(a, b)` returns
the state the first one produced. -/
theorem DeleteE_removes_edge (g : DGraph T) (a b : T)
    (ha : g.HasVert a = true) (hb : g.HasVert b = true) :
    ∃ (g1 : DGraph T) (u v : Nat), g.indexMap a = some u ∧ g.indexMap b = some v ∧
      g.DeleteE a b = .ok g1 ∧
      g1.HasEdge a b = false ∧
      (∀ i j, (i, j) ≠ (u, v) → g1.cell i j = g.cell i j) ∧
      g1.vertices = g.vertices ∧ g1.indexMap = g.indexMap ∧ g1.INF = g.INF ∧
      (g.HasEdge a b = false → g1 = g) ∧
      g1.DeleteE a b = .ok g1 := by
  obtain ⟨u, hu⟩ := (hasVert_eq_true_iff g a).mp ha
  obtain ⟨v, hv⟩ := (hasVert_eq_true_iff g b).mp hb
  have hnoop : ∀ g0 : DGraph T, g0.indexMap a = some u → g0.indexMap b = some v →
      g0.HasEdge a b = false → ({ g0 with adj := setCell g0.adj u v g0.INF } : DGraph T) = g0 := by
    intro g0 h1 h2 hedge
    unfold HasEdge at hedge
    simp only [h1, h2, ne_eq, decide_not, Bool.not_eq_false', decide_eq_true_eq] at hedge
    have := setCell_same g0.adj u v g0.INF hedge
    rw [this]
  have hgone : ({ g with adj := setCell g.adj u v g.INF } : DGraph T).HasEdge a b = false := by
    unfold HasEdge
    simp only [hu, hv, cell_setCell]
    split
    · simp
    · rename_i hout
      have hcell : g.cell u v = g.INF := by
        unfold cell
        simp only [List.getD_eq_getElem?_getD] at hout ⊢
        by_cases h1 : u < g.adj.length
        · have h2 : ¬ v < (g.adj[u]?.getD []).length := fun h2 => hout ⟨trivial, trivial, h1, h2⟩
          have h3 : (g.adj[u]?.getD [])[v]? = none := List.getElem?_eq_none (by omega)
          rw [h3]; rfl
        · have h3 : g.adj[u]? = none := List.getElem?_eq_none (by omega)
          rw [h3]; rfl
      simp [hcell]
  refine ⟨_, u, v, hu, hv, by rw [deleteE_eq_addE]; exact addE_of_present g a b _ u v hu hv,
    hgone, ?_, rfl, rfl, rfl, hnoop g hu hv, ?_⟩
  · intro i j hij
    rw [cell_setCell, if_neg]
    rintro ⟨hi, hj, _⟩
    exact hij (by rw [hi, hj])
  · rw [deleteE_eq_addE]
    have h1 := addE_of_present ({ g with adj := setCell g.adj u v g.INF } : DGraph T)
      a b g.INF u v hu hv
    rw [h1]
    exact congrArg Except.ok (hnoop _ hu hv hgone)

/-- On the graph `A -> B : 5`, `A -> C : 2`, `C -> B : -3` the call
`DeleteE(A, B)` removes the edge; the general statement applies. -/
theorem DeleteE_removes_edge_witness :
    negEdges.HasVert "A" = true ∧ negEdges.HasVert "B" = true ∧
    negEdges.HasEdge "A" "B" = true ∧
    ∃ (g1 : DGraph String) (u v : Nat),
      negEdges.indexMap "A" = some u ∧ negEdges.indexMap "B" = some v ∧
      negEdges.DeleteE "A" "B" = .ok g1 ∧
      g1.HasEdge "A" "B" = false ∧
      (∀ i j, (i, j) ≠ (u, v) → g1.cell i j = negEdges.cell i j) ∧
      g1.vertices = negEdges.vertices ∧ g1.indexMap = negEdges.indexMap ∧
      g1.INF = negEdges.INF ∧
      (negEdges.HasEdge "A" "B" = false → g1 = negEdges) ∧
      g1.DeleteE "A" "B" = .ok g1 :=
  ⟨by rfl, by rfl, by rfl, DeleteE_removes_edge negEdges "A" "B" (by rfl) (by rfl)⟩

theorem getWeight_of_absent (g : DGraph T) (a b : T)
    (h : g.indexMap a = none ∨ g.indexMap b = none) : g.GetWeight a b = .error .NotFound := by
  unfold GetWeight
  rcases h with h | h
  · rw [h]
  · rw [h]
    cases g.indexMap a <;> rfl

theorem getWeight_of_present (g : DGraph T) (a b : T) (u v : Nat)
    (ha : g.indexMap a = some u) (hb : g.indexMap b = some v) :
    g.GetWeight a b =
      if g.cell u v = g.INF then .error .EdgeNotFound else .ok (g.cell u v) := by
  unfold GetWeight
  rw [ha, hb]

theorem getEdge_eq_getWeight (g : DGraph T) (a b : T) : g.GetEdge a b = g.GetWeight a b := rfl

theorem hasEdge_of_present (g : DGraph T) (a b : T) (u v : Nat)
    (ha : g.indexMap a = some u) (hb : g.indexMap b = some v) :
    g.HasEdge a b = decide (g.cell u v ≠ g.INF) := by
  unfold HasEdge
  rw [ha, hb]

theorem hasEdge_of_absent (g : DGraph T) (a b : T)
    (h : g.indexMap a = none ∨ g.indexMap b = none) : g.HasEdge a b = false := by
  unfold HasEdge
  rcases h with h | h
  · rw [h]
  · rw [h]
    cases g.indexMap a <;> rfl

/-- C15. `GetWeight(a, b)` and `GetEdge(a, b)` give the same outcome, and that
outcome is: `NotFound` exactly when `a` or `b` is not a vertex;
`EdgeNotFound`, a different error, exactly when both are vertices and the cell
at their indices equals `INF`; and the value `w` exactly when both are
vertices and the cell holds `w ≠ INF`. -/
theorem GetWeight_GetEdge_contract (g : DGraph T) (a b : T) :
    g.GetWeight a b = g.GetEdge a b ∧
    ∀ r : Except GraphError Int, (r = g.GetWeight a b ∨ r = g.GetEdge a b) →
      (r = .error .NotFound ↔ (g.HasVert a = false ∨ g.HasVert b = false)) ∧
      (r = .error .EdgeNotFound ↔
        ∃ u v, g.indexMap a = some u ∧ g.indexMap b = some v ∧ g.cell u v = g.INF) ∧
      (∀ w, r = .ok w ↔
        ∃ u v, g.indexMap a = some u ∧ g.indexMap b = some v ∧ g.cell u v = w ∧ w ≠ g.INF) ∧
      (∀ e, r = .error e → e = .NotFound ∨ e = .EdgeNotFound) ∧
      GraphError.NotFound ≠ GraphError.EdgeNotFound := by
  refine ⟨rfl, ?_⟩
  intro r hr
  have hr1 : r = g.GetWeight a b := by
    rcases hr with h | h
    · exact h
    · exact h
  subst hr1
  rw [hasVert_eq_false_iff, hasVert_eq_false_iff]
  cases ha : g.indexMap a with
  | none =>
    rw [getWeight_of_absent g a b (Or.inl ha)]
    refine ⟨by simp, ?_, ?_, ?_, by decide⟩
    · constructor
      · intro h; exact absurd h (by simp)
      · rintro ⟨u, v, h, _⟩; exact Option.noConfusion h
    · intro w
      constructor
      · intro h; exact Except.noConfusion h
      · rintro ⟨u, v, h, _⟩; exact Option.noConfusion h
    · intro e he
      simp only [Except.error.injEq] at he
      exact Or.inl he.symm
  | some u =>
    cases hb : g.indexMap b with
    | none =>
      rw [getWeight_of_absent g a b (Or.inr hb)]
      refine ⟨by simp, ?_, ?_, ?_, by decide⟩
      · constructor
        · intro h; exact absurd h (by simp)
        · rintro ⟨u1, v, _, h, _⟩; exact Option.noConfusion h
      · intro w
        constructor
        · intro h; exact Except.noConfusion h
        · rintro ⟨u1, v, _, h, _⟩; exact Option.noConfusion h
      · intro e he
        simp only [Except.error.injEq] at he
        exact Or.inl he.symm
    | some v =>
      rw [getWeight_of_present g a b u v ha hb]
      by_cases hc : g.cell u v = g.INF
      · rw [if_pos hc]
        refine ⟨by simp, ?_, ?_, ?_, by decide⟩
        · constructor
          · intro _; exact ⟨u, v, rfl, rfl, hc⟩
          · intro _; rfl
        · intro w
          constructor
          · intro h; exact Except.noConfusion h
          · rintro ⟨u1, v1, h1, h2, h3, h4⟩
            have e1 : u = u1 := Option.some.inj h1
            have e2 : v = v1 := Option.some.inj h2
            subst e1 e2
            rw [hc] at h3
            exact absurd h3.symm h4
        · intro e he
          simp only [Except.error.injEq] at he
          exact Or.inr he.symm
      · rw [if_neg hc]
        refine ⟨by simp, ?_, ?_, ?_, by decide⟩
        · constructor
          · intro h; exact Except.noConfusion h
          · rintro ⟨u1, v1, h1, h2, h3⟩
            have e1 : u = u1 := Option.some.inj h1
            have e2 : v = v1 := Option.some.inj h2
            subst e1 e2
            exact absurd h3 hc
        · intro w
          constructor
          · intro h
            simp only [Except.ok.injEq] at h
            exact ⟨u, v, rfl, rfl, h, h ▸ hc⟩
          · rintro ⟨u1, v1, h1, h2, h3, _⟩
            have e1 : u = u1 := Option.some.inj h1
            have e2 : v = v1 := Option.some.inj h2
            subst e1 e2
            rw [h3]
        · intro e he
          exact Except.noConfusion he

/-- C16. In a well-formed graph `HasEdge(a, b)` is false when `a` or `b` is
not a vertex; when both are vertices it is true exactly when the cell at
their indices differs from `INF`; it is true exactly when `GetWeight(a, b)`
succeeds; and it is direction-sensitive: for `a ≠ b`, after `AddE(a, b, w)` on
a graph without the edge `b -> a` (an edgeless graph in particular),
`HasEdge(b, a)` is still false. -/
theorem HasEdge_contract (g : DGraph T) (hwf : g.WellFormed) (a b : T) :
    ((g.HasVert a = false ∨ g.HasVert b = false) → g.HasEdge a b = false) ∧
    (∀ u v, g.indexMap a = some u → g.indexMap b = some v →
      (g.HasEdge a b = true ↔ g.cell u v ≠ g.INF)) ∧
    (g.HasEdge a b = true ↔ ∃ w, g.GetWeight a b = .ok w) ∧
    (∀ w g1, a ≠ b → g.HasEdge b a = false → g.AddE a b w = .ok g1 →
      g1.HasEdge b a = false) ∧
    (∀ w g1, a ≠ b → (∀ i j, g.cell i j = g.INF) → g.AddE a b w = .ok g1 →
      g1.HasEdge b a = false) := by
  have hdir : ∀ w g1, a ≠ b → g.HasEdge b a = false → g.AddE a b w = .ok g1 →
      g1.HasEdge b a = false := by
    intro w g1 hab hba hadd
    obtain ⟨u, v, hu, hv, rfl⟩ := addE_ok hadd
    rw [hasEdge_of_present g b a v u hv hu] at hba
    have h2 := hasEdge_of_present ({ g with adj := setCell g.adj u v w } : DGraph T)
      b a v u hv hu
    rw [h2, cell_setCell, if_neg]
    · exact hba
    · rintro ⟨h1, h2, _⟩
      rw [h1] at hv
      exact hab (hwf.index_inj hu hv)
  refine ⟨?_, ?_, ?_, hdir, ?_⟩
  · intro h
    rw [hasVert_eq_false_iff, hasVert_eq_false_iff] at h
    exact hasEdge_of_absent g a b h
  · intro u v hu hv
    rw [hasEdge_of_present g a b u v hu hv]
    simp
  · cases ha : g.indexMap a with
    | none =>
      rw [hasEdge_of_absent g a b (Or.inl ha), getWeight_of_absent g a b (Or.inl ha)]
      simp
    | some u =>
      cases hb : g.indexMap b with
      | none =>
        rw [hasEdge_of_absent g a b (Or.inr hb), getWeight_of_absent g a b (Or.inr hb)]
        simp
      | some v =>
        rw [hasEdge_of_present g a b u v ha hb, getWeight_of_present g a b u v ha hb]
        by_cases hc : g.cell u v = g.INF
        · simp [hc]
        · simp [hc]
  · intro w g1 hab hall hadd
    refine hdir w g1 hab ?_ hadd
    unfold HasEdge
    cases g.indexMap b <;> cases g.indexMap a <;> simp [hall]

theorem edgeless_built : built 1000000000 ["A", "B", "C"] [] = .ok edgeless := by
  rfl

/-- On three vertices without edges, after `AddE(A, B, 2)` the edge `A -> B`
is there and the edge `B -> A` is not; the general statement applies. -/
theorem HasEdge_contract_witness :
    edgeless.WellFormed ∧
    (∃ g1, edgeless.AddE "A" "B" 2 = .ok g1 ∧ g1.HasEdge "A" "B" = true ∧
      g1.HasEdge "B" "A" = false) ∧
    ((edgeless.HasVert "A" = false ∨ edgeless.HasVert "B" = false) →
      edgeless.HasEdge "A" "B" = false) ∧
    (∀ u v, edgeless.indexMap "A" = some u → edgeless.indexMap "B" = some v →
      (edgeless.HasEdge "A" "B" = true ↔ edgeless.cell u v ≠ edgeless.INF)) ∧
    (edgeless.HasEdge "A" "B" = true ↔ ∃ w, edgeless.GetWeight "A" "B" = .ok w) ∧
    (∀ w g1, "A" ≠ "B" → edgeless.HasEdge "B" "A" = false →
      edgeless.AddE "A" "B" w = .ok g1 → g1.HasEdge "B" "A" = false) ∧
    (∀ w g1, "A" ≠ "B" → (∀ i j, edgeless.cell i j = edgeless.INF) →
      edgeless.AddE "A" "B" w = .ok g1 → g1.HasEdge "B" "A" = false) :=
  ⟨ofMatrix_wellFormed _ _ _ (by decide) (by decide) (by decide),
    ⟨_, rfl, by rfl, by rfl⟩,
    HasEdge_contract edgeless
      (ofMatrix_wellFormed _ _ _ (by decide) (by decide) (by decide)) "A" "B"⟩

theorem neighborCond_iff (g : DGraph T) (idx : Nat) (j : Fin g.Size) :
    neighborCond g idx j = true ↔ (g.cell idx j ≠ g.INF ∨ g.cell j idx ≠ g.INF) := by
  unfold neighborCond
  simp

theorem neighborStep_eq (g : DGraph T) (idx : Nat) (acc : List T) (j : Fin g.Size) :
    neighborStep g idx acc j =
      if neighborCond g idx j = true then acc ++ [g.label j] else acc := by
  unfold neighborStep
  by_cases h1 : g.cell idx j ≠ g.INF
  · rw [if_pos h1, if_pos ((neighborCond_iff g idx j).mpr (Or.inl h1))]
  · rw [if_neg h1]
    by_cases h2 : g.cell j idx ≠ g.INF
    · rw [if_pos h2, if_pos ((neighborCond_iff g idx j).mpr (Or.inr h2))]
    · rw [if_neg h2, if_neg]
      intro h
      rcases (neighborCond_iff g idx j).mp h with h | h
      · exact h1 h
      · exact h2 h

theorem neighbor_foldl_eq (g : DGraph T) (idx : Nat) :
    ∀ (vs : List (Fin g.Size)) (acc : List T),
      vs.foldl (neighborStep g idx) acc
        = acc ++ (vs.filter (neighborCond g idx)).map g.label := by
  intro vs
  induction vs with
  | nil => intro acc; simp
  | cons j vs ih =>
    intro acc
    rw [List.foldl_cons, ih, neighborStep_eq]
    by_cases h : neighborCond g idx j = true
    · rw [if_pos h, List.filter_cons_of_pos h]
      simp
    · rw [if_neg h, List.filter_cons_of_neg h]

theorem getNeighbors_of_present (g : DGraph T) (v : T) (i : Nat)
    (hv : g.indexMap v = some i) :
    g.GetNeighbors v = .ok ((neighborIdx g i).map g.label) := by
  unfold GetNeighbors neighborIdx
  rw [hv]
  simp only [neighbor_foldl_eq, List.nil_append]

theorem getNeighbors_notFound_iff (g : DGraph T) (v : T) :
    g.GetNeighbors v = .error .NotFound ↔ g.HasVert v = false := by
  rw [hasVert_eq_false_iff]
  unfold GetNeighbors
  cases g.indexMap v <;> simp

theorem mem_neighborIdx (g : DGraph T) (idx : Nat) (j : Fin g.Size) :
    j ∈ neighborIdx g idx ↔ (g.cell idx j ≠ g.INF ∨ g.cell j idx ≠ g.INF) := by
  unfold neighborIdx
  rw [List.mem_filter, neighborCond_iff]
  simp [List.mem_finRange]

theorem neighborIdx_sorted (g : DGraph T) (idx : Nat) :
    (neighborIdx g idx).Pairwise (· < ·) :=
  (List.pairwise_lt_finRange _).filter _

/-- C17. For a well-formed graph and a vertex `v` with index `i`,
`GetNeighbors(v)` succeeds with the labels of a list `js` of indices that is
strictly ascending and holds exactly the indices `j` with `cell [i][j] ≠ INF`
or `cell [j][i] ≠ INF` (for `j = i` that is the self-loop cell); no label
occurs twice.  `GetNeighbors` fails with `NotFound` exactly on an absent
vertex. -/
theorem GetNeighbors_undirected_view (g : DGraph T) (hwf : g.WellFormed) (v : T) (i : Nat)
    (hv : g.indexMap v = some i) :
    (∃ js : List (Fin g.Size), g.GetNeighbors v = .ok (js.map g.label) ∧
      js.Pairwise (· < ·) ∧ (js.map g.label).Nodup ∧
      (∀ j : Fin g.Size, j ∈ js ↔ (g.cell i j ≠ g.INF ∨ g.cell j i ≠ g.INF)) ∧
      (∀ j : Fin g.Size, j.val ≠ i →
        (g.label j ∈ js.map g.label ↔ (g.cell i j ≠ g.INF ∨ g.cell j i ≠ g.INF)))) ∧
    (∀ x, g.GetNeighbors x = .error .NotFound ↔ g.HasVert x = false) := by
  refine ⟨⟨neighborIdx g i, getNeighbors_of_present g v i hv, neighborIdx_sorted g i, ?_,
    mem_neighborIdx g i, ?_⟩, getNeighbors_notFound_iff g⟩
  · refine List.Nodup.map hwf.label_injective ?_
    exact (List.nodup_finRange _).filter _
  · intro j _
    rw [List.mem_map, ← mem_neighborIdx]
    constructor
    · rintro ⟨k, hk, hkl⟩
      exact hwf.label_injective hkl ▸ hk
    · intro hj
      exact ⟨j, hj, rfl⟩

theorem bigSparse_wellFormed : bigSparse.WellFormed :=
  ofMatrix_wellFormed _ _ _ (List.nodup_range 200) (by simp) (by
    intro row hrow
    obtain ⟨i, _, rfl⟩ := List.mem_map.mp hrow
    simp [bigSparseRow])

theorem ofMatrix_index [DecidableEq T] (InVal : Int) (vs : List T) (m : List (List Int))
    (hnd : vs.Nodup) (x : T) (i : Nat) :
    (ofMatrix InVal vs m).indexMap x = some i ↔ vs[i]? = some x :=
  rebuildIndex_spec vs hnd x i

theorem bigSparse_index (i : Nat) (h : i < 200) : bigSparse.indexMap i = some i := by
  unfold bigSparse
  rw [ofMatrix_index _ _ _ (List.nodup_range 200), List.getElem?_range h]

theorem bigSparse_cell (i j : Nat) (hi : i < 200) (hj : j < 200) :
    bigSparse.cell i j = if i = 0 ∧ 1 ≤ j ∧ j ≤ 10 then Int.ofNat j else 1000000000 := by
  unfold cell bigSparse ofMatrix
  simp only [List.getD_eq_getElem?_getD, List.getElem?_map, List.getElem?_range hi,
    Option.map_some', Option.getD_some, bigSparseRow, List.getElem?_range hj]

theorem bigSparse_label (j : Fin bigSparse.Size) : bigSparse.label j = j.val := by
  unfold label
  simp [bigSparse, ofMatrix]

theorem bigSparse_lt (j : Fin bigSparse.Size) : j.val < 200 := by
  have h := j.isLt
  have hs : bigSparse.Size = 200 := by simp [bigSparse, ofMatrix, Size]
  omega

theorem bigSparse_cond_zero (j : Fin bigSparse.Size) :
    neighborCond bigSparse 0 j = decide (1 ≤ j.val ∧ j.val ≤ 10) := by
  have hj := bigSparse_lt j
  unfold neighborCond
  rw [bigSparse_cell 0 j (by decide) hj, bigSparse_cell j 0 hj (by decide)]
  by_cases h : 1 ≤ j.val ∧ j.val ≤ 10
  · simp [h, bigSparse, ofMatrix]
    omega
  · simp [h, bigSparse, ofMatrix]

theorem bigSparse_cond_fifty (j : Fin bigSparse.Size) :
    neighborCond bigSparse 50 j = false := by
  have hj := bigSparse_lt j
  unfold neighborCond
  rw [bigSparse_cell 50 j (by decide) hj, bigSparse_cell j 50 hj (by decide)]
  simp [bigSparse, ofMatrix]

theorem filter_finRange_val (n : Nat) (p : Nat → Bool) :
    ((List.finRange n).filter (fun j => p j.val)).map Fin.val = (List.range n).filter p := by
  rw [← List.map_coe_finRange n, List.filter_map]
  rfl

set_option maxRecDepth 100000 in
/-- The test's expectation for vertex 0 of `bigSparse`. -/
theorem getNeighbors_bigSparse_zero :
    bigSparse.GetNeighbors 0 = .ok [1, 2, 3, 4, 5, 6, 7, 8, 9, 10] := by
  rw [getNeighbors_of_present bigSparse 0 0 (bigSparse_index 0 (by decide))]
  apply congrArg Except.ok
  unfold neighborIdx
  rw [List.filter_congr (fun j _ => bigSparse_cond_zero j),
    List.map_congr_left (fun j _ => bigSparse_label j),
    filter_finRange_val bigSparse.Size (fun j => decide (1 ≤ j ∧ j ≤ 10))]
  decide

/-- The test's expectation for vertex 50 of `bigSparse`. -/
theorem getNeighbors_bigSparse_fifty : bigSparse.GetNeighbors 50 = .ok [] := by
  rw [getNeighbors_of_present bigSparse 50 50 (bigSparse_index 50 (by decide))]
  apply congrArg Except.ok
  unfold neighborIdx
  rw [List.filter_congr (fun j _ => bigSparse_cond_fifty j)]
  simp

/-- The 200-vertex graph of the test: the neighbours of 0 are `1 .. 10`, vertex
50 has none; the general statement applies. -/
theorem GetNeighbors_undirected_view_witness :
    bigSparse.WellFormed ∧ bigSparse.indexMap 0 = some 0 ∧
    bigSparse.GetNeighbors 0 = .ok [1, 2, 3, 4, 5, 6, 7, 8, 9, 10] ∧
    bigSparse.GetNeighbors 50 = .ok [] ∧
    (∃ js : List (Fin bigSparse.Size), bigSparse.GetNeighbors 0 = .ok (js.map bigSparse.label) ∧
      js.Pairwise (· < ·) ∧ (js.map bigSparse.label).Nodup ∧
      (∀ j : Fin bigSparse.Size,
        j ∈ js ↔ (bigSparse.cell 0 j ≠ bigSparse.INF ∨ bigSparse.cell j 0 ≠ bigSparse.INF)) ∧
      (∀ j : Fin bigSparse.Size, j.val ≠ 0 →
        (bigSparse.label j ∈ js.map bigSparse.label ↔
          (bigSparse.cell 0 j ≠ bigSparse.INF ∨ bigSparse.cell j 0 ≠ bigSparse.INF)))) ∧
    (∀ x, bigSparse.GetNeighbors x = .error .NotFound ↔ bigSparse.HasVert x = false) :=
  ⟨bigSparse_wellFormed, bigSparse_index 0 (by decide), getNeighbors_bigSparse_zero,
    getNeighbors_bigSparse_fifty,
    GetNeighbors_undirected_view bigSparse bigSparse_wellFormed 0 0
      (bigSparse_index 0 (by decide))⟩

theorem selfLoop_built : built 1000000000 ["A", "B"] [("A", "A", 1)] = .ok selfLoop := by
  rfl

theorem selfLoop_wellFormed : selfLoop.WellFormed :=
  ofMatrix_wellFormed _ _ _ (by decide) (by decide) (by decide)

theorem getNeighbors_selfLoop : selfLoop.GetNeighbors "A" = .ok ["A"] := by
  rfl

/-- C18, as stated, fails: in the well-formed graph with vertices `A`, `B`
whose only edge is the self-loop `A -> A`, `GetNeighbors(A)` is `[A]`, so it
contains `A` and is not the empty list. -/
theorem GetNeighbors_self_loop_counterexample :
    selfLoop.WellFormed ∧ selfLoop.indexMap "A" = some 0 ∧
    selfLoop.cell 0 0 ≠ selfLoop.INF ∧
    (∀ j : Fin selfLoop.Size, j.val ≠ 0 →
      selfLoop.cell 0 j = selfLoop.INF ∧ selfLoop.cell j 0 = selfLoop.INF) ∧
    selfLoop.GetNeighbors "A" = .ok ["A"] ∧
    ¬ (∀ l, selfLoop.GetNeighbors "A" = .ok l → "A" ∉ l) ∧
    selfLoop.GetNeighbors "A" ≠ .ok [] := by
  refine ⟨selfLoop_wellFormed, by rfl, by decide, by decide, getNeighbors_selfLoop, ?_, ?_⟩
  · intro h
    exact h ["A"] getNeighbors_selfLoop (by simp)
  · rw [getNeighbors_selfLoop]
    intro h
    simp at h

theorem eq_singleton_of_nodup {α : Type} {l : List α} {a : α} (hnd : l.Nodup)
    (hmem : ∀ x, x ∈ l ↔ x = a) : l = [a] := by
  cases l with
  | nil => exact absurd ((hmem a).mpr rfl) (by simp)
  | cons x t =>
    have hx : x = a := (hmem x).mp (List.mem_cons_self x t)
    subst hx
    cases t with
    | nil => rfl
    | cons y t1 =>
      have hy : y = x := (hmem y).mp (by simp)
      subst hy
      simp at hnd

/-- C18, amended. For a well-formed graph and a vertex `v` with index `i`
whose only incident edge is the self-loop (`cell [i][i] ≠ INF`, every other
cell of row `i` and column `i` equal to `INF`), `GetNeighbors(v)` is the
one-element list `[v]`: the self-loop makes `v` its own neighbour, reported
once. -/
theorem GetNeighbors_only_self_loop (g : DGraph T) (hwf : g.WellFormed) (v : T) (i : Nat)
    (hv : g.indexMap v = some i) (hloop : g.cell i i ≠ g.INF)
    (hrest : ∀ j : Fin g.Size, j.val ≠ i → g.cell i j = g.INF ∧ g.cell j i = g.INF) :
    g.GetNeighbors v = .ok [v] := by
  obtain ⟨u, hu, hul⟩ := hwf.label_of_indexMap hv
  have hlist : neighborIdx g i = [u] := by
    refine eq_singleton_of_nodup ((List.nodup_finRange _).filter _) ?_
    intro j
    rw [mem_neighborIdx]
    constructor
    · intro hj
      by_contra hne
      have hji : j.val ≠ i := fun e => hne (Fin.ext (e.trans hu.symm))
      obtain ⟨h1, h2⟩ := hrest j hji
      rcases hj with hj | hj
      · exact hj h1
      · exact hj h2
    · intro hj
      subst hj
      rw [hu]
      exact Or.inl hloop
  rw [getNeighbors_of_present g v i hv, hlist]
  simp [hul]

/-- On the graph with the single edge `A -> A`, `GetNeighbors(A)` is `[A]`, as
the amended statement says. -/
theorem GetNeighbors_only_self_loop_witness :
    selfLoop.WellFormed ∧ selfLoop.indexMap "A" = some 0 ∧
    selfLoop.cell 0 0 ≠ selfLoop.INF ∧
    (∀ j : Fin selfLoop.Size, j.val ≠ 0 →
      selfLoop.cell 0 j = selfLoop.INF ∧ selfLoop.cell j 0 = selfLoop.INF) ∧
    selfLoop.GetNeighbors "A" = .ok ["A"] :=
  ⟨selfLoop_wellFormed, by rfl, by decide, by decide,
    GetNeighbors_only_self_loop selfLoop selfLoop_wellFormed "A" 0 (by rfl) (by decide)
      (by decide)⟩

theorem deleteV_ok [DecidableEq T] {g g1 : DGraph T} {x : T} (h : g.DeleteV x = .ok g1) :
    ∃ k, g.indexMap x = some k ∧
      g1 = { vertices := g.vertices.eraseIdx k
             adj := (g.adj.eraseIdx k).map (fun row => row.eraseIdx k)
             indexMap := rebuildIndex (g.vertices.eraseIdx k)
             INF := g.INF } := by
  cases hm : g.indexMap x with
  | none =>
    unfold DeleteV at h
    rw [hm] at h
    exact Except.noConfusion h
  | some k =>
    rw [deleteV_eq hm] at h
    simp only [Except.ok.injEq] at h
    exact ⟨k, rfl, h.symm⟩

theorem deleteV_of_absent [DecidableEq T] (g : DGraph T) (x : T) (h : g.indexMap x = none) :
    g.DeleteV x = .error .NotFound := by
  unfold DeleteV
  rw [h]

theorem empty_wellFormed (InVal : Int) : (empty InVal : DGraph T).WellFormed where
  rows := rfl
  cols := by intro row hrow; simp [empty] at hrow
  nodup := by simp [empty]
  index := by intro x i; simp [empty]

theorem WellFormed.deleteV [DecidableEq T] {g g1 : DGraph T} {x : T} (h : g.WellFormed)
    (hdel : g.DeleteV x = .ok g1) : g1.WellFormed := by
  obtain ⟨k, hk, rfl⟩ := deleteV_ok hdel
  have hkn : k < g.vertices.length := h.index_lt hk
  have hrows := h.rows
  unfold Size at hrows
  refine ⟨?_, ?_, h.nodup.sublist (List.eraseIdx_sublist _ _),
    rebuildIndex_spec _ (h.nodup.sublist (List.eraseIdx_sublist _ _))⟩
  · unfold Size
    simp only [List.length_map]
    rw [List.length_eraseIdx_of_lt (by omega), List.length_eraseIdx_of_lt hkn, hrows]
  · intro row hrow
    obtain ⟨r, hr, rfl⟩ := List.mem_map.mp hrow
    have hr1 : r ∈ g.adj := (List.eraseIdx_sublist _ _).subset hr
    have hlen := h.cols r hr1
    unfold Size at hlen ⊢
    simp only
    rw [List.length_eraseIdx_of_lt (by omega), List.length_eraseIdx_of_lt hkn, hlen]

theorem size_addV [DecidableEq T] {g g1 : DGraph T} {x : T} (h : g.AddV x = .ok g1) :
    g1.Size = g.Size + 1 := by
  obtain ⟨_, hv, _⟩ := addV_ok h
  unfold Size
  rw [hv]
  simp

theorem size_addE {g g1 : DGraph T} {a b : T} {w : Int} (h : g.AddE a b w = .ok g1) :
    g1.Size = g.Size := by
  obtain ⟨u, v, _, _, rfl⟩ := addE_ok h
  rfl

theorem WellFormed.size_deleteV [DecidableEq T] {g g1 : DGraph T} {x : T}
    (h : g.WellFormed) (hdel : g.DeleteV x = .ok g1) : g1.Size + 1 = g.Size := by
  obtain ⟨k, hk, rfl⟩ := deleteV_ok hdel
  have hkn : k < g.vertices.length := h.index_lt hk
  unfold Size
  simp only
  rw [List.length_eraseIdx_of_lt hkn]
  omega

theorem WellFormed.after_run [DecidableEq T] {g : DGraph T} (h : g.WellFormed) (c : Call T) :
    (after g (c.run g)).WellFormed := by
  cases c with
  | addV x =>
    simp only [Call.run]
    cases hr : g.AddV x with
    | error e => exact h
    | ok g1 => exact h.addV hr
  | deleteV x =>
    simp only [Call.run]
    cases hr : g.DeleteV x with
    | error e => exact h
    | ok g1 => exact h.deleteV hr
  | addE a b w =>
    simp only [Call.run]
    cases hr : g.AddE a b w with
    | error e => exact h
    | ok g1 => exact h.addE hr
  | deleteE a b =>
    simp only [Call.run]
    cases hr : g.DeleteE a b with
    | error e => exact h
    | ok g1 => exact h.addE (deleteE_eq_addE g a b ▸ hr)

theorem WellFormed.runCalls_wf [DecidableEq T] (cs : List (Call T)) :
    ∀ {g : DGraph T}, g.WellFormed → (runCalls g cs).WellFormed := by
  induction cs with
  | nil => intro g h; exact h
  | cons c cs ih => intro g h; exact ih (h.after_run c)

/-- From a well-formed state, the size after a sequence of calls plus the
number of successful `DeleteV` calls is the initial size plus the number of
successful `AddV` calls. -/
theorem WellFormed.runCalls_size [DecidableEq T] (cs : List (Call T)) :
    ∀ {g : DGraph T}, g.WellFormed →
      (runCalls g cs).Size + deletedCount g cs = g.Size + addedCount g cs := by
  induction cs with
  | nil => intro g _; rfl
  | cons c cs ih =>
    intro g h
    have hnext := ih (h.after_run c)
    simp only [runCalls, addedCount, deletedCount]
    cases c with
    | addV x =>
      simp only [Call.run] at hnext ⊢
      cases hr : g.AddV x with
      | error e =>
        rw [hr] at hnext
        simp only [after] at hnext ⊢
        omega
      | ok g1 =>
        rw [hr] at hnext
        simp only [after] at hnext ⊢
        have := size_addV hr
        omega
    | deleteV x =>
      simp only [Call.run] at hnext ⊢
      cases hr : g.DeleteV x with
      | error e =>
        rw [hr] at hnext
        simp only [after] at hnext ⊢
        omega
      | ok g1 =>
        rw [hr] at hnext
        simp only [after] at hnext ⊢
        have := h.size_deleteV hr
        omega
    | addE a b w =>
      simp only [Call.run] at hnext ⊢
      cases hr : g.AddE a b w with
      | error e =>
        rw [hr] at hnext
        simp only [after] at hnext ⊢
        omega
      | ok g1 =>
        rw [hr] at hnext
        simp only [after] at hnext ⊢
        have := size_addE hr
        omega
    | deleteE a b =>
      simp only [Call.run] at hnext ⊢
      cases hr : g.DeleteE a b with
      | error e =>
        rw [hr] at hnext
        simp only [after] at hnext ⊢
        omega
      | ok g1 =>
        rw [hr] at hnext
        simp only [after] at hnext ⊢
        have := size_addE (deleteE_eq_addE g a b ▸ hr)
        omega

/-- The calls of the vertex test: three successful `AddV`, a failing `AddV`,
a successful `DeleteV` and a failing `DeleteV` leave two vertices. -/
theorem runCalls_vertex_test :
    (runCalls (empty 1000000000 : DGraph String)
      [.addV "A", .addV "B", .addV "C", .addV "B", .deleteV "B", .deleteV "X"]).Size = 2 ∧
    addedCount (empty 1000000000 : DGraph String)
      [.addV "A", .addV "B", .addV "C", .addV "B", .deleteV "B", .deleteV "X"] = 3 ∧
    deletedCount (empty 1000000000 : DGraph String)
      [.addV "A", .addV "B", .addV "C", .addV "B", .deleteV "B", .deleteV "X"] = 1 := by
  refine ⟨by rfl, by rfl, by rfl⟩

/-- C19. For every sequence of `AddV`, `DeleteV`, `AddE` and `DeleteE` calls
applied to the empty graph, failed calls included, `Size()` of the resulting
graph is the number of `AddV` calls that succeeded minus the number of
`DeleteV` calls that succeeded; and a call of `AddE` or `DeleteE`, successful
or not, leaves `Size()` as it was. -/
theorem Size_counts_successful_calls [DecidableEq T] (InVal : Int) (cs : List (Call T)) :
    (runCalls (empty InVal) cs).Size + deletedCount (empty InVal) cs
      = addedCount (empty InVal) cs ∧
    (runCalls (empty InVal) cs).Size
      = addedCount (empty InVal) cs - deletedCount (empty InVal) cs ∧
    (∀ (g : DGraph T) (a b : T) (w : Int),
      (after g (g.AddE a b w)).Size = g.Size ∧ (after g (g.DeleteE a b)).Size = g.Size) := by
  have h := (empty_wellFormed InVal : (empty InVal : DGraph T).WellFormed).runCalls_size cs
  have h0 : (empty InVal : DGraph T).Size = 0 := rfl
  refine ⟨by omega, by omega, ?_⟩
  intro g a b w
  constructor
  · cases hr : g.AddE a b w with
    | error e => rfl
    | ok g1 => exact size_addE hr
  · cases hr : g.DeleteE a b with
    | error e => rfl
    | ok g1 => exact size_addE (deleteE_eq_addE g a b ▸ hr)

/-- C20. `DeleteV(x)` fails with `NotFound` exactly when `x` is absent;
`AddE(a, b, w)` and `DeleteE(a, b)` fail with `NotFound` exactly when `a` is
absent or `b` is absent; none of the three fails in another way, and a failed
call leaves the object as it was. -/
theorem NotFound_iff_and_atomic [DecidableEq T] (g : DGraph T) (x a b : T) (w : Int) :
    (g.DeleteV x = .error .NotFound ↔ g.HasVert x = false) ∧
    (g.AddE a b w = .error .NotFound ↔ (g.HasVert a = false ∨ g.HasVert b = false)) ∧
    (g.DeleteE a b = .error .NotFound ↔ (g.HasVert a = false ∨ g.HasVert b = false)) ∧
    (∀ e, g.DeleteV x = .error e → e = .NotFound ∧ after g (g.DeleteV x) = g) ∧
    (∀ e, g.AddE a b w = .error e → e = .NotFound ∧ after g (g.AddE a b w) = g) ∧
    (∀ e, g.DeleteE a b = .error e → e = .NotFound ∧ after g (g.DeleteE a b) = g) := by
  have hdel : ∀ e, g.DeleteV x = .error e → e = .NotFound ∧ g.indexMap x = none := by
    intro e he
    cases hm : g.indexMap x with
    | none =>
      rw [deleteV_of_absent g x hm] at he
      simp only [Except.error.injEq] at he
      exact ⟨he.symm, rfl⟩
    | some k =>
      rw [deleteV_eq hm] at he
      exact Except.noConfusion he
  have hadd : ∀ w1, (g.AddE a b w1 = .error .NotFound ↔
      (g.HasVert a = false ∨ g.HasVert b = false)) := by
    intro w1
    rw [hasVert_eq_false_iff, hasVert_eq_false_iff]
    exact ⟨fun h => (addE_error h).2, addE_of_absent g a b w1⟩
  refine ⟨?_, hadd w, ?_, ?_, ?_, ?_⟩
  · rw [hasVert_eq_false_iff]
    exact ⟨fun h => (hdel _ h).2, deleteV_of_absent g x⟩
  · rw [deleteE_eq_addE]
    exact hadd g.INF
  · intro e he
    refine ⟨(hdel e he).1, ?_⟩
    rw [he]
    rfl
  · intro e he
    refine ⟨(addE_error he).1, ?_⟩
    rw [he]
    rfl
  · intro e he
    rw [deleteE_eq_addE] at he ⊢
    refine ⟨(addE_error he).1, ?_⟩
    rw [he]
    rfl

theorem smallSentinel_built :
    built 10 ["A", "B", "C"] [("A", "B", 6), ("B", "C", 6)] = .ok smallSentinel := by
  rfl

theorem smallSentinel_wellFormed : smallSentinel.WellFormed :=
  ofMatrix_wellFormed _ _ _ (by decide) (by decide) (by decide)

theorem BellmanFord_smallSentinel :
    smallSentinel.BellmanFord dblAdd "A" = .ok [0, 6, 10] ∧
    smallSentinel.BellmanFord (· + ·) "A" = .ok [0, 6, 10] :=
  ⟨by rfl, by rfl⟩

/-- Two index maps that agree on which label has which index are the same map. -/
theorem indexMap_ext {m1 m2 : T → Option Nat}
    (h : ∀ (x : T) (i : Nat), m1 x = some i ↔ m2 x = some i) : m1 = m2 := by
  funext x
  cases h1 : m1 x with
  | some i => exact ((h x i).mp h1).symm
  | none =>
    cases h2 : m2 x with
    | none => rfl
    | some j => rw [(h x j).mpr h2] at h1; exact Option.noConfusion h1

/-- The index map of a well-formed state is the one the rebuild loop of
`DeleteV` computes from its vertex list. -/
theorem WellFormed.rebuildIndex_eq [DecidableEq T] {g : DGraph T} (h : g.WellFormed) :
    rebuildIndex g.vertices = g.indexMap :=
  indexMap_ext fun x i => (rebuildIndex_spec g.vertices h.nodup x i).trans (h.index x i).symm

/-- Erasing the last row and the last column of the matrix grown by `AddV`
gives the matrix back. -/
theorem shrink_grown (adj : List (List Int)) (n : Nat) (c : Int) (last : List Int)
    (hrows : adj.length = n) (hcols : ∀ row ∈ adj, row.length = n) :
    ((adj.map (fun row => row ++ [c]) ++ [last]).eraseIdx n).map (fun row => row.eraseIdx n)
      = adj := by
  have h1 : (adj.map (fun row => row ++ [c]) ++ [last]).eraseIdx n
      = adj.map (fun row => row ++ [c]) := by
    rw [List.eraseIdx_append_of_length_le (by simp [hrows])]
    simp [hrows]
  rw [h1, List.map_map]
  conv_rhs => rw [← List.map_id adj]
  apply List.map_congr_left
  intro row hrow
  have := hcols row hrow
  simp only [Function.comp, id]
  rw [List.eraseIdx_append_of_length_le (by omega)]
  simp [this]

/-- C24. Every state reached from the empty graph by a sequence of `AddV`,
`DeleteV`, `AddE` and `DeleteE` calls, failed ones included, has a matrix of
exactly `Size()` rows of exactly `Size()` columns each, a vertex list without
duplicates, and an index map with `indexMap[x] = i` exactly when
`vertices[i] = x`, so that its indices are the numbers below `Size()`. -/
theorem representation_invariant [DecidableEq T] (InVal : Int) (cs : List (Call T)) :
    (runCalls (empty InVal : DGraph T) cs).adj.length = (runCalls (empty InVal) cs).Size ∧
    (∀ row ∈ (runCalls (empty InVal : DGraph T) cs).adj,
      row.length = (runCalls (empty InVal) cs).Size) ∧
    (runCalls (empty InVal : DGraph T) cs).vertices.Nodup ∧
    (∀ (x : T) (i : Nat), (runCalls (empty InVal) cs).indexMap x = some i ↔
      (runCalls (empty InVal) cs).vertices[i]? = some x) ∧
    (∀ x : T, (runCalls (empty InVal) cs).HasVert x = true ↔
      x ∈ (runCalls (empty InVal) cs).vertices) ∧
    (∀ (x : T) (i : Nat), (runCalls (empty InVal) cs).indexMap x = some i →
      i < (runCalls (empty InVal) cs).Size) ∧
    (∀ i, i < (runCalls (empty InVal : DGraph T) cs).Size →
      ∃ x, (runCalls (empty InVal) cs).indexMap x = some i) := by
  have h : (runCalls (empty InVal : DGraph T) cs).WellFormed :=
    WellFormed.runCalls_wf cs (empty_wellFormed InVal)
  refine ⟨h.rows, h.cols, h.nodup, h.index, ?_, fun x i hx => h.index_lt hx, ?_⟩
  · intro x
    rw [hasVert_eq_true_iff]
    constructor
    · rintro ⟨i, hi⟩
      exact List.getElem?_mem ((h.index x i).mp hi)
    · intro hx
      obtain ⟨i, hi, hxi⟩ := List.getElem_of_mem hx
      exact ⟨i, (h.index x i).mpr (by rw [List.getElem?_eq_getElem hi, hxi])⟩
  · intro i hi
    exact ⟨_, (h.index _ i).mpr (List.getElem?_eq_getElem hi)⟩

/-- C27. For present vertices `a`, `b` of a well-formed graph, `AddE(a, b, INF)`
succeeds and returns exactly the state that `DeleteE(a, b)` returns; in that
state `HasEdge(a, b)` is false and `GetWeight(a, b)` fails with
`EdgeNotFound`. -/
theorem AddE_sentinel_is_DeleteE (g : DGraph T) (h : g.WellFormed) (a b : T)
    (ha : g.HasVert a = true) (hb : g.HasVert b = true) :
    ∃ g1 : DGraph T, g.AddE a b g.INF = .ok g1 ∧ g.DeleteE a b = .ok g1 ∧
      g1.HasEdge a b = false ∧ g1.GetWeight a b = .error .EdgeNotFound := by
  obtain ⟨u, hu⟩ := (hasVert_eq_true_iff g a).mp ha
  obtain ⟨v, hv⟩ := (hasVert_eq_true_iff g b).mp hb
  obtain ⟨hur, hvr⟩ := h.in_range hu hv
  have hcell : ({ g with adj := setCell g.adj u v g.INF } : DGraph T).cell u v = g.INF := by
    rw [cell_setCell, if_pos ⟨rfl, rfl, hur, hvr⟩]
  refine ⟨_, addE_of_present g a b _ u v hu hv,
    (deleteE_eq_addE g a b).trans (addE_of_present g a b _ u v hu hv), ?_, ?_⟩
  · rw [hasEdge_of_present ({ g with adj := setCell g.adj u v g.INF } : DGraph T) a b u v hu hv,
      hcell]
    simp
  · rw [getWeight_of_present ({ g with adj := setCell g.adj u v g.INF } : DGraph T) a b u v
      hu hv, hcell]
    simp

/-- On the graph `A -> B : 5`, `A -> C : 2`, `C -> B : -3` the call
`AddE(A, B, INF)` removes the edge `A -> B` as `DeleteE(A, B)` does. -/
theorem AddE_sentinel_is_DeleteE_witness :
    negEdges.WellFormed ∧ negEdges.HasEdge "A" "B" = true ∧
    ∃ g1 : DGraph String, negEdges.AddE "A" "B" negEdges.INF = .ok g1 ∧
      negEdges.DeleteE "A" "B" = .ok g1 ∧
      g1.HasEdge "A" "B" = false ∧ g1.GetWeight "A" "B" = .error .EdgeNotFound :=
  ⟨ofMatrix_wellFormed _ _ _ (by decide) (by decide) (by decide), by rfl,
    AddE_sentinel_is_DeleteE negEdges
      (ofMatrix_wellFormed _ _ _ (by decide) (by decide) (by decide)) "A" "B" (by rfl) (by rfl)⟩

/-- C29. For a well-formed graph `g` and a label `x` that is not a vertex of
`g`, `AddV(x)` succeeds, the `DeleteV(x)` that follows succeeds, and the state
it returns is `g`: the same vertex list, index map, matrix and sentinel. -/
theorem DeleteV_undoes_AddV [DecidableEq T] (g : DGraph T) (h : g.WellFormed) (x : T)
    (hx : g.HasVert x = false) :
    ∃ g1 g2 : DGraph T, g.AddV x = .ok g1 ∧ g1.DeleteV x = .ok g2 ∧
      g2.vertices = g.vertices ∧ g2.indexMap = g.indexMap ∧ g2.adj = g.adj ∧ g2 = g := by
  have hnone := (hasVert_eq_false_iff g x).mp hx
  obtain ⟨g1, hadd⟩ := addV_of_absent g x hnone
  obtain ⟨_, hv1, hm1, ha1, hi1⟩ := addV_ok hadd
  have hidx : g1.indexMap x = some g.vertices.length := by
    rw [hm1]
    simp [mapInsert]
  have hvs : g1.vertices.eraseIdx g.vertices.length = g.vertices := by
    rw [hv1, List.eraseIdx_append_of_length_le (le_refl _)]
    simp
  have hadj : (g1.adj.eraseIdx g.vertices.length).map
      (fun row => row.eraseIdx g.vertices.length) = g.adj := by
    rw [ha1]
    exact shrink_grown g.adj g.vertices.length g.INF _ h.rows h.cols
  have hdel := deleteV_eq hidx
  rw [hvs, hadj, h.rebuildIndex_eq, hi1] at hdel
  exact ⟨g1, _, hadd, hdel, rfl, rfl, rfl, rfl⟩

/-- On the graph `A -> B : 5`, `A -> C : 2`, `C -> B : -3`, adding the vertex
`D` and deleting it again gives the graph back. -/
theorem DeleteV_undoes_AddV_witness :
    negEdges.WellFormed ∧ negEdges.HasVert "D" = false ∧
    ∃ g1 g2 : DGraph String, negEdges.AddV "D" = .ok g1 ∧ g1.DeleteV "D" = .ok g2 ∧
      g2.vertices = negEdges.vertices ∧ g2.indexMap = negEdges.indexMap ∧
      g2.adj = negEdges.adj ∧ g2 = negEdges :=
  ⟨ofMatrix_wellFormed _ _ _ (by decide) (by decide) (by decide), by rfl,
    DeleteV_undoes_AddV negEdges
      (ofMatrix_wellFormed _ _ _ (by decide) (by decide) (by decide)) "D" (by rfl)⟩

/-- C30. With the sentinel `10` and the edges `A -> B : 6`, `B -> C : 6` the
graph is well-formed, every edge weight is non-negative and differs from the
sentinel, `C` is reachable from `A`, a walk from `A` to `C` weighs `12`
and none weighs less than the sentinel, and `BellmanFord(A)` succeeds with
`[0, 6, 10]`, with the addition of `double` as with sums that are exact: the
entry of `C` is the sentinel.  So there are a positive sentinel, a graph, a
start and a reachable vertex whose entry in the result is the sentinel. -/
theorem BellmanFord_sentinel_hides_reachable :
    ∃ (g : DGraph String) (start v : String) (s t : Fin g.Size) (dist : List Int),
      0 < g.INF ∧ g.WellFormed ∧
      (∀ i j : Fin g.Size, g.Edge i j → 0 ≤ g.cell i j ∧ g.cell i j ≠ g.INF) ∧
      g.indexMap start = some s.val ∧ g.indexMap v = some t.val ∧
      g.Reachable start v ∧ g.Reach s t ∧
      (∃ p, Walk g s p t 12) ∧ (∀ p w, Walk g s p t w → g.INF ≤ w) ∧
      g.BellmanFord dblAdd start = .ok dist ∧ g.BellmanFord (· + ·) start = .ok dist ∧
      dist[t.val]? = some g.INF := by
  refine ⟨smallSentinel, "A", "C", ⟨0, by decide⟩, ⟨2, by decide⟩, [0, 6, 10],
    by decide, smallSentinel_wellFormed, by decide, by rfl, by rfl, ?_, ?_, ?_, ?_,
    BellmanFord_smallSentinel.1, BellmanFord_smallSentinel.2, by rfl⟩
  · exact Relation.ReflTransGen.tail
      (Relation.ReflTransGen.tail Relation.ReflTransGen.refl
        (show smallSentinel.HasEdge "A" "B" = true by rfl))
      (show smallSentinel.HasEdge "B" "C" = true by rfl)
  · exact Relation.ReflTransGen.tail
      (Relation.ReflTransGen.tail Relation.ReflTransGen.refl
        (show smallSentinel.Edge ⟨0, by decide⟩ ⟨1, by decide⟩ by decide))
      (show smallSentinel.Edge ⟨1, by decide⟩ ⟨2, by decide⟩ by decide)
  · exact ⟨_, Walk.snoc (Walk.snoc Walk.nil
      (show smallSentinel.Edge ⟨0, by decide⟩ ⟨1, by decide⟩ by decide))
      (show smallSentinel.Edge ⟨1, by decide⟩ ⟨2, by decide⟩ by decide)⟩
  · intro p w hw
    have key : ∀ {p : List (Fin smallSentinel.Size)} {x : Fin smallSentinel.Size} {w : Int},
        Walk smallSentinel ⟨0, by decide⟩ p x w → [0, 6, 12].getD x.val (0 : Int) ≤ w := by
      intro p x w h
      induction h with
      | nil => decide
      | snoc h1 he ih =>
        rename_i p1 u v1 w1
        have : ∀ u v : Fin smallSentinel.Size, smallSentinel.Edge u v →
            [0, 6, 12].getD v.val (0 : Int) ≤ [0, 6, 12].getD u.val (0 : Int)
              + smallSentinel.cell u v := by decide
        have := this u v1 he
        omega
    have := key hw
    have e : smallSentinel.INF = 10 := rfl
    have e2 : [0, 6, 12].getD (2 : Nat) (0 : Int) = 12 := rfl
    simp only [e2] at this
    omega

/-- The recording loop builds the result of `bfsLoop`. -/
theorem bfsLoopTrace_order (g : DGraph T) :
    ∀ (m : Nat) (q : List (Fin g.Size)) (visited inq : Fin g.Size → Bool) (t : BfsTrace g),
      q.length + unmarked inq = m →
      (bfsLoopTrace g q visited inq t).order = bfsLoop g q visited inq t.order := by
  intro m
  induction m using Nat.strong_induction_on with
  | _ m ih =>
    intro q visited inq t hm
    cases q with
    | nil => rw [bfsLoopTrace, bfsLoop]
    | cons u rest =>
      rw [bfsLoopTrace, bfsLoop]
      by_cases hv : visited u = true
      · simp only [hv, if_true]
        exact ih _ (by rw [← hm]; simp) _ _ _ _ rfl
      · simp only [hv, if_false]
        have hmeas := bfsScan_measure g u (Function.update visited u true) rest inq
        have hvf : visited u = false := by simpa using hv
        simp only [hvf, Bool.false_eq_true, if_false]
        exact ih _ (by rw [hmeas, ← hm]; simp) _ _ _ _ rfl

/-- Under the loop invariant of `BFS` the recording loop never takes the
skip branch, and the indices it pushes are those it dequeues. -/
theorem bfsLoopTrace_spec (g : DGraph T) (s : Fin g.Size) :
    ∀ (m : Nat) (q : List (Fin g.Size)) (visited inq : Fin g.Size → Bool)
      (os : List (Fin g.Size)) (t : BfsTrace g),
      q.length + unmarked inq = m → BfsInv g s os q visited inq →
      t.pushed = os ++ q → t.skips = 0 → t.dequeues = os.length → t.order.length = os.length →
      (bfsLoopTrace g q visited inq t).pushed.Nodup ∧
      (bfsLoopTrace g q visited inq t).skips = 0 ∧
      (bfsLoopTrace g q visited inq t).dequeues
        = (bfsLoopTrace g q visited inq t).order.length ∧
      (bfsLoopTrace g q visited inq t).pushed.length
        = (bfsLoopTrace g q visited inq t).dequeues := by
  intro m
  induction m using Nat.strong_induction_on with
  | _ m ih =>
    intro q visited inq os t hm hinv hp hs hd ho
    cases q with
    | nil =>
      rw [bfsLoopTrace]
      refine ⟨by rw [hp]; exact hinv.nodup, hs, by rw [hd, ho], ?_⟩
      rw [hp, hd]
      simp
    | cons u rest =>
      obtain ⟨hvu, hstep⟩ := hinv.step
      rw [bfsLoopTrace]
      simp only [hvu, Bool.false_eq_true, if_false]
      have hmeas := bfsScan_measure g u (Function.update visited u true) rest inq
      rw [bfsScan_eq] at hmeas ⊢
      refine ih _ ?_ _ _ _ (os ++ [u]) _ rfl hstep ?_ hs ?_ ?_
      · rw [hmeas, ← hm]
        simp
      · simp only [List.drop_left, hp]
        simp
      · simp [hd]
      · simp [ho]

/-- C26. For a well-formed graph and a present start vertex, the run of
`BFS(start)` pushes no index onto the queue twice, never takes the branch
`if (visited[u]) continue`, that is, every dequeued index is unvisited when
it is dequeued, and it dequeues as many times as it pushes, which is the
length of the list it returns. -/
theorem BFS_skip_never_taken (g : DGraph T) (h : g.WellFormed) (start : T)
    (hs : g.HasVert start = true) :
    ∃ t : BfsTrace g, g.BFSTrace start = .ok t ∧ g.BFS start = .ok t.order ∧
      t.pushed.Nodup ∧ t.skips = 0 ∧ t.dequeues = t.order.length ∧
      t.pushed.length = t.dequeues := by
  obtain ⟨s, hsi, _⟩ := h.startIndex_of_hasVert hs
  have hspec := bfsLoopTrace_spec g s _ [s] (fun _ => false)
    (Function.update (fun _ => false) s true) []
    { order := [], pushed := [s], dequeues := 0, skips := 0 } rfl (bfsInv_init g s)
    rfl rfl rfl rfl
  have hord := bfsLoopTrace_order g _ [s] (fun _ => false)
    (Function.update (fun _ => false) s true)
    { order := [], pushed := [s], dequeues := 0, skips := 0 } rfl
  refine ⟨_, by unfold BFSTrace; rw [hsi], ?_, hspec⟩
  unfold BFS
  rw [hsi, hord]

/-- On the cycle `A -> B`, `B -> A` the call `BFS(A)` returns `A, B`, and the
general statement applies: two pushes, two dequeues, no skip. -/
theorem BFS_skip_never_taken_witness :
    cycleAB.WellFormed ∧ cycleAB.HasVert "A" = true ∧ cycleAB.BFS "A" = .ok ["A", "B"] ∧
    ∃ t : BfsTrace cycleAB, cycleAB.BFSTrace "A" = .ok t ∧ cycleAB.BFS "A" = .ok t.order ∧
      t.pushed.Nodup ∧ t.skips = 0 ∧ t.dequeues = t.order.length ∧
      t.pushed.length = t.dequeues :=
  ⟨cycleAB_wellFormed, by rfl, BFS_cycleAB,
    BFS_skip_never_taken cycleAB cycleAB_wellFormed "A" (by rfl)⟩

theorem FirstEdgeAt.lt_length {g : DGraph T} {os : List (Fin g.Size)} {x : Fin g.Size}
    {k : Nat} (h : FirstEdgeAt g os x k) : k < os.length := by
  obtain ⟨⟨p, hp, _⟩, _⟩ := h
  exact (List.getElem?_eq_some.mp hp).1

theorem FirstEdgeAt.unique {g : DGraph T} {os : List (Fin g.Size)} {x : Fin g.Size}
    {k1 k2 : Nat} (h1 : FirstEdgeAt g os x k1) (h2 : FirstEdgeAt g os x k2) : k1 = k2 := by
  obtain ⟨⟨p1, hp1, he1⟩, hm1⟩ := h1
  obtain ⟨⟨p2, hp2, he2⟩, hm2⟩ := h2
  rcases Nat.lt_trichotomy k1 k2 with h | h | h
  · exact absurd he1 (hm2 k1 p1 h hp1)
  · exact h
  · exact absurd he2 (hm1 k2 p2 h hp2)

theorem FirstEdgeAt.append {g : DGraph T} {os : List (Fin g.Size)} {x : Fin g.Size}
    {k : Nat} (h : FirstEdgeAt g os x k) (t : List (Fin g.Size)) :
    FirstEdgeAt g (os ++ t) x k := by
  have hk := h.lt_length
  obtain ⟨⟨p, hp, he⟩, hm⟩ := h
  refine ⟨⟨p, by rw [List.getElem?_append_left hk]; exact hp, he⟩, ?_⟩
  intro j p1 hj hp1
  rw [List.getElem?_append_left (by omega)] at hp1
  exact hm j p1 hj hp1

/-- A vertex without an edge from any vertex of `os`, but with an edge from
`u`, has its earliest such vertex at the end of `os ++ [u]`. -/
theorem firstEdgeAt_new {g : DGraph T} {os : List (Fin g.Size)} {u x : Fin g.Size}
    (he : g.Edge u x) (hno : ∀ p ∈ os, ¬ g.Edge p x) :
    FirstEdgeAt g (os ++ [u]) x os.length := by
  refine ⟨⟨u, by simp, he⟩, ?_⟩
  intro j p hj hp
  rw [List.getElem?_append_left hj] at hp
  exact hno p (List.getElem?_mem hp)

theorem bfsInv_new {g : DGraph T} {s u : Fin g.Size} {os rest : List (Fin g.Size)}
    {visited inq : Fin g.Size → Bool} (h : BfsInv g s os (u :: rest) visited inq)
    (v : Fin g.Size) :
    v ∈ bfsNew g u (Function.update visited u true) inq
      ↔ g.Edge u v ∧ v ∉ os ++ u :: rest := by
  have huq : u ∈ os ++ u :: rest := by simp
  rw [mem_bfsNew]
  constructor
  · rintro ⟨he, _, hi⟩
    refine ⟨he, fun hv => ?_⟩
    rw [(h.inq_iff v).mpr hv] at hi
    exact Bool.noConfusion hi
  · rintro ⟨he, hv⟩
    have hi : inq v = false := by
      cases hiv : inq v with
      | false => rfl
      | true => exact absurd ((h.inq_iff v).mp hiv) hv
    have hne : v ≠ u := fun e => hv (e ▸ huq)
    have hvis : visited v = false := by
      cases hvv : visited v with
      | false => rfl
      | true => exact absurd (List.mem_append_left _ ((h.vis_iff v).mp hvv)) hv
    exact ⟨he, by rw [Function.update_noteq hne]; exact hvis, hi⟩

theorem sorted_bfsNew (g : DGraph T) (u : Fin g.Size) (visited inq : Fin g.Size → Bool) :
    (bfsNew g u visited inq).Pairwise (· < ·) :=
  (List.pairwise_lt_finRange _).filter _

theorem bfsOrd_init (g : DGraph T) (s : Fin g.Size) : BfsOrd g s [] [s] where
  parent := by
    intro x hx hne
    simp only [List.nil_append, List.mem_singleton] at hx
    exact absurd hx hne
  order := by simp

theorem BfsOrd.ord_step {g : DGraph T} {s u : Fin g.Size} {os rest : List (Fin g.Size)}
    {visited inq : Fin g.Size → Bool} (h : BfsInv g s os (u :: rest) visited inq)
    (ho : BfsOrd g s os (u :: rest)) :
    BfsOrd g s (os ++ [u]) (rest ++ bfsNew g u (Function.update visited u true) inq) := by
  have hN := bfsInv_new h
  have hsort := sorted_bfsNew g u (Function.update visited u true) inq
  generalize bfsNew g u (Function.update visited u true) inq = N at hN hsort ⊢
  have hL : (os ++ [u]) ++ (rest ++ N) = (os ++ u :: rest) ++ N := by simp
  have hnew : ∀ x ∈ N, FirstEdgeAt g (os ++ [u]) x os.length := by
    intro x hx
    obtain ⟨he, hnot⟩ := (hN x).mp hx
    exact firstEdgeAt_new he (fun p hp hpe => hnot (h.closed p hp x hpe))
  constructor
  · intro x hx hne
    rw [hL] at hx
    rcases List.mem_append.mp hx with hx | hx
    · obtain ⟨k, hk⟩ := ho.parent x hx hne
      exact ⟨k, hk.append [u]⟩
    · exact ⟨_, hnew x hx⟩
  · rw [hL]
    refine List.pairwise_append.mpr ⟨?_, ?_, ?_⟩
    · refine ho.order.imp_of_mem ?_
      intro x y hx hy hxy hxs hys kx ky hkx hky
      obtain ⟨k1, hk1⟩ := ho.parent x hx hxs
      obtain ⟨k2, hk2⟩ := ho.parent y hy hys
      rw [← (hk1.append [u]).unique hkx, ← (hk2.append [u]).unique hky]
      exact hxy hxs hys k1 k2 hk1 hk2
    · refine hsort.imp_of_mem ?_
      intro x y hx hy hxy _ _ kx ky hkx hky
      right
      exact ⟨((hnew x hx).unique hkx).symm.trans ((hnew y hy).unique hky), hxy⟩
    · intro x hx y hy hxs _ kx ky hkx hky
      left
      obtain ⟨k1, hk1⟩ := ho.parent x hx hxs
      rw [← (hk1.append [u]).unique hkx, ← (hnew y hy).unique hky]
      exact hk1.lt_length

/-- The loop of `BFS` with both parts of the invariant. -/
theorem bfsLoop_ord_spec (g : DGraph T) (s : Fin g.Size) :
    ∀ (m : Nat) (q : List (Fin g.Size)) (visited inq : Fin g.Size → Bool)
      (os : List (Fin g.Size)),
      q.length + unmarked inq = m → BfsInv g s os q visited inq → BfsOrd g s os q →
      ∃ os1 visited1 inq1, bfsLoop g q visited inq (os.map g.label) = os1.map g.label ∧
        BfsInv g s os1 [] visited1 inq1 ∧ BfsOrd g s os1 [] := by
  intro m
  induction m using Nat.strong_induction_on with
  | _ m ih =>
    intro q visited inq os hm hinv hord
    cases q with
    | nil =>
      rw [bfsLoop]
      exact ⟨os, visited, inq, rfl, hinv, hord⟩
    | cons u rest =>
      obtain ⟨hvu, hstep⟩ := hinv.step
      have hostep := BfsOrd.ord_step hinv hord
      rw [bfsLoop]
      simp only [hvu, Bool.false_eq_true, if_false]
      have hmeas := bfsScan_measure g u (Function.update visited u true) rest inq
      have hlab : os.map g.label ++ [g.label u] = (os ++ [u]).map g.label := by simp
      rw [hlab]
      rw [bfsScan_eq] at hmeas ⊢
      refine ih _ ?_ _ _ _ _ rfl hstep hostep
      rw [hmeas, ← hm]
      simp

/-- The order of the result of `BFS`, on indices: a vertex other than the
start stands before another one exactly when its earliest vertex with an
edge to it comes earlier, or at the same position with a smaller index. -/
theorem bfs_index_order (g : DGraph T) (s : Fin g.Size) :
    ∃ os : List (Fin g.Size),
      bfsLoop g [s] (fun _ => false) (Function.update (fun _ => false) s true) []
        = os.map g.label ∧
      os.Nodup ∧
      (∀ x ∈ os, x ≠ s → ∃ k, FirstEdgeAt g os x k) ∧
      ∀ (i j : Nat) (x y : Fin g.Size) (kx ky : Nat), os[i]? = some x → os[j]? = some y →
        x ≠ s → y ≠ s → FirstEdgeAt g os x kx → FirstEdgeAt g os y ky →
        (i < j ↔ kx < ky ∨ (kx = ky ∧ x < y)) := by
  obtain ⟨os, visited1, inq1, heq, hinv, hord⟩ :=
    bfsLoop_ord_spec g s _ [s] _ _ [] rfl (bfsInv_init g s) (bfsOrd_init g s)
  have hnd : os.Nodup := by simpa using hinv.nodup
  have hpw : os.Pairwise (ParentOrder g s os) := by simpa using hord.order
  refine ⟨os, by simpa using heq, hnd, fun x hx => hord.parent x (by simpa using hx), ?_⟩
  intro i j x y kx ky hi hj hxs hys hkx hky
  obtain ⟨hil, hix⟩ := List.getElem?_eq_some.mp hi
  obtain ⟨hjl, hjy⟩ := List.getElem?_eq_some.mp hj
  have hlt : ∀ (a b : Nat) (ha : a < os.length) (hb : b < os.length), a < b →
      ParentOrder g s os os[a] os[b] := by
    intro a b ha hb hab
    exact List.pairwise_iff_getElem.mp hpw a b ha hb hab
  constructor
  · intro hij
    have := hlt i j hil hjl hij
    rw [hix, hjy] at this
    exact this hxs hys kx ky hkx hky
  · intro hr
    rcases Nat.lt_trichotomy i j with h | h | h
    · exact h
    · exfalso
      subst h
      have hxy : x = y := by rw [← hix, ← hjy]
      subst hxy
      have := hkx.unique hky
      rcases hr with hr | ⟨_, hr⟩
      · omega
      · exact lt_irrefl _ hr
    · exfalso
      have := hlt j i hjl hil h
      rw [hix, hjy] at this
      have := this hys hxs ky kx hky hkx
      rcases hr with hr | ⟨hr1, hr2⟩ <;> rcases this with h1 | ⟨h1, h2⟩
      · omega
      · omega
      · omega
      · exact lt_asymm hr2 h2

/-- For a well-formed graph, the parent position of a label in a list of
labels is the position of the earliest index with an edge to its index. -/
theorem WellFormed.parentAt_iff {g : DGraph T} (h : g.WellFormed) (os : List (Fin g.Size))
    (x : Fin g.Size) (k : Nat) :
    ParentAt g (os.map g.label) (g.label x) k ↔ FirstEdgeAt g os x k := by
  unfold ParentAt FirstEdgeAt
  constructor
  · rintro ⟨⟨p, hp, he⟩, hm⟩
    rw [List.getElem?_map] at hp
    obtain ⟨pi, hpi, rfl⟩ := Option.map_eq_some'.mp hp
    refine ⟨⟨pi, hpi, (h.hasEdge_label pi x).mp he⟩, ?_⟩
    intro j p1 hj hp1 he1
    have := hm j (g.label p1) hj (by rw [List.getElem?_map, hp1]; rfl)
    rw [(h.hasEdge_label p1 x).mpr he1] at this
    exact Bool.noConfusion this
  · rintro ⟨⟨p, hp, he⟩, hm⟩
    refine ⟨⟨g.label p, by rw [List.getElem?_map, hp]; rfl, (h.hasEdge_label p x).mpr he⟩, ?_⟩
    intro j p1 hj hp1
    rw [List.getElem?_map] at hp1
    obtain ⟨pi, hpi, rfl⟩ := Option.map_eq_some'.mp hp1
    cases he1 : g.HasEdge (g.label pi) (g.label x) with
    | false => rfl
    | true => exact absurd ((h.hasEdge_label pi x).mp he1) (hm j pi hj hpi)

/-- C25. For a well-formed graph and a present start vertex, `BFS(start)`
returns a list `order` in which every vertex other than the start has a
parent, the earliest vertex of `order` with an edge to it, and for two
vertices `x`, `y` other than the start, at the positions `i` and `j` of
`order`, with parents at the positions `kx` and `ky` and with the vertex
indices `ix` and `iy`: `x` stands before `y` exactly when `(kx, ix)` is
lexicographically smaller than `(ky, iy)`.  So vertices with the same parent
stand in ascending index order. -/
theorem BFS_order_by_parent_then_index (g : DGraph T) (h : g.WellFormed) (start : T)
    (hs : g.HasVert start = true) :
    ∃ order : List T, g.BFS start = .ok order ∧
      (∀ x ∈ order, x ≠ start → ∃ k, ParentAt g order x k) ∧
      (∀ (i j : Nat) (x y : T) (kx ky ix iy : Nat),
        order[i]? = some x → order[j]? = some y → x ≠ start → y ≠ start →
        ParentAt g order x kx → ParentAt g order y ky →
        g.indexMap x = some ix → g.indexMap y = some iy →
        (i < j ↔ kx < ky ∨ (kx = ky ∧ ix < iy))) ∧
      (∀ (i j : Nat) (x y : T) (k ix iy : Nat),
        order[i]? = some x → order[j]? = some y → x ≠ start → y ≠ start →
        ParentAt g order x k → ParentAt g order y k →
        g.indexMap x = some ix → g.indexMap y = some iy → ix < iy → i < j) := by
  obtain ⟨s, hsi, hsl⟩ := h.startIndex_of_hasVert hs
  obtain ⟨os, heq, hnd, hpar, hord⟩ := bfs_index_order g s
  have hmain : ∀ (i j : Nat) (x y : T) (kx ky ix iy : Nat),
      (os.map g.label)[i]? = some x → (os.map g.label)[j]? = some y → x ≠ start → y ≠ start →
      ParentAt g (os.map g.label) x kx → ParentAt g (os.map g.label) y ky →
      g.indexMap x = some ix → g.indexMap y = some iy →
      (i < j ↔ kx < ky ∨ (kx = ky ∧ ix < iy)) := by
    intro i j x y kx ky ix iy hi hj hxs hys hkx hky hix hiy
    rw [List.getElem?_map] at hi hj
    obtain ⟨xi, hxi, rfl⟩ := Option.map_eq_some'.mp hi
    obtain ⟨yi, hyi, rfl⟩ := Option.map_eq_some'.mp hj
    have e1 : ix = xi.val := by
      rw [h.indexMap_label] at hix
      exact (Option.some.inj hix).symm
    have e2 : iy = yi.val := by
      rw [h.indexMap_label] at hiy
      exact (Option.some.inj hiy).symm
    rw [e1, e2]
    have := hord i j xi yi kx ky hxi hyi (fun e => hxs (e ▸ hsl)) (fun e => hys (e ▸ hsl))
      ((h.parentAt_iff os xi kx).mp hkx) ((h.parentAt_iff os yi ky).mp hky)
    rw [this]
    rfl
  refine ⟨os.map g.label, by unfold BFS; rw [hsi]; exact congrArg Except.ok heq, ?_, hmain, ?_⟩
  · intro x hx hxs
    obtain ⟨xi, hxi, rfl⟩ := List.mem_map.mp hx
    obtain ⟨k, hk⟩ := hpar xi hxi (fun e => hxs (e ▸ hsl))
    exact ⟨k, (h.parentAt_iff os xi k).mpr hk⟩
  · intro i j x y k ix iy hi hj hxs hys hkx hky hix hiy hlt
    exact (hmain i j x y k k ix iy hi hj hxs hys hkx hky hix hiy).mpr (Or.inr ⟨rfl, hlt⟩)

/-- On the graph `A -> B`, `A -> C`, `B -> D`, `C -> E` the call `BFS(A)`
returns `A, B, C, D, E`, and the general statement applies to it. -/
theorem BFS_order_by_parent_then_index_witness :
    branching.WellFormed ∧ branching.HasVert "A" = true ∧
    branching.BFS "A" = .ok ["A", "B", "C", "D", "E"] ∧
    ∃ order : List String, branching.BFS "A" = .ok order ∧
      (∀ x ∈ order, x ≠ "A" → ∃ k, ParentAt branching order x k) ∧
      (∀ (i j : Nat) (x y : String) (kx ky ix iy : Nat),
        order[i]? = some x → order[j]? = some y → x ≠ "A" → y ≠ "A" →
        ParentAt branching order x kx → ParentAt branching order y ky →
        branching.indexMap x = some ix → branching.indexMap y = some iy →
        (i < j ↔ kx < ky ∨ (kx = ky ∧ ix < iy))) ∧
      (∀ (i j : Nat) (x y : String) (k ix iy : Nat),
        order[i]? = some x → order[j]? = some y → x ≠ "A" → y ≠ "A" →
        ParentAt branching order x k → ParentAt branching order y k →
        branching.indexMap x = some ix → branching.indexMap y = some iy → ix < iy → i < j) :=
  ⟨branching_wellFormed, by rfl, BFS_branching,
    BFS_order_by_parent_then_index branching branching_wellFormed "A" (by rfl)⟩

/-- Under the invariant a checked read at two indices below `Size()` finds the cell. -/
theorem WellFormed.readCell_eq {g : DGraph T} (h : g.WellFormed) {u v : Nat}
    (hu : u < g.Size) (hv : v < g.Size) : g.readCell u v = some (g.cell u v) := by
  have hu1 : u < g.adj.length := by rw [h.rows]; exact hu
  have hlen : g.adj[u].length = g.Size := h.cols _ (List.getElem_mem hu1)
  have hv1 : v < g.adj[u].length := by rw [hlen]; exact hv
  unfold readCell cell
  rw [List.getElem?_eq_getElem hu1]
  simp only [List.getD_eq_getElem?_getD, List.getElem?_eq_getElem hu1, Option.getD_some,
    List.getElem?_eq_getElem hv1]

theorem WellFormed.readCell_fin {g : DGraph T} (h : g.WellFormed) (u v : Fin g.Size) :
    g.readCell u v = some (g.cell u v) :=
  h.readCell_eq u.isLt v.isLt

theorem WellFormed.writeCell_eq {g : DGraph T} (h : g.WellFormed) {u v : Nat}
    (hu : u < g.Size) (hv : v < g.Size) (w : Int) :
    writeCell g.adj u v w = some (setCell g.adj u v w) := by
  have hu1 : u < g.adj.length := by rw [h.rows]; exact hu
  have hlen : g.adj[u].length = g.Size := h.cols _ (List.getElem_mem hu1)
  have hv1 : v < g.adj[u].length := by rw [hlen]; exact hv
  unfold writeCell setCell
  rw [List.getElem?_eq_getElem hu1]
  simp only [hv1, if_true, List.getD_eq_getElem?_getD, List.getElem?_eq_getElem hu1,
    Option.getD_some]

theorem eraseColumn_eq (idx : Nat) (rows : List (List Int))
    (h : ∀ row ∈ rows, idx < row.length) :
    eraseColumn idx rows = some (rows.map (fun row => row.eraseIdx idx)) := by
  induction rows with
  | nil => rfl
  | cons row rows ih =>
    have h1 : idx < row.length := h row (List.mem_cons_self _ _)
    have h2 := ih (fun r hr => h r (List.mem_cons_of_mem _ hr))
    simp only [eraseColumn, eraseChecked, h1, if_true, h2, List.map_cons]

theorem rebuildIndexChecked_eq [DecidableEq T] (vs : List T) :
    rebuildIndexChecked vs = some (rebuildIndex vs) := by
  unfold rebuildIndexChecked rebuildIndex
  have key : ∀ n, n ≤ vs.length →
      (List.range n).foldl (indexStepChecked vs) (some (fun _ => none))
        = some ((List.range n).foldl (indexStep vs) (fun _ => none)) := by
    intro n
    induction n with
    | zero => intro _; rfl
    | succ n ih =>
      intro hn
      have hlt : n < vs.length := hn
      rw [List.range_succ, List.foldl_append, List.foldl_append, ih (Nat.le_of_lt hlt)]
      simp only [List.foldl_cons, List.foldl_nil, indexStepChecked, indexStep,
        List.getElem?_eq_getElem hlt]
  exact key _ (le_refl _)

/-- A checked loop whose iterations all succeed returns what the unchecked
loop computes. -/
theorem foldlM_ok {α β : Type} (f : β → α → Except GraphError β) (f0 : β → α → β)
    (l : List α) (hf : ∀ b, ∀ a ∈ l, f b a = .ok (f0 b a)) (b : β) :
    l.foldlM f b = .ok (l.foldl f0 b) := by
  induction l generalizing b with
  | nil => rfl
  | cons a l ih =>
    rw [List.foldlM_cons, hf b a (List.mem_cons_self _ _), List.foldl_cons]
    exact ih (fun b1 a1 ha1 => hf b1 a1 (List.mem_cons_of_mem _ ha1)) _

theorem WellFormed.neighborStepChecked_eq {g : DGraph T} (h : g.WellFormed) {idx : Nat}
    (hidx : idx < g.Size) (acc : List T) (j : Fin g.Size) :
    neighborStepChecked g idx acc j = .ok (neighborStep g idx acc j) := by
  unfold neighborStepChecked neighborStep
  rw [h.readCell_eq hidx j.isLt, h.readCell_eq j.isLt hidx]
  simp only
  split
  · rfl
  · split <;> rfl

theorem WellFormed.bfsPushChecked_eq {g : DGraph T} (h : g.WellFormed) (u : Fin g.Size)
    (visited : Fin g.Size → Bool) (st : List (Fin g.Size) × (Fin g.Size → Bool))
    (v : Fin g.Size) :
    bfsPushChecked g u visited st v = .ok (bfsPush g u visited st v) := by
  unfold bfsPushChecked bfsPush
  rw [h.readCell_fin u v]
  simp only
  split <;> rfl

theorem WellFormed.bfsScanChecked_eq {g : DGraph T} (h : g.WellFormed) (u : Fin g.Size)
    (visited : Fin g.Size → Bool) (q : List (Fin g.Size)) (inq : Fin g.Size → Bool) :
    bfsScanChecked g u visited q inq = .ok (bfsScan g u visited q inq) :=
  foldlM_ok _ _ _ (fun st v _ => h.bfsPushChecked_eq u visited st v) _

theorem WellFormed.bfsLoopChecked_eq {g : DGraph T} (h : g.WellFormed) :
    ∀ (m : Nat) (q : List (Fin g.Size)) (visited inq : Fin g.Size → Bool) (order : List T),
      q.length + unmarked inq = m →
      bfsLoopChecked g q visited inq order = .ok (bfsLoop g q visited inq order) := by
  intro m
  induction m using Nat.strong_induction_on with
  | _ m ih =>
    intro q visited inq order hm
    cases q with
    | nil => rw [bfsLoopChecked, bfsLoop]
    | cons u rest =>
      rw [bfsLoopChecked, bfsLoop]
      by_cases hv : visited u = true
      · simp only [hv, if_true]
        exact ih _ (by rw [← hm]; simp) _ _ _ _ rfl
      · simp only [hv, if_false]
        have hvf : visited u = false := by simpa using hv
        simp only [hvf, Bool.false_eq_true, if_false]
        have hscan := h.bfsScanChecked_eq u (Function.update visited u true) rest inq
        have hmeas := bfsScan_measure g u (Function.update visited u true) rest inq
        split
        · rename_i e he
          rw [hscan] at he
          exact Except.noConfusion he
        · rename_i st hst
          rw [hscan] at hst
          simp only [Except.ok.injEq] at hst
          subst hst
          exact ih _ (by rw [hmeas, ← hm]; simp) _ _ _ _ rfl

theorem foldl_push_filter {α : Type} (c : α → Bool) (l : List α) (acc : List α) :
    l.foldl (fun a v => if c v = true then a ++ [v] else a) acc = acc ++ l.filter c := by
  induction l generalizing acc with
  | nil => simp
  | cons v l ih =>
    rw [List.foldl_cons, ih]
    by_cases hc : c v = true
    · simp [hc]
    · simp [hc]

theorem WellFormed.dfsScanChecked_eq {g : DGraph T} (h : g.WellFormed) (u : Fin g.Size)
    (visited : Fin g.Size → Bool) :
    dfsScanChecked g u visited = .ok (dfsPushed g u visited) := by
  unfold dfsScanChecked dfsPushed
  rw [foldlM_ok (dfsPushChecked g u visited)
    (fun a v => if (decide (g.cell u v ≠ g.INF) && !visited v) = true then a ++ [v] else a)]
  · rw [foldl_push_filter]
    rfl
  · intro acc v _
    unfold dfsPushChecked
    rw [h.readCell_fin u v]
    simp only
    by_cases hc : g.cell u v ≠ g.INF ∧ visited v = false
    · rw [if_pos hc, if_pos (by simpa using hc)]
    · rw [if_neg hc, if_neg (by simpa using hc)]

theorem WellFormed.dfsLoopChecked_eq {g : DGraph T} (h : g.WellFormed)
    (st : List (Fin g.Size)) (visited : Fin g.Size → Bool) (order : List T) :
    dfsLoopChecked g st visited order = .ok (dfsLoop g st visited order) := by
  induction st, visited, order using dfsLoop.induct g with
  | case1 visited order => rw [dfsLoopChecked, dfsLoop]
  | case2 visited order u rest hv ih =>
    rw [dfsLoopChecked, dfsLoop]
    simp only [hv, dite_true]
    exact ih
  | case3 visited order u rest hv ih =>
    rw [dfsLoopChecked, dfsLoop]
    simp only [hv, dite_false]
    rw [h.dfsScanChecked_eq]
    exact ih

theorem WellFormed.relaxEdgeChecked_eq {g : DGraph T} (h : g.WellFormed)
    (add : Int → Int → Int) (u : Fin g.Size) (dist : Fin g.Size → Int) (v : Fin g.Size) :
    relaxEdgeChecked g add u dist v = .ok (relaxEdge g add dist u v) := by
  unfold relaxEdgeChecked relaxEdge
  rw [h.readCell_fin u v]
  simp only
  split
  · split <;> rfl
  · rfl

theorem WellFormed.relaxRowChecked_eq {g : DGraph T} (h : g.WellFormed)
    (add : Int → Int → Int) (dist : Fin g.Size → Int) (u : Fin g.Size) :
    relaxRowChecked g add dist u = .ok (relaxRow g add dist u) :=
  foldlM_ok _ _ _ (fun d v _ => h.relaxEdgeChecked_eq add u d v) _

theorem WellFormed.relaxPassChecked_eq {g : DGraph T} (h : g.WellFormed)
    (add : Int → Int → Int) (dist : Fin g.Size → Int) :
    relaxPassChecked g add dist = .ok (relaxPass g add dist) :=
  foldlM_ok _ _ _ (fun d u _ => h.relaxRowChecked_eq add d u) _

theorem WellFormed.relaxPassesChecked_eq {g : DGraph T} (h : g.WellFormed)
    (add : Int → Int → Int) (k : Nat) (dist : Fin g.Size → Int) :
    relaxPassesChecked g add k dist = .ok (relaxPasses g add k dist) := by
  induction k generalizing dist with
  | zero => rfl
  | succ k ih =>
    rw [relaxPassesChecked, relaxPasses, h.relaxPassChecked_eq]
    exact ih _

/-- A loop that throws `e` at the first element passing the test `c` and does
nothing else. -/
theorem foldlM_throw {α : Type} (f : Unit → α → Except GraphError Unit) (c : α → Bool)
    (e : GraphError) (l : List α)
    (hf : ∀ a ∈ l, f () a = if c a = true then .error e else .ok ()) :
    l.foldlM f () = if l.any c = true then .error e else .ok () := by
  induction l with
  | nil => rfl
  | cons a l ih =>
    rw [List.foldlM_cons, hf a (List.mem_cons_self _ _)]
    by_cases hc : c a = true
    · simp only [hc, if_true, List.any_cons, Bool.true_or]
      rfl
    · have hcf : c a = false := by simpa using hc
      simp only [hcf, Bool.false_eq_true, if_false, List.any_cons, Bool.false_or]
      exact ih (fun a1 ha1 => hf a1 (List.mem_cons_of_mem _ ha1))

theorem WellFormed.checkPassChecked_eq {g : DGraph T} (h : g.WellFormed)
    (add : Int → Int → Int) (dist : Fin g.Size → Int) :
    checkPassChecked g add dist
      = if improvable g add dist = true then .error .NegativeCycle else .ok () := by
  unfold checkPassChecked improvable
  apply foldlM_throw
  intro u _
  apply foldlM_throw
  intro v _
  unfold checkEdgeChecked
  rw [h.readCell_fin u v]
  simp only
  by_cases hc : g.cell u v ≠ g.INF ∧ dist u ≠ g.INF ∧ dist v > add (dist u) (g.cell u v)
  · rw [if_pos hc, if_pos (by simpa using hc)]
  · rw [if_neg hc, if_neg (by simpa using hc)]

/-- C28. In a state that satisfies the representation invariant, every
operation run with checked subscripts (a matrix read, a matrix write or an
erase outside the stored data fails with `OutOfRange`, as does a start index
outside the work vectors) returns exactly what the operation returns without
checks, for every argument, and never fails with `OutOfRange`: `HasEdge`,
`GetEdge`, `GetWeight`, `AddE`, `DeleteE`, `DeleteV`, `GetNeighbors`, `BFS`,
`DFS` and `BellmanFord`. -/
theorem no_out_of_range_access [DecidableEq T] (g : DGraph T) (h : g.WellFormed) :
    (∀ a b, g.HasEdgeChecked a b = .ok (g.HasEdge a b)) ∧
    (∀ a b, g.GetEdgeChecked a b = g.GetEdge a b ∧
      g.GetEdgeChecked a b ≠ .error .OutOfRange) ∧
    (∀ a b, g.GetWeightChecked a b = g.GetWeight a b ∧
      g.GetWeightChecked a b ≠ .error .OutOfRange) ∧
    (∀ a b w, g.AddEChecked a b w = g.AddE a b w ∧
      g.AddEChecked a b w ≠ .error .OutOfRange) ∧
    (∀ a b, g.DeleteEChecked a b = g.DeleteE a b ∧
      g.DeleteEChecked a b ≠ .error .OutOfRange) ∧
    (∀ x, g.DeleteVChecked x = g.DeleteV x ∧ g.DeleteVChecked x ≠ .error .OutOfRange) ∧
    (∀ x, g.GetNeighborsChecked x = g.GetNeighbors x ∧
      g.GetNeighborsChecked x ≠ .error .OutOfRange) ∧
    (∀ s, g.BFSChecked s = g.BFS s ∧ g.BFSChecked s ≠ .error .OutOfRange) ∧
    (∀ s, g.DFSChecked s = g.DFS s ∧ g.DFSChecked s ≠ .error .OutOfRange) ∧
    (∀ add s, g.BellmanFordChecked add s = g.BellmanFord add s ∧
      g.BellmanFordChecked add s ≠ .error .OutOfRange) := by
  have hget : ∀ a b, g.GetEdgeChecked a b = g.GetEdge a b ∧
      g.GetEdgeChecked a b ≠ .error .OutOfRange := by
    intro a b
    unfold GetEdgeChecked GetEdge
    cases ha : g.indexMap a with
    | none => simp
    | some u =>
      cases hb : g.indexMap b with
      | none => simp
      | some v =>
        simp only [h.readCell_eq (h.index_lt ha) (h.index_lt hb)]
        split <;> simp
  have hadd : ∀ a b w, g.AddEChecked a b w = g.AddE a b w ∧
      g.AddEChecked a b w ≠ .error .OutOfRange := by
    intro a b w
    unfold AddEChecked AddE
    cases ha : g.indexMap a with
    | none => simp
    | some u =>
      cases hb : g.indexMap b with
      | none => simp
      | some v =>
        simp only [h.writeCell_eq (h.index_lt ha) (h.index_lt hb)]
        simp
  have hstart : ∀ s e, g.startIndex s = .error e → e ≠ .OutOfRange := by
    intro s e he heq
    exact h.startIndex_in_range s (heq ▸ he)
  refine ⟨?_, hget, hget, hadd, fun a b => hadd a b g.INF, ?_, ?_, ?_, ?_, ?_⟩
  · intro a b
    unfold HasEdgeChecked HasEdge
    cases ha : g.indexMap a with
    | none => simp
    | some u =>
      cases hb : g.indexMap b with
      | none => simp
      | some v => simp only [h.readCell_eq (h.index_lt ha) (h.index_lt hb)]
  · intro x
    unfold DeleteVChecked
    cases hx : g.indexMap x with
    | none =>
      rw [deleteV_of_absent g x hx]
      simp
    | some k =>
      have hk : k < g.vertices.length := h.index_lt hx
      have hk1 : k < g.adj.length := by rw [h.rows]; exact hk
      have hcols : ∀ row ∈ g.adj.eraseIdx k, k < row.length := by
        intro row hrow
        rw [h.cols row ((List.eraseIdx_sublist _ _).subset hrow)]
        exact hk
      rw [deleteV_eq hx]
      simp only [eraseChecked, hk, hk1, if_true, eraseColumn_eq k _ hcols,
        rebuildIndexChecked_eq]
      simp
  · intro x
    unfold GetNeighborsChecked GetNeighbors
    cases hx : g.indexMap x with
    | none => simp
    | some idx =>
      simp only
      rw [foldlM_ok _ _ _ (fun acc j _ => h.neighborStepChecked_eq (h.index_lt hx) acc j)]
      simp
  · intro s
    unfold BFSChecked BFS
    cases hs : g.startIndex s with
    | error e => simpa using hstart s e hs
    | ok i =>
      simp only
      rw [h.bfsLoopChecked_eq _ _ _ _ _ rfl]
      simp
  · intro s
    unfold DFSChecked DFS
    cases hs : g.startIndex s with
    | error e => simpa using hstart s e hs
    | ok i =>
      simp only
      rw [h.dfsLoopChecked_eq]
      simp
  · intro add s
    unfold BellmanFordChecked BellmanFord bfDist
    cases hs : g.startIndex s with
    | error e => simpa using hstart s e hs
    | ok i =>
      simp only
      rw [h.relaxPassesChecked_eq]
      simp only
      rw [h.checkPassChecked_eq]
      cases hi : improvable g add (relaxPasses g add (g.Size - 1) (Function.update (fun _ => g.INF) i 0))
      · simp
      · simp

/-- On the graph `A -> B : 5`, `A -> C : 2`, `C -> B : -3` the checked
operations agree with the unchecked ones, as the general statement says. -/
theorem no_out_of_range_access_witness :
    negEdges.WellFormed ∧
    negEdges.BellmanFordChecked dblAdd "A" = .ok [0, -1, 2] ∧
    (∀ a b, negEdges.HasEdgeChecked a b = .ok (negEdges.HasEdge a b)) ∧
    (∀ a b, negEdges.GetEdgeChecked a b = negEdges.GetEdge a b ∧
      negEdges.GetEdgeChecked a b ≠ .error .OutOfRange) ∧
    (∀ a b, negEdges.GetWeightChecked a b = negEdges.GetWeight a b ∧
      negEdges.GetWeightChecked a b ≠ .error .OutOfRange) ∧
    (∀ a b w, negEdges.AddEChecked a b w = negEdges.AddE a b w ∧
      negEdges.AddEChecked a b w ≠ .error .OutOfRange) ∧
    (∀ a b, negEdges.DeleteEChecked a b = negEdges.DeleteE a b ∧
      negEdges.DeleteEChecked a b ≠ .error .OutOfRange) ∧
    (∀ x, negEdges.DeleteVChecked x = negEdges.DeleteV x ∧
      negEdges.DeleteVChecked x ≠ .error .OutOfRange) ∧
    (∀ x, negEdges.GetNeighborsChecked x = negEdges.GetNeighbors x ∧
      negEdges.GetNeighborsChecked x ≠ .error .OutOfRange) ∧
    (∀ s, negEdges.BFSChecked s = negEdges.BFS s ∧
      negEdges.BFSChecked s ≠ .error .OutOfRange) ∧
    (∀ s, negEdges.DFSChecked s = negEdges.DFS s ∧
      negEdges.DFSChecked s ≠ .error .OutOfRange) ∧
    (∀ add s, negEdges.BellmanFordChecked add s = negEdges.BellmanFord add s ∧
      negEdges.BellmanFordChecked add s ≠ .error .OutOfRange) :=
  ⟨ofMatrix_wellFormed _ _ _ (by decide) (by decide) (by decide), by rfl,
    no_out_of_range_access negEdges
      (ofMatrix_wellFormed _ _ _ (by decide) (by decide) (by decide))⟩

/-- Without the invariant the checked operations do fail: on a matrix with a
short row the reads `adj[0][1]` of `HasEdge(A, B)` and of `BFS(A)` leave the
stored data. -/
theorem checked_fails_on_ragged :
    raggedRow.HasEdgeChecked "A" "B" = .error .OutOfRange ∧
    raggedRow.GetWeightChecked "A" "B" = .error .OutOfRange ∧
    raggedRow.AddEChecked "A" "B" 3 = .error .OutOfRange ∧
    raggedRow.GetNeighborsChecked "A" = .error .OutOfRange ∧
    raggedRow.BellmanFordChecked dblAdd "A" = .error .OutOfRange :=
  ⟨by rfl, by rfl, by rfl, by rfl, by rfl⟩

theorem singleA_built : built 1000000000 ["A"] [] = .ok singleA := by rfl

theorem singleA_wellFormed : singleA.WellFormed :=
  ofMatrix_wellFormed _ _ _ (by decide) (by decide) (by decide)

set_option maxRecDepth 100000 in
/-- The lines of the file that `saveGraphML` writes for the single vertex `A`. -/
theorem getLines_save_singleA (showW : Int → List Char) :
    getLines (saveGraphML showW singleA) =
      ["<?xml version=\"1.0\" encoding=\"UTF-8\"?>".data,
       "<graphml xmlns=\"http://graphml.graphdrawing.org/xmlns\"".data,
       "         xmlns:xsi=\"http://www.w3.org/2001/XMLSchema-instance\"".data,
       "         xsi:schemaLocation=\"http://graphml.graphdrawing.org/xmlns".data,
       "         http://graphml.graphdrawing.org/xmlns/1.0/graphml.xsd\">".data,
       "  <graph id=\"G\" edgedefault=\"directed\">".data,
       "    <node id=\"n0\" name = \"A\"</node>".data,
       "  </graph>".data,
       "</graphml>".data] := by
  rfl

set_option maxRecDepth 100000 in
/-- The texts `1.0`, `7`, `-3`, `+7` and ` 12` write whole numbers; `5.5`,
`1e3`, `abc` and the empty text do not, in the sense of `wholeW`. -/
theorem wholeW_examples :
    wholeW "1.0".data = some 1 ∧ wholeW "7".data = some 7 ∧ wholeW "-3".data = some (-3) ∧
    wholeW "+7".data = some 7 ∧ wholeW " 12".data = some 12 ∧ wholeW "5.5".data = none ∧
    wholeW "1e3".data = none ∧ wholeW "abc".data = none ∧ wholeW [] = none := by
  decide

set_option maxRecDepth 100000 in
/-- The model loads the file `chainFile` as the test of `loadGraphML` expects
of its large file: the vertices `n0`, `n1`, `n2` and the edges `n0 -> n1`,
`n1 -> n2` of weight `1`, whatever the container held. -/
theorem load_chainFile (g : DGraph String) :
    loadGraphML readWhole g (some chainFile)
      = (ofMatrix g.INF ["n0", "n1", "n2"]
          [[g.INF, 1, g.INF], [g.INF, g.INF, 1], [g.INF, g.INF, g.INF]], none) := by
  rfl

set_option maxRecDepth 100000 in
/-- C21 fails on the code.  For the well-formed graph with the single vertex
`A`, `saveGraphML` writes the node line `<node id="n0" name = "A"</node>`,
with blanks around `=`; `loadGraphML`, reading that text into an empty
container with the same sentinel, looks for `name="`, does not find it and
fails with `ParseError`, and the container stays empty.  The conversions of
the weight type play no part. -/
theorem saved_single_vertex_fails_to_load (showW : Int → List Char)
    (parseW : List Char → Int) :
    singleA.WellFormed ∧ singleA.vertices = ["A"] ∧
    "    <node id=\"n0\" name = \"A\"</node>".data ∈ getLines (saveGraphML showW singleA) ∧
    parseErrorLine "    <node id=\"n0\" name = \"A\"</node>".data = true ∧
    loadGraphML parseW (empty 1000000000) (some (saveGraphML showW singleA))
      = (empty 1000000000, some .ParseError) ∧
    (loadGraphML parseW (empty 1000000000) (some (saveGraphML showW singleA))).1.HasVert "A"
      = false := by
  refine ⟨singleA_wellFormed, rfl, ?_, by rfl, by rfl, by rfl⟩
  rw [getLines_save_singleA]
  simp

/-- An id that holds `=` or `<` without ending with `name=` is read as it
stands: the file with the one node line `<node id="a=b<c" name="A">` loads as
the graph with the single vertex `A`.  (The file has no edge line, so no
weight text is converted; a constant stands for the conversion.) -/
theorem load_id_with_equals :
    loadGraphML (fun _ => 0) (empty 1000000000) (some "<node id=\"a=b<c\" name=\"A\">\n".data)
      = (ofMatrix 1000000000 ["A"] [[1000000000]], none) := by
  rfl

/-- C23, as stated, fails: the container holds the vertex `A`, the file has
the one line `<node id="n0">`, the load fails with `ParseError`, and the
container is empty afterwards.  (The file has no edge line, so no weight text
is converted; a constant stands for the conversion.) -/
theorem failed_load_clears_counterexample :
    singleA.WellFormed ∧ singleA.vertices = ["A"] ∧
    parseErrorLine "<node id=\"n0\">".data = true ∧
    loadGraphML (fun _ => 0) singleA (some "<node id=\"n0\">\n".data)
      = (empty 1000000000, some .ParseError) ∧
    (loadGraphML (fun _ => 0) singleA (some "<node id=\"n0\">\n".data)).1.vertices
      ≠ singleA.vertices ∧
    (loadGraphML (fun _ => 0) singleA (some "<node id=\"n0\">\n".data)).1.HasVert "A" = false := by
  refine ⟨singleA_wellFormed, rfl, by rfl, by rfl, by decide, by rfl⟩

theorem attrValue_isSome (pat : List Char) (skip : Nat) (line : List Char) :
    (attrValue pat skip line).isSome = (strFind pat line).isSome := by
  unfold attrValue
  cases strFind pat line <;> rfl

theorem attrValue_isNone (pat : List Char) (skip : Nat) (line : List Char) :
    (attrValue pat skip line).isNone = (strFind pat line).isNone := by
  unfold attrValue
  cases strFind pat line <;> rfl

/-- The loop body throws the parse error exactly on the lines described by
`parseErrorLine`, whatever the state. -/
theorem loadLine_parseError_iff (parseW : List Char → Int) (st : LoadState)
    (line : List Char) :
    loadLine parseW st line = .error .ParseError ↔ parseErrorLine line = true := by
  have hid := attrValue_isSome "id=\"".data 4 line
  have hname := attrValue_isNone "name=\"".data 6 line
  have hsrc := attrValue_isSome "source=\"".data 8 line
  have htgt := attrValue_isSome "target=\"".data 8 line
  have hw := attrValue_isNone "weight=\"".data 8 line
  unfold loadLine parseErrorLine
  rw [← hid, ← hname, ← hsrc, ← htgt, ← hw]
  generalize (strFind "<node".data line).isSome = bn
  generalize (strFind "<edge".data line).isSome = be
  generalize attrValue "id=\"".data 4 line = aid
  generalize attrValue "name=\"".data 6 line = aname
  generalize attrValue "source=\"".data 8 line = asrc
  generalize attrValue "target=\"".data 8 line = atgt
  generalize attrValue "weight=\"".data 8 line = aw
  cases bn
  · cases be
    · simp
    · cases asrc with
      | none => simp
      | some s1 =>
        cases atgt with
        | none => simp
        | some t1 =>
          cases aw with
          | none => simp
          | some w1 =>
            simp only [Bool.false_eq_true, if_false, if_true, Option.isSome_some,
              Option.isNone_some, Bool.and_false]
            constructor
            · intro h
              split at h
              · split at h
                · split at h <;> exact absurd h (by simp)
                · exact absurd h (by simp)
              · exact absurd h (by simp)
            · intro h
              exact absurd h (by simp)
  · cases aid with
    | none => simp
    | some xmlId =>
      cases aname with
      | none => simp
      | some value =>
        simp only [if_true, Option.isSome_some, Option.isNone_some, Bool.and_false]
        constructor
        · intro h
          split at h <;> exact absurd h (by simp)
        · intro h
          exact absurd h (by simp)

/-- A failing run of the loop stops at the first line that throws, in the
state that the lines before it built. -/
theorem loadLines_error (parseW : List Char → Int) (lines : List (List Char)) :
    ∀ (st st2 : LoadState) (e : LoadError), loadLines parseW st lines = (st2, some e) →
      ∃ pre bad rest, lines = pre ++ bad :: rest ∧ loadLines parseW st pre = (st2, none) ∧
        loadLine parseW st2 bad = .error e := by
  induction lines with
  | nil =>
    intro st st2 e h
    simp [loadLines] at h
  | cons line rest ih =>
    intro st st2 e h
    rw [loadLines] at h
    cases hl : loadLine parseW st line with
    | error e1 =>
      rw [hl] at h
      simp only [Prod.mk.injEq, Option.some.injEq] at h
      obtain ⟨h1, h2⟩ := h
      subst h1 h2
      exact ⟨[], line, rest, rfl, rfl, hl⟩
    | ok st1 =>
      rw [hl] at h
      obtain ⟨pre, bad, rest1, h1, h2, h3⟩ := ih st1 st2 e h
      refine ⟨line :: pre, bad, rest1, by rw [h1]; rfl, ?_, h3⟩
      rw [loadLines, hl]
      exact h2

/-- C23, amended.  When `loadGraphML` fails with `ParseError`, the lines of
the file split into the lines before the first line that throws, that line
(one described by `parseErrorLine`), and the rest; the container after the
call is the one that loading the lines before it alone builds, and that is
what they build in an empty container with the same sentinel: nothing of
the earlier content is kept or restored.  When the file cannot be opened,
the call fails with `IOFailure` and the container is as it was. -/
theorem failed_load_keeps_lines_before (parseW : List Char → Int) (g g2 : DGraph String)
    (text : List Char) (h : loadGraphML parseW g (some text) = (g2, some .ParseError)) :
    (∃ pre bad rest, getLines text = pre ++ bad :: rest ∧ parseErrorLine bad = true ∧
      loadFrom parseW g pre = (g2, none) ∧
      loadFrom parseW (empty g.INF) pre = (g2, none)) ∧
    loadGraphML parseW g none = (g, some .IOFailure) := by
  refine ⟨?_, rfl⟩
  unfold loadGraphML loadFrom at h
  simp only [Prod.mk.injEq] at h
  obtain ⟨h1, h2⟩ := h
  obtain ⟨pre, bad, rest, hsplit, hpre, hbad⟩ := loadLines_error parseW (getLines text) _ _ _
    (Prod.ext rfl h2 : loadLines parseW _ (getLines text) = (_, some LoadError.ParseError))
  refine ⟨pre, bad, rest, hsplit, (loadLine_parseError_iff parseW _ bad).mp hbad, ?_, ?_⟩
  · unfold loadFrom
    rw [hpre, h1]
  · unfold loadFrom
    exact (by rw [hpre, h1] : ((loadLines parseW _ pre).1.g, (loadLines parseW _ pre).2)
      = (g2, none))

set_option maxRecDepth 100000 in
/-- The container holds `A`, `B`, `C`; the file has a node line for `X` and
then a node line without `name`.  The load fails with `ParseError` and leaves
the container with the single vertex `X`, as the general statement says; a
container whose file cannot be opened stays as it is.  (The file has no edge
line, so no weight text is converted; a constant stands for the conversion.) -/
theorem failed_load_keeps_lines_before_witness :
    negEdges.vertices = ["A", "B", "C"] ∧
    loadGraphML (fun _ => 0) negEdges
        (some "<node id=\"n0\" name=\"X\">\n<node id=\"n1\">\n".data)
      = (ofMatrix 1000000000 ["X"] [[1000000000]], some .ParseError) ∧
    (∃ pre bad rest,
      getLines "<node id=\"n0\" name=\"X\">\n<node id=\"n1\">\n".data = pre ++ bad :: rest ∧
      parseErrorLine bad = true ∧
      loadFrom (fun _ => 0) negEdges pre = (ofMatrix 1000000000 ["X"] [[1000000000]], none) ∧
      loadFrom (fun _ => 0) (empty negEdges.INF) pre
        = (ofMatrix 1000000000 ["X"] [[1000000000]], none)) ∧
    loadGraphML (fun _ => 0) negEdges none = (negEdges, some .IOFailure) :=
  ⟨by rfl, by rfl,
    failed_load_keeps_lines_before (fun _ => 0) negEdges
      (ofMatrix 1000000000 ["X"] [[1000000000]])
      "<node id=\"n0\" name=\"X\">\n<node id=\"n1\">\n".data (by rfl)⟩

theorem startsWith_cons (p : Char) (ps : List Char) (c : Char) (cs : List Char) :
    startsWith (p :: ps) (c :: cs) = (p == c && startsWith ps cs) := rfl

theorem strFind_cons_of_not (pat : List Char) (c : Char) (cs : List Char)
    (h : startsWith pat (c :: cs) = false) :
    strFind pat (c :: cs) = (strFind pat cs).map (· + 1) := by
  simp [strFind, h]

/-- A text without the first character of the pattern is skipped by `find`. -/
theorem strFind_skip_char (p0 : Char) (ps X s : List Char) (h : p0 ∉ X) :
    strFind (p0 :: ps) (X ++ s) = (strFind (p0 :: ps) s).map (· + X.length) := by
  induction X with
  | nil => simp
  | cons c X ih =>
    have hc : p0 ≠ c := fun e => h (e ▸ List.mem_cons_self _ _)
    have hX : p0 ∉ X := fun hm => h (List.mem_cons_of_mem _ hm)
    rw [List.cons_append, strFind_cons_of_not _ _ _ (by simp [startsWith_cons, hc]), ih hX,
      Option.map_map]
    congr 1

theorem endsWith_false_of_last (body : List Char) (c : Char) (r : List Char)
    (hr : body.reverse = c :: r) (X : List Char) (h : c ∉ X) :
    endsWith body X = false := by
  unfold endsWith
  rw [hr]
  cases hX : X.reverse with
  | nil => rfl
  | cons z Z =>
    have hz : z ∈ X := by
      have : z ∈ X.reverse := by rw [hX]; exact List.mem_cons_self _ _
      simpa using this
    have hne : c ≠ z := fun e => h (e ▸ hz)
    simp [startsWith_cons, hne]

theorem dfsLoopTrace_of_fuel (g : DGraph T) (fuel : Nat) : ∀ (st : List (Fin g.Size))
    (visited : Fin g.Size → Bool) (t r : DfsTrace g),
    dfsLoopTraceFuel g fuel st visited t = some r → dfsLoopTrace g st visited t = r := by
  induction fuel with
  | zero => intro st visited t r h; simp [dfsLoopTraceFuel] at h
  | succ fuel ih =>
    intro st visited t r h
    cases st with
    | nil => rw [dfsLoopTrace]; simpa [dfsLoopTraceFuel] using h
    | cons u rest =>
      rw [dfsLoopTrace]
      simp only [dfsLoopTraceFuel] at h
      split
      · rename_i hv; rw [if_pos hv] at h; exact ih _ _ _ _ h
      · rename_i hv; rw [if_neg hv] at h; exact ih _ _ _ _ h

theorem unmarked_none (n : Nat) : unmarked (fun _ : Fin n => false) = n := by
  unfold unmarked
  simp

theorem length_dfsPushed_le (g : DGraph T) (u : Fin g.Size) (visited : Fin g.Size → Bool) :
    (dfsPushed g u visited).length ≤ g.Size := by
  unfold dfsPushed
  exact (List.length_filter_le _ _).trans (by simp)

/-- The recording loop builds the result of `dfsLoop`; every iteration pops
one entry, and the entries popped are those on the stack at the start and
those pushed; an iteration that visits a vertex marks one more vertex and
pushes at most `Size()` entries. -/
theorem dfsLoopTrace_spec (g : DGraph T) (st : List (Fin g.Size))
    (visited : Fin g.Size → Bool) (t : DfsTrace g) :
    (dfsLoopTrace g st visited t).order = dfsLoop g st visited t.order ∧
    (dfsLoopTrace g st visited t).pops + t.pushCounts.sum
      = t.pops + st.length + (dfsLoopTrace g st visited t).pushCounts.sum ∧
    (dfsLoopTrace g st visited t).pushCounts.length
      ≤ t.pushCounts.length + unmarked visited ∧
    (dfsLoopTrace g st visited t).order.length + t.pushCounts.length
      = t.order.length + (dfsLoopTrace g st visited t).pushCounts.length ∧
    ((∀ c ∈ t.pushCounts, c ≤ g.Size) →
      ∀ c ∈ (dfsLoopTrace g st visited t).pushCounts, c ≤ g.Size) := by
  induction st, visited, t using dfsLoopTrace.induct g with
  | case1 visited t =>
    rw [dfsLoopTrace, dfsLoop]
    exact ⟨rfl, by simp, by omega, by omega, fun h => h⟩
  | case2 visited t u rest hv ih =>
    rw [dfsLoopTrace, dfsLoop, dif_pos hv, dif_pos hv]
    obtain ⟨h1, h2, h3, h4, h5⟩ := ih
    refine ⟨h1, ?_, h3, h4, h5⟩
    simp only [List.length_cons] at h2 ⊢
    omega
  | case3 visited t u rest hv ih =>
    rw [dfsLoopTrace, dfsLoop, dif_neg hv, dif_neg hv]
    obtain ⟨h1, h2, h3, h4, h5⟩ := ih
    have hm := unmarked_update visited u (by simpa using hv)
    refine ⟨h1, ?_, ?_, ?_, ?_⟩
    · simp only [List.sum_append, List.sum_cons, List.sum_nil, List.length_append,
        List.length_reverse, List.length_cons] at h2 ⊢
      omega
    · simp only [List.length_append, List.length_singleton] at h3
      omega
    · simp only [List.length_append, List.length_singleton] at h4
      omega
    · intro hc
      apply h5
      intro c hcm
      rcases List.mem_append.mp hcm with hcm | hcm
      · exact hc c hcm
      · rw [List.mem_singleton.mp hcm]
        exact length_dfsPushed_le g u _

theorem sum_le_mul (l : List Nat) (n : Nat) (h : ∀ c ∈ l, c ≤ n) : l.sum ≤ l.length * n := by
  induction l with
  | nil => simp
  | cons c l ih =>
    have h1 := h c (List.mem_cons_self _ _)
    have h2 := ih (fun c1 hc1 => h c1 (List.mem_cons_of_mem _ hc1))
    simp only [List.sum_cons, List.length_cons, Nat.succ_mul]
    omega

/-- C31. For a well-formed graph with `n = Size()` vertices and a present
start vertex, the loop of `DFS(start)`, a total function by the measure
(number of unvisited vertices, stack size) and without fuel, returns after
`pops` iterations with the result of `DFS(start)`; as many iterations as the
result has elements visit a vertex, which is at most `n`; each of them pushes
at most `n` entries; the number of pops is one more than the number of
entries pushed by the neighbour loops, and at most `1 + n * n`. -/
theorem DFS_terminates_within_bound (g : DGraph T) (h : g.WellFormed) (start : T)
    (hs : g.HasVert start = true) :
    ∃ t : DfsTrace g, g.DFSTrace start = .ok t ∧ g.DFS start = .ok t.order ∧
      t.pushCounts.length = t.order.length ∧ t.pushCounts.length ≤ g.Size ∧
      (∀ c ∈ t.pushCounts, c ≤ g.Size) ∧
      t.pops = 1 + t.pushCounts.sum ∧ t.pops ≤ 1 + g.Size * g.Size := by
  obtain ⟨s, hsi, _⟩ := h.startIndex_of_hasVert hs
  obtain ⟨h1, h2, h3, h4, h5⟩ := dfsLoopTrace_spec g [s] (fun _ => false)
    { order := [], pops := 0, pushCounts := [] }
  simp only [List.sum_nil, List.length_nil, List.length_singleton, Nat.add_zero, Nat.zero_add,
    unmarked_none] at h2 h3 h4
  have h6 := h5 (by simp)
  have h7 := sum_le_mul _ _ h6
  have h8 := Nat.mul_le_mul_right g.Size h3
  refine ⟨_, by unfold DFSTrace; rw [hsi], ?_, h4.symm, h3, h6, h2, ?_⟩
  · unfold DFS
    rw [hsi]
    exact congrArg Except.ok h1.symm
  · omega

/-- The run of `DFS(A)` on the graph `A -> B : 5`, `A -> C : 2`, `C -> B : -3`:
`B` is pushed by `A` and again by `C`, so the loop pops four entries for
three vertices. -/
theorem DFSTrace_negEdges :
    negEdges.DFSTrace "A" = .ok { order := ["A", "C", "B"], pops := 4, pushCounts := [2, 1, 0] } := by
  have hs : negEdges.startIndex "A" = .ok ⟨0, by decide⟩ := by rfl
  unfold DFSTrace
  rw [hs]
  exact congrArg Except.ok (dfsLoopTrace_of_fuel negEdges 6 _ _ _ _ (by rfl))

/-- On the graph `A -> B : 5`, `A -> C : 2`, `C -> B : -3` the stack holds
`B` twice; the loop pops `4 ≤ 1 + 3 * 3` times, as the general statement says. -/
theorem DFS_terminates_within_bound_witness :
    negEdges.WellFormed ∧ negEdges.HasVert "A" = true ∧ negEdges.Size = 3 ∧
    negEdges.DFSTrace "A"
      = .ok { order := ["A", "C", "B"], pops := 4, pushCounts := [2, 1, 0] } ∧
    ∃ t : DfsTrace negEdges, negEdges.DFSTrace "A" = .ok t ∧ negEdges.DFS "A" = .ok t.order ∧
      t.pushCounts.length = t.order.length ∧ t.pushCounts.length ≤ negEdges.Size ∧
      (∀ c ∈ t.pushCounts, c ≤ negEdges.Size) ∧
      t.pops = 1 + t.pushCounts.sum ∧ t.pops ≤ 1 + negEdges.Size * negEdges.Size :=
  ⟨ofMatrix_wellFormed _ _ _ (by decide) (by decide) (by decide), by rfl, by rfl,
    DFSTrace_negEdges,
    DFS_terminates_within_bound negEdges
      (ofMatrix_wellFormed _ _ _ (by decide) (by decide) (by decide)) "A" (by rfl)⟩

theorem spacing_of_small (m : Nat) (h : m < 2 ^ 53) : spacing m = 1 := by
  unfold spacing
  cases m with
  | zero => rfl
  | succ k =>
    rw [spacingAux, Nat.div_one, if_pos h]

/-- A whole number below `2 ^ 53` in size is a double. -/
theorem roundDbl_of_small (x : Int) (h : x.natAbs < 2 ^ 53) : roundDbl x = x := by
  unfold roundDbl
  simp only [spacing_of_small _ h, Nat.div_one, Nat.mod_one, Nat.mul_zero, Nat.lt_one_iff,
    if_true, Nat.mul_one]
  exact Int.sign_mul_natAbs x

/-- The addition of `double` is exact when the sum is below `2 ^ 53` in size. -/
theorem dblAdd_of_small (a b : Int) (h1 : -(2 ^ 53) < a + b) (h2 : a + b < 2 ^ 53) :
    dblAdd a b = a + b := by
  unfold dblAdd
  apply roundDbl_of_small
  omega

/-- The addition of `double` is exact on numbers of size at most `K` and `M`
when `K + M < 2 ^ 53`. -/
theorem dblAdd_exact (K M : Int) (h : K + M < 2 ^ 53) : ExactAdd dblAdd K M := by
  intro a b h1 h2 h3 h4
  exact dblAdd_of_small a b (by omega) (by omega)

/-- The sums that round: `2 ^ 53 + 1` is halfway between the doubles `2 ^ 53`
and `2 ^ 53 + 2` and rounds to the even one, `2 ^ 53 + 3` rounds to
`2 ^ 53 + 4`, `2 ^ 54 - 1` rounds to `2 ^ 54`, and `10 ^ 18 + 65` to
`10 ^ 18 + 128`. -/
theorem dblAdd_rounds :
    dblAdd (2 ^ 53) 1 = 2 ^ 53 ∧ dblAdd (2 ^ 53) 2 = 2 ^ 53 + 2 ∧
    dblAdd (2 ^ 53) 3 = 2 ^ 53 + 4 ∧ dblAdd (2 ^ 53) (-1) = 2 ^ 53 - 1 ∧
    dblAdd (2 ^ 54) (-1) = 2 ^ 54 ∧ dblAdd (-(2 ^ 53)) (-1) = -(2 ^ 53) ∧
    dblAdd (10 ^ 18) 64 = 10 ^ 18 ∧ dblAdd (10 ^ 18) 65 = 10 ^ 18 + 128 := by
  decide

theorem relaxEdge_eq_exact (g : DGraph T) (add : Int → Int → Int) (K M B : Int)
    (hadd : ExactAdd add K M) (hM : WeightsWithin g M) (hB : B ≤ K)
    (d : Fin g.Size → Int) (hd : Within g B d) (u v : Fin g.Size) :
    relaxEdge g add d u v = relaxEdge g (· + ·) d u v := by
  unfold relaxEdge
  by_cases hc : g.cell u v ≠ g.INF ∧ d u ≠ g.INF
  · have h1 := hM u v hc.1
    have h2 := (hd u).resolve_left hc.2
    have e : add (d u) (g.cell u v) = d u + g.cell u v :=
      hadd _ _ (by omega) (by omega) h1.1 h1.2
    simp only [if_pos hc, e]
  · simp only [if_neg hc]

theorem within_mono (g : DGraph T) (B C : Int) (h : B ≤ C) (d : Fin g.Size → Int)
    (hd : Within g B d) : Within g C d := by
  intro x
  rcases hd x with h1 | h1
  · exact Or.inl h1
  · exact Or.inr (by omega)

theorem relaxEdge_within (g : DGraph T) (M B : Int) (hM0 : 0 ≤ M) (hM : WeightsWithin g M)
    (d : Fin g.Size → Int) (hd : Within g B d) (u v : Fin g.Size) :
    Within g (B + M) (relaxEdge g (· + ·) d u v) := by
  have hmono : Within g (B + M) d := within_mono g _ _ (by omega) d hd
  unfold relaxEdge
  beta_reduce
  by_cases hc : g.cell u v ≠ g.INF ∧ d u ≠ g.INF
  · have h1 := hM u v hc.1
    have h2 := (hd u).resolve_left hc.2
    rw [if_pos hc]
    split
    · intro x
      by_cases hx : x = v
      · subst hx
        rw [Function.update_same]
        exact Or.inr (by omega)
      · rw [Function.update_noteq hx]
        exact hmono x
    · exact hmono
  · rw [if_neg hc]
    exact hmono

/-- A run of relaxations over a list of cells: with exact sums up to `K`, the
arithmetic `add` gives what exact sums give, and the entries grow by at most
`M` in size with each cell. -/
theorem foldl_relaxEdge_eq_exact (g : DGraph T) (add : Int → Int → Int) (K M : Int)
    (hM0 : 0 ≤ M) (hadd : ExactAdd add K M) (hM : WeightsWithin g M) (u : Fin g.Size) :
    ∀ (vs : List (Fin g.Size)) (B : Int) (d : Fin g.Size → Int), Within g B d →
      B + vs.length * M ≤ K →
      vs.foldl (fun d1 v => relaxEdge g add d1 u v) d
        = vs.foldl (fun d1 v => relaxEdge g (· + ·) d1 u v) d ∧
      Within g (B + vs.length * M) (vs.foldl (fun d1 v => relaxEdge g (· + ·) d1 u v) d) := by
  intro vs
  induction vs with
  | nil =>
    intro B d hd _
    exact ⟨rfl, by simpa using hd⟩
  | cons v vs ih =>
    intro B d hd hK
    have hlen : ((v :: vs).length : Int) * M = M + vs.length * M := by
      simp only [List.length_cons, Nat.cast_add, Nat.cast_one]
      ring
    have hnn : 0 ≤ (vs.length : Int) * M := mul_nonneg (by omega) hM0
    rw [hlen] at hK ⊢
    have h1 := relaxEdge_eq_exact g add K M B hadd hM (by omega) d hd u v
    have h2 := relaxEdge_within g M B hM0 hM d hd u v
    obtain ⟨h3, h4⟩ := ih (B + M) _ h2 (by omega)
    simp only [List.foldl_cons]
    rw [h1]
    refine ⟨h3, ?_⟩
    rw [show B + (M + vs.length * M) = B + M + vs.length * M by ring]
    exact h4

theorem relaxRow_eq_exact (g : DGraph T) (add : Int → Int → Int) (K M B : Int)
    (hM0 : 0 ≤ M) (hadd : ExactAdd add K M) (hM : WeightsWithin g M)
    (d : Fin g.Size → Int) (hd : Within g B d) (hK : B + g.Size * M ≤ K) (u : Fin g.Size) :
    relaxRow g add d u = relaxRow g (· + ·) d u ∧
      Within g (B + g.Size * M) (relaxRow g (· + ·) d u) := by
  have := foldl_relaxEdge_eq_exact g add K M hM0 hadd hM u (List.finRange g.Size) B d hd
    (by simpa using hK)
  simpa [relaxRow] using this

theorem foldl_relaxRow_eq_exact (g : DGraph T) (add : Int → Int → Int) (K M : Int)
    (hM0 : 0 ≤ M) (hadd : ExactAdd add K M) (hM : WeightsWithin g M) :
    ∀ (us : List (Fin g.Size)) (B : Int) (d : Fin g.Size → Int), Within g B d →
      B + us.length * (g.Size * M) ≤ K →
      us.foldl (relaxRow g add) d = us.foldl (relaxRow g (· + ·)) d ∧
      Within g (B + us.length * (g.Size * M)) (us.foldl (relaxRow g (· + ·)) d) := by
  intro us
  induction us with
  | nil =>
    intro B d hd _
    exact ⟨rfl, by simpa using hd⟩
  | cons u us ih =>
    intro B d hd hK
    have hlen : ((u :: us).length : Int) * (g.Size * M)
        = g.Size * M + us.length * (g.Size * M) := by
      simp only [List.length_cons, Nat.cast_add, Nat.cast_one]
      ring
    have hn : 0 ≤ (g.Size : Int) * M := mul_nonneg (by omega) hM0
    have hnn : 0 ≤ (us.length : Int) * (g.Size * M) := mul_nonneg (by omega) hn
    rw [hlen] at hK ⊢
    obtain ⟨h1, h2⟩ := relaxRow_eq_exact g add K M B hM0 hadd hM d hd (by omega) u
    obtain ⟨h3, h4⟩ := ih (B + g.Size * M) _ h2 (by omega)
    simp only [List.foldl_cons]
    rw [h1]
    refine ⟨h3, ?_⟩
    rw [show B + (g.Size * M + us.length * (g.Size * M))
      = B + g.Size * M + us.length * (g.Size * M) by ring]
    exact h4

theorem relaxPass_eq_exact (g : DGraph T) (add : Int → Int → Int) (K M B : Int)
    (hM0 : 0 ≤ M) (hadd : ExactAdd add K M) (hM : WeightsWithin g M)
    (d : Fin g.Size → Int) (hd : Within g B d) (hK : B + g.Size * (g.Size * M) ≤ K) :
    relaxPass g add d = relaxPass g (· + ·) d ∧
      Within g (B + g.Size * (g.Size * M)) (relaxPass g (· + ·) d) := by
  have := foldl_relaxRow_eq_exact g add K M hM0 hadd hM (List.finRange g.Size) B d hd
    (by simpa using hK)
  simpa [relaxPass] using this

theorem relaxPasses_eq_exact (g : DGraph T) (add : Int → Int → Int) (K M : Int)
    (hM0 : 0 ≤ M) (hadd : ExactAdd add K M) (hM : WeightsWithin g M) :
    ∀ (k : Nat) (B : Int) (d : Fin g.Size → Int), Within g B d →
      B + k * (g.Size * (g.Size * M)) ≤ K →
      relaxPasses g add k d = relaxPasses g (· + ·) k d ∧
      Within g (B + k * (g.Size * (g.Size * M))) (relaxPasses g (· + ·) k d) := by
  intro k
  induction k with
  | zero =>
    intro B d hd _
    exact ⟨rfl, by simpa [relaxPasses] using hd⟩
  | succ k ih =>
    intro B d hd hK
    have hlen : ((k + 1 : Nat) : Int) * (g.Size * (g.Size * M))
        = g.Size * (g.Size * M) + k * (g.Size * (g.Size * M)) := by
      simp only [Nat.cast_add, Nat.cast_one]
      ring
    have hn : 0 ≤ (g.Size : Int) * (g.Size * M) :=
      mul_nonneg (by omega) (mul_nonneg (by omega) hM0)
    have hnn : 0 ≤ (k : Int) * (g.Size * (g.Size * M)) := mul_nonneg (by omega) hn
    rw [hlen] at hK ⊢
    obtain ⟨h1, h2⟩ := relaxPass_eq_exact g add K M B hM0 hadd hM d hd (by omega)
    obtain ⟨h3, h4⟩ := ih (B + g.Size * (g.Size * M)) _ h2 (by omega)
    rw [relaxPasses, relaxPasses, h1]
    refine ⟨h3, ?_⟩
    rw [show B + (g.Size * (g.Size * M) + k * (g.Size * (g.Size * M)))
      = B + g.Size * (g.Size * M) + k * (g.Size * (g.Size * M)) by ring]
    exact h4

theorem improvable_eq_exact (g : DGraph T) (add : Int → Int → Int) (K M B : Int)
    (hadd : ExactAdd add K M) (hM : WeightsWithin g M) (hB : B ≤ K)
    (d : Fin g.Size → Int) (hd : Within g B d) :
    improvable g add d = improvable g (· + ·) d := by
  unfold improvable
  congr 1
  funext u
  congr 1
  funext v
  by_cases hc : g.cell u v ≠ g.INF ∧ d u ≠ g.INF
  · have h1 := hM u v hc.1
    have h2 := (hd u).resolve_left hc.2
    have e : add (d u) (g.cell u v) = d u + g.cell u v :=
      hadd _ _ (by omega) (by omega) h1.1 h1.2
    rw [e]
  · have hf : ∀ x : Int, decide (g.cell u v ≠ g.INF ∧ d u ≠ g.INF ∧ d v > x) = false := by
      intro x
      rw [decide_eq_false_iff_not]
      intro h
      exact hc ⟨h.1, h.2.1⟩
    rw [hf, hf]

/-- The size of the entries of `dist` is at most `n ^ 3 * M`, and with sums
exact up to that size the arithmetic `add` computes what exact sums compute. -/
theorem bellmanFord_eq_exact (g : DGraph T) (add : Int → Int → Int) (M : Int)
    (hM0 : 0 ≤ M) (hM : WeightsWithin g M) (hadd : ExactAdd add (g.Size ^ 3 * M) M)
    (start : T) : g.BellmanFord add start = g.BellmanFord (· + ·) start := by
  unfold BellmanFord
  cases hs : g.startIndex start with
  | error e => rfl
  | ok s =>
    have h0 : Within g 0 (Function.update (fun _ => g.INF) s 0) := by
      intro v
      by_cases hv : v = s
      · subst hv
        rw [Function.update_same]
        exact Or.inr (by omega)
      · rw [Function.update_noteq hv]
        exact Or.inl rfl
    have hn : (1 : Int) ≤ g.Size := by
      have := s.isLt
      omega
    have hk : (((g.Size - 1 : Nat) : Int)) * (g.Size * (g.Size * M)) ≤ g.Size ^ 3 * M := by
      have e1 : ((g.Size - 1 : Nat) : Int) = (g.Size : Int) - 1 := by omega
      rw [e1]
      have hn2 : 0 ≤ (g.Size : Int) * (g.Size * M) :=
        mul_nonneg (by omega) (mul_nonneg (by omega) hM0)
      nlinarith
    obtain ⟨h1, h2⟩ := relaxPasses_eq_exact g add _ M hM0 hadd hM (g.Size - 1) 0 _ h0
      (by omega)
    have h3 := improvable_eq_exact g add _ M _ hadd hM (by omega) _ h2
    simp only [bfDist]
    rw [h1, h3]

/-- A potential `f` with `f v ≤ f u + cell u v` on every edge bounds the
weight of every walk from below. -/
theorem walk_potential_le (g : DGraph T) (f : Fin g.Size → Int)
    (hf : ∀ u v : Fin g.Size, g.Edge u v → f v ≤ f u + g.cell u v)
    {a x : Fin g.Size} {p : List (Fin g.Size)} {w : Int} (h : Walk g a p x w) :
    f x ≤ f a + w := by
  induction h with
  | nil => simp
  | snoc h1 he ih =>
    have := hf _ _ he
    omega

theorem bigWeights_built :
    built 1000000000000000000 ["A", "B", "C"] [("A", "B", 2 ^ 53), ("B", "C", 1)]
      = .ok bigWeights := by
  rfl

theorem roundedCycle_built :
    built 1000000000000000000 ["A", "B", "C"]
      [("A", "B", 2 ^ 54), ("B", "C", -1), ("C", "A", -(2 ^ 54))] = .ok roundedCycle := by
  rfl

theorem falseAlarm_built :
    built 1000000000000000000 ["V", "U", "S"]
      [("S", "U", 2 ^ 53), ("U", "V", 1), ("V", "U", -1)] = .ok falseAlarm := by
  rfl

/-- C1, as stated, fails with the addition of `double`.  The graph
`A -> B : 2 ^ 53`, `B -> C : 1` with the sentinel `10 ^ 18` is well-formed, its
weights are whole numbers, every path from `A` weighs less than the sentinel
and there is no negative cycle; the path `A, B, C` weighs `2 ^ 53 + 1` and no
walk from `A` to `C` weighs less; but `BellmanFord(A)` returns `2 ^ 53` for
`C`, because the sum `2 ^ 53 + 1` is rounded to `2 ^ 53`. -/
theorem BellmanFord_rounding_counterexample :
    bigWeights.WellFormed ∧ 0 < bigWeights.INF ∧
    bigWeights.indexMap "A" = some 0 ∧ bigWeights.indexMap "C" = some 2 ∧
    SimpleBound bigWeights ⟨0, by decide⟩ ∧ ¬ NegCycleFrom bigWeights ⟨0, by decide⟩ ∧
    Walk bigWeights ⟨0, by decide⟩ [⟨2, by decide⟩, ⟨1, by decide⟩, ⟨0, by decide⟩]
      ⟨2, by decide⟩ (2 ^ 53 + 1) ∧
    (∀ p w, Walk bigWeights ⟨0, by decide⟩ p ⟨2, by decide⟩ w → 2 ^ 53 + 1 ≤ w) ∧
    bigWeights.BellmanFord dblAdd "A" = .ok [0, 2 ^ 53, 2 ^ 53] := by
  have hpot : ∀ u v : Fin bigWeights.Size, bigWeights.Edge u v →
      [0, 2 ^ 53, 2 ^ 53 + 1].getD v.val 0
        ≤ [0, 2 ^ 53, 2 ^ 53 + 1].getD u.val 0 + bigWeights.cell u v := by decide
  refine ⟨ofMatrix_wellFormed _ _ _ (by decide) (by decide) (by decide), by decide, by rfl,
    by rfl, simpleBound_of_edge_le bigWeights _ (2 ^ 53) (by decide) (by decide) (by decide),
    noNegCycle_of_potential bigWeights _ (fun i => [0, 2 ^ 53, 2 ^ 53 + 1].getD i.val 0) hpot,
    ?_, ?_, by rfl⟩
  · exact (Walk.snoc (Walk.snoc Walk.nil (by decide)) (by decide) :
      Walk bigWeights ⟨0, by decide⟩ [⟨2, by decide⟩, ⟨1, by decide⟩, ⟨0, by decide⟩]
        ⟨2, by decide⟩ (0 + 9007199254740992 + 1))
  · intro p w hw
    have := walk_potential_le bigWeights
      (fun i => [0, 2 ^ 53, 2 ^ 53 + 1].getD i.val 0) hpot hw
    simpa using this

/-- C2, as stated, fails with the addition of `double`.  The graph
`A -> B : 2 ^ 54`, `B -> C : -1`, `C -> A : -2 ^ 54` with the sentinel
`10 ^ 18` is well-formed, its weights are whole numbers, every path from `A`
weighs less than the sentinel, and the closed walk `A, B, C, A` weighs `-1`;
but `BellmanFord(A)` returns `[0, 2 ^ 54, 2 ^ 54]`, because the sum
`2 ^ 54 - 1` is rounded to `2 ^ 54`. -/
theorem BellmanFord_missed_cycle_counterexample :
    roundedCycle.WellFormed ∧ 0 < roundedCycle.INF ∧ roundedCycle.indexMap "A" = some 0 ∧
    SimpleBound roundedCycle ⟨0, by decide⟩ ∧
    Walk roundedCycle ⟨0, by decide⟩
      [⟨0, by decide⟩, ⟨2, by decide⟩, ⟨1, by decide⟩, ⟨0, by decide⟩] ⟨0, by decide⟩ (-1) ∧
    NegCycleFrom roundedCycle ⟨0, by decide⟩ ∧
    roundedCycle.BellmanFord dblAdd "A" = .ok [0, 2 ^ 54, 2 ^ 54] := by
  have hw : Walk roundedCycle ⟨0, by decide⟩
      [⟨0, by decide⟩, ⟨2, by decide⟩, ⟨1, by decide⟩, ⟨0, by decide⟩] ⟨0, by decide⟩ (-1) :=
    (Walk.snoc (Walk.snoc (Walk.snoc Walk.nil (by decide)) (by decide)) (by decide) :
      Walk roundedCycle ⟨0, by decide⟩
        [⟨0, by decide⟩, ⟨2, by decide⟩, ⟨1, by decide⟩, ⟨0, by decide⟩] ⟨0, by decide⟩
        (0 + 18014398509481984 + -1 + -18014398509481984))
  refine ⟨ofMatrix_wellFormed _ _ _ (by decide) (by decide) (by decide), by decide, by rfl,
    simpleBound_of_edge_le roundedCycle _ (2 ^ 54) (by decide) (by decide) (by decide),
    hw, ⟨⟨0, by decide⟩, _, -1, Relation.ReflTransGen.refl, hw, by decide, by decide⟩, by rfl⟩

/-- C3, as stated, fails with the addition of `double`.  The graph with the
vertices `V`, `U`, `S` and the edges `S -> U : 2 ^ 53`, `U -> V : 1`,
`V -> U : -1`, with the sentinel `10 ^ 18`, is well-formed, its weights are
whole numbers and no closed walk in it has a negative weight; but
`BellmanFord(S)` fails with `NegativeCycle`: the main loop stores
`2 ^ 53 + 1`, rounded to `2 ^ 53`, for `V`, and the final test finds
`2 ^ 53 > 2 ^ 53 - 1` at the edge `V -> U`. -/
theorem BellmanFord_false_cycle_counterexample :
    falseAlarm.WellFormed ∧ 0 < falseAlarm.INF ∧ falseAlarm.indexMap "S" = some 2 ∧
    (∀ (a : Fin falseAlarm.Size) p w, Walk falseAlarm a p a w → 0 ≤ w) ∧
    (∀ s : Fin falseAlarm.Size, ¬ NegCycleFrom falseAlarm s) ∧
    falseAlarm.BellmanFord dblAdd "S" = .error .NegativeCycle := by
  have hpot : ∀ u v : Fin falseAlarm.Size, falseAlarm.Edge u v →
      [2 ^ 53 + 1, 2 ^ 53, 0].getD v.val 0
        ≤ [2 ^ 53 + 1, 2 ^ 53, 0].getD u.val 0 + falseAlarm.cell u v := by decide
  refine ⟨ofMatrix_wellFormed _ _ _ (by decide) (by decide) (by decide), by decide, by rfl,
    ?_, fun s => noNegCycle_of_potential falseAlarm s _ hpot, by rfl⟩
  intro a p w hw
  have := walk_potential_le falseAlarm _ hpot hw
  omega

/-- C1, amended.  Let the weights be whole numbers of size at most `M`, and
let the operator `+` of `W` give the exact sum of every number of size at
most `n ^ 3 * M` and every number of size at most `M`, where `n = Size()`
(the addition of `double` does when `(n ^ 3 + 1) * M < 2 ^ 53`).  Let `start`
have index `s`, let `INF > 0`, let every directed path from `s` without
repeated vertices weigh less than `INF`, and let no negative cycle be
reachable from `s`.  Then `BellmanFord(start)` succeeds with a list of length
`Size()`; its entry for `start` is `0`; its entry at index `i` is, when `i`
is reachable, the least weight of a directed walk from `s` to `i` (attained
by a path without repeated vertices), and `INF` when `i` is not reachable. -/
theorem BellmanFord_shortest (g : DGraph T) (add : Int → Int → Int) (M : Int) (hM0 : 0 ≤ M)
    (hM : WeightsWithin g M) (hadd : ExactAdd add (g.Size ^ 3 * M) M)
    (start : T) (s : Fin g.Size)
    (hs : g.indexMap start = some s.val) (hinf : 0 < g.INF)
    (hbound : SimpleBound g s) (hneg : ¬ NegCycleFrom g s) :
    ∃ dist : List Int, g.BellmanFord add start = .ok dist ∧ dist.length = g.Size ∧
      dist[s.val]? = some 0 ∧
      ∀ i : Fin g.Size, ∃ d : Int, dist[i.val]? = some d ∧
        (g.Reach s i →
          (∃ p, Walk g s p i d ∧ p.Nodup) ∧ ∀ p w, Walk g s p i w → d ≤ w) ∧
        (¬ g.Reach s i → d = g.INF) := by
  rw [bellmanFord_eq_exact g add M hM0 hM hadd start]
  exact shortest_of_exact g start s hs hinf hbound hneg

/-- C2, amended.  Let the weights be whole numbers of size at most `M`, and
let the operator `+` of `W` give the exact sum of every number of size at
most `n ^ 3 * M` and every number of size at most `M`, where `n = Size()`.
Let `start` have index `s` and let every directed path from `s` without
repeated vertices weigh less than `INF` (so `INF > 0`).  If some closed
directed walk of negative total weight starts at a vertex reachable from `s`,
then `BellmanFord(start)` fails with `NegativeCycle`. -/
theorem BellmanFord_detects_negative_cycle (g : DGraph T) (add : Int → Int → Int) (M : Int)
    (hM0 : 0 ≤ M) (hM : WeightsWithin g M) (hadd : ExactAdd add (g.Size ^ 3 * M) M)
    (start : T) (s : Fin g.Size)
    (hs : g.indexMap start = some s.val) (hbound : SimpleBound g s)
    (a : Fin g.Size) (p : List (Fin g.Size)) (w : Int)
    (hreach : g.Reach s a) (hcyc : Walk g a p a w) (hw : w < 0) :
    g.BellmanFord add start = .error .NegativeCycle := by
  rw [bellmanFord_eq_exact g add M hM0 hM hadd start]
  exact detects_negative_cycle_of_exact g start s hs hbound a p w hreach hcyc hw

/-- C3, amended.  Let the weights be whole numbers of size at most `M`, and
let the operator `+` of `W` give the exact sum of every number of size at
most `n ^ 3 * M` and every number of size at most `M`, where `n = Size()`.
Let `INF > 0`.  If `BellmanFord(start)` fails with `NegativeCycle`, then
`start` has an index `s` and a directed cycle of negative total weight,
without repeated vertices, is reachable from `s`. -/
theorem BellmanFord_negative_cycle_sound (g : DGraph T) (add : Int → Int → Int) (M : Int)
    (hM0 : 0 ≤ M) (hM : WeightsWithin g M) (hadd : ExactAdd add (g.Size ^ 3 * M) M)
    (start : T) (hinf : 0 < g.INF)
    (h : g.BellmanFord add start = .error .NegativeCycle) :
    ∃ s : Fin g.Size, g.indexMap start = some s.val ∧ NegCycleFrom g s := by
  rw [bellmanFord_eq_exact g add M hM0 hM hadd start] at h
  exact negative_cycle_sound_of_exact g start hinf h

/-- On the graph `A -> B : 5`, `A -> C : 2`, `C -> B : -3` the weights are of
size at most `5`, the addition of `double` is exact up to `27 * 5 + 5`, the
result from `A` is `[0, -1, 2]`, and the general statement applies to it. -/
theorem BellmanFord_shortest_witness :
    WeightsWithin negEdges 5 ∧ ExactAdd dblAdd (negEdges.Size ^ 3 * 5) 5 ∧
    negEdges.BellmanFord dblAdd "A" = .ok [0, -1, 2] ∧
    ∃ dist : List Int, negEdges.BellmanFord dblAdd "A" = .ok dist ∧
      dist.length = negEdges.Size ∧ dist[0]? = some 0 ∧
      ∀ i : Fin negEdges.Size, ∃ d : Int, dist[i.val]? = some d ∧
        (negEdges.Reach ⟨0, by decide⟩ i →
          (∃ p, Walk negEdges ⟨0, by decide⟩ p i d ∧ p.Nodup) ∧
            ∀ p w, Walk negEdges ⟨0, by decide⟩ p i w → d ≤ w) ∧
        (¬ negEdges.Reach ⟨0, by decide⟩ i → d = negEdges.INF) :=
  ⟨by decide, dblAdd_exact _ _ (by decide), BellmanFord_negEdges,
    BellmanFord_shortest negEdges dblAdd 5 (by decide) (by decide)
      (dblAdd_exact _ _ (by decide)) "A" ⟨0, by decide⟩ (by rfl) (by decide)
      negEdges_simpleBound negEdges_noNegCycle⟩

/-- On the cycle `A -> B : 1`, `B -> C : -2`, `C -> A : -1` the weights are
of size at most `2`, the addition of `double` is exact up to `27 * 2 + 2`,
the paths stay below `INF`, the closed walk `A -> B -> C -> A` weighs `-2`,
and the call from `A` fails with `NegativeCycle`, as the general statement
says. -/
theorem BellmanFord_detects_negative_cycle_witness :
    WeightsWithin negCycle 2 ∧ ExactAdd dblAdd (negCycle.Size ^ 3 * 2) 2 ∧
    SimpleBound negCycle ⟨0, by decide⟩ ∧
    Walk negCycle ⟨0, by decide⟩
      [⟨0, by decide⟩, ⟨2, by decide⟩, ⟨1, by decide⟩, ⟨0, by decide⟩] ⟨0, by decide⟩ (-2) ∧
    negCycle.BellmanFord dblAdd "A" = .error .NegativeCycle :=
  ⟨by decide, dblAdd_exact _ _ (by decide), negCycle_simpleBound, negCycle_walk,
    BellmanFord_detects_negative_cycle negCycle dblAdd 2 (by decide) (by decide)
      (dblAdd_exact _ _ (by decide)) "A" ⟨0, by decide⟩ (by rfl)
      negCycle_simpleBound ⟨0, by decide⟩ _ _ Relation.ReflTransGen.refl negCycle_walk
      (by decide)⟩

/-- On the cycle `A -> B : 1`, `B -> C : -2`, `C -> A : -1` the weights are
of size at most `2`, the addition of `double` is exact up to `27 * 2 + 2`,
the call from `A` fails with `NegativeCycle`, and a negative cycle is
reachable from `A`. -/
theorem BellmanFord_negative_cycle_sound_witness :
    WeightsWithin negCycle 2 ∧ ExactAdd dblAdd (negCycle.Size ^ 3 * 2) 2 ∧
    negCycle.BellmanFord dblAdd "A" = .error .NegativeCycle ∧
    ∃ s : Fin negCycle.Size, negCycle.indexMap "A" = some s.val ∧ NegCycleFrom negCycle s :=
  ⟨by decide, dblAdd_exact _ _ (by decide), BellmanFord_negCycle,
    BellmanFord_negative_cycle_sound negCycle dblAdd 2 (by decide) (by decide)
      (dblAdd_exact _ _ (by decide)) "A" (by decide) BellmanFord_negCycle⟩

end DGraph
